import Mathlib

/-!
Verification of the concurrent Adaptive Radix Tree implementation in
`art.go` (package `art`).

The Go code is shallowly embedded: bytes are `Nat` (Go `byte` ranges over
0..255), keys are `List Nat`, values are a type parameter `V`.  The public
operations `Insert`/`Search` are modelled as the pure state transformers
that the code computes in a sequential (single-threaded, quiescent)
execution: in such an execution every `readLockOrRestart` returns the node's
current version with no restart (no node of a reachable quiescent tree is
locked or obsolete), every `validate` succeeds (no interleaved writer), and
every `upgradeToWriteLockOrRestart` CAS succeeds, so the `goto restart`
edges of `(*Tree).insert` / `(*Tree).search` are dead and the data
manipulation reduces to the recursive functions below.  Version words
themselves are modelled separately (as 64-bit numbers, `% 2^64`) for the
claims about the OLC primitives, and a version-annotated re-embedding of
`search` that threads the whole state is used for the read-only claim.
-/

namespace Art

/-- Go: `const TerminationChar = '\xff'` — the END sentinel edge byte. -/
def TerminationChar : Nat := 255

/-- Go: `const MaxInlinePrefixLength = 8`. -/
def MaxInlinePrefixLength : Nat := 8

/-- The three fields every node variant uses to store its compressed
path: Go's `prefixPtr []byte`, `prefix [MaxInlinePrefixLength]byte` and
`prefixLen uint16` (identical in `node4`, `node16`, `node48`, `node256`).
The fixed 8-byte array is modelled as a list that the operations keep at
length 8. -/
structure PStore where
  ptr : List Nat
  inl : List Nat
  len : Nat
  deriving Repr, DecidableEq

/-- Go: each variant's `getPrefix`: `if n.prefixLen > MaxInlinePrefixLength
{ return n.prefixPtr }; return n.prefix[:n.prefixLen]`. -/
def PStore.get (ps : PStore) : List Nat :=
  if ps.len > MaxInlinePrefixLength then ps.ptr else ps.inl.take ps.len

/-- Go: each variant's `setPrefix`: store the length; if it fits, zero the
inline array and copy the bytes in (`n.prefix = [8]byte{}; copy(...)`),
otherwise point `prefixPtr` at the bytes. -/
def PStore.set (ps : PStore) (pre : List Nat) : PStore :=
  let length := pre.length
  if length ≤ MaxInlinePrefixLength then
    { ps with len := length,
              inl := pre ++ List.replicate (MaxInlinePrefixLength - length) 0 }
  else
    { ps with len := length, ptr := pre }

/-- The zero-value prefix storage of a freshly allocated node. -/
def PStore.empty : PStore :=
  { ptr := [], inl := List.replicate MaxInlinePrefixLength 0, len := 0 }

/-- The node variants of `art.go`: `leaf`, `node4`, `node16`, `node48`,
`node256` (the `node` interface's implementations).  Child-pointer arrays
(`childPtr [4]node` etc.) are lists of `Option (ART V)` kept at the array's
length, `none` standing for a nil entry; `keys [4]uint8` / `keys [16]uint8`
are lists of bytes kept at the array's length (unused entries hold the Go
zero value 0, exactly as the zero-initialised arrays do); `node48.childIndex
[256]int16` is a list of `Int` of length 256 (absent = -1).  The
`versionLockObsolete` words play no role in the sequential data semantics
and are modelled separately. -/
inductive ART (V : Type) : Type where
  | leaf (key : List Nat) (val : V)
  | n4 (ps : PStore) (keys : List Nat) (children : List (Option (ART V))) (num : Nat)
  | n16 (ps : PStore) (keys : List Nat) (children : List (Option (ART V))) (num : Nat)
  | n48 (ps : PStore) (childIndex : List Int) (children : List (Option (ART V))) (num : Nat)
  | n256 (ps : PStore) (children : List (Option (ART V)))
  deriving Repr

variable {V : Type}

/-- Dispatch of the interface method `getPrefix` (a leaf returns nil). -/
def ART.getPre : ART V → List Nat
  | .leaf _ _ => []
  | .n4 ps _ _ _ => ps.get
  | .n16 ps _ _ _ => ps.get
  | .n48 ps _ _ _ => ps.get
  | .n256 ps _ => ps.get

/-- Dispatch of the interface method `setPrefix` (a leaf ignores it). -/
def ART.setPre : ART V → List Nat → ART V
  | .leaf k v, _ => .leaf k v
  | .n4 ps keys cs num, pre => .n4 (ps.set pre) keys cs num
  | .n16 ps keys cs num, pre => .n16 (ps.set pre) keys cs num
  | .n48 ps ci cs num, pre => .n48 (ps.set pre) ci cs num
  | .n256 ps cs, pre => .n256 (ps.set pre) cs

/-- Dispatch of the interface method `isFull`: `numOfChildren == 4` / `16` /
`48`; a leaf and a `node256` are never full. -/
def ART.isFullB : ART V → Bool
  | .leaf _ _ => false
  | .n4 _ _ _ num => num == 4
  | .n16 _ _ _ num => num == 16
  | .n48 _ _ _ num => num == 48
  | .n256 _ _ => false

/-- Dispatch of the interface method `findChild b`.  The Go methods return a
`*node` — nil for "no child", otherwise a pointer to the child's slot (whose
content may itself be nil).  Here `none` is the nil return and `some c` a
pointer to a slot with content `c : Option (ART V)`.
`node4`/`node16`: first index whose `keys` entry equals `b` (the whole
fixed-size array is scanned, including unused zeroed slots).
`node48`: slot `childIndex[b]` when that entry is not -1.
`node256`: the slot at `b`, but only when its content is non-nil. -/
def ART.findChildB : ART V → Nat → Option (Option (ART V))
  | .leaf _ _, _ => none
  | .n4 _ keys cs _, b =>
    match keys.findIdx? (· == b) with
    | some i => some (cs.getD i none)
    | none => none
  | .n16 _ keys cs _, b =>
    match keys.findIdx? (· == b) with
    | some i => some (cs.getD i none)
    | none => none
  | .n48 _ ci cs _, b =>
    if ci.getD b (-1) ≠ -1 then some (cs.getD (ci.getD b (-1)).toNat none) else none
  | .n256 _ cs, b =>
    match cs.getD b none with
    | some c => some (some c)
    | none => none

/-- The position (array index) of the slot `findChild` returns a pointer to:
the functional rendering of the returned `*node`.  For `node256` the index
is the byte itself. -/
def ART.findChildIdx : ART V → Nat → Option Nat
  | .leaf _ _, _ => none
  | .n4 _ keys _ _, b => keys.findIdx? (· == b)
  | .n16 _ keys _ _, b => keys.findIdx? (· == b)
  | .n48 _ ci _ _, b =>
    if ci.getD b (-1) ≠ -1 then some (ci.getD b (-1)).toNat else none
  | .n256 _ cs, b =>
    match cs.getD b none with
    | some _ => some b
    | none => none

/-- Dispatch of the interface method `addChild k child`.
`node4`/`node16`: `keys[num] = k; childPtr[num] = child; num++`.
`node48`: `childIndex[b] = num; childPtr[num] = child; num++`.
`node256`: `ChildPtr[b] = child`.  A leaf ignores it.  (Index-out-of-range
panics of the Go originals are modelled separately by `addChildP`.) -/
def ART.addChildB : ART V → Nat → ART V → ART V
  | .leaf k v, _, _ => .leaf k v
  | .n4 ps keys cs num, b, c => .n4 ps (keys.set num b) (cs.set num (some c)) (num + 1)
  | .n16 ps keys cs num, b, c => .n16 ps (keys.set num b) (cs.set num (some c)) (num + 1)
  | .n48 ps ci cs num, b, c => .n48 ps (ci.set b (Int.ofNat num)) (cs.set num (some c)) (num + 1)
  | .n256 ps cs, b, c => .n256 ps (cs.set b (some c))

/-- Go: `(*node16).grow` builds the 256-entry `childIndex` by
`childIndex[keys[i]] = i` for `i < numOfChildren` over an all(-1) array. -/
def buildChildIndex (keys : List Nat) (num : Nat) : List Int :=
  (List.range num).foldl (fun a i => a.set (keys.getD i 0) (Int.ofNat i))
    (List.replicate 256 (-1))

/-- Dispatch of the interface method `grow`.
`node4 → node16`: keys and children copied into zeroed 16-entry arrays,
prefix storage and count copied verbatim.
`node16 → node48`: children `0..num-1` copied, `childIndex` built from the
keys, prefix storage and count copied.
`node48 → node256`: for every byte with a non-(-1) index the child is copied
to the directly indexed slot.
The Go `leaf.grow` and `node256.grow` return nil and are never invoked (both
report `isFull() == false`, and `grow` is only reached behind that test);
they are modelled as the identity. -/
def ART.growB : ART V → ART V
  | .leaf k v => .leaf k v
  | .n4 ps keys cs num =>
    .n16 ps (keys ++ List.replicate 12 0) (cs ++ List.replicate 12 none) num
  | .n16 ps keys cs num =>
    .n48 ps (buildChildIndex keys num)
      (cs.take num ++ List.replicate (48 - num) none) num
  | .n48 ps ci cs _ =>
    .n256 ps ((List.range 256).map fun b =>
      if ci.getD b (-1) ≠ -1 then cs.getD (ci.getD b (-1)).toNat none else none)
  | .n256 ps cs => .n256 ps cs

/-- Go: `newNode4Locked()` — a zero-valued `node4` (the version word, stored
locked and released before the enclosing insert step finishes, is not part
of the sequential data model). -/
def newNode4 : ART V :=
  .n4 PStore.empty (List.replicate 4 0) (List.replicate 4 none) 0

/-- Go helper `checkPrefix(prefix, key, depth)`: the number of leading bytes
of `prefix` equal to the key bytes from `depth` on, stopping at the first
mismatch or at the key's end. -/
def checkPrefix : List Nat → List Nat → Nat → Nat
  | [], _, _ => 0
  | b :: pre, key, depth =>
    if depth < key.length then
      if key.getD depth 0 = b then checkPrefix pre key (depth + 1) + 1 else 0
    else 0

/-- Go helper: the byte under which `addChild(parent, child, key, pos)` and
`findChild(n, key, depth)` file a child: `key[pos]`, or `TerminationChar`
once the position has run off the key's end (Go's redundant
`len(key) == 0` disjunct is subsumed by `pos >= len(key)`). -/
def edgeByte (key : List Nat) (pos : Nat) : Nat :=
  if pos ≥ key.length then TerminationChar else key.getD pos 0

/-- Go helper `addChild(parent, child, key, pos)`. -/
def addChildK (parent : ART V) (child : ART V) (key : List Nat) (pos : Nat) : ART V :=
  parent.addChildB (edgeByte key pos) child

/-- Go helper `findChild(n, key, depth)`. -/
def findChildK (n : ART V) (key : List Nat) (depth : Nat) : Option (Option (ART V)) :=
  n.findChildB (edgeByte key depth)

/-- Go helper `getCommonPrefix(s1, s2, depth)`: scan `i` from `depth` to
`min(len(s1), len(s2))` for the first mismatch and return `s1[depth:i]`
(`s1[depth:minLen]` when none).  `stop` computes the final `i`; the slice
`s1[depth:i]` is `(s1.take i).drop depth`.  (For `depth > minLen` Go would
panic on the slice; the call sites only reach `depth ≤ minLen`, where the
total model agrees with Go.) -/
def gcpStop (s1 s2 : List Nat) (i : Nat) : Nat → Nat
  | 0 => i
  | rem + 1 =>
    if s1.getD i 0 ≠ s2.getD i 0 then i else gcpStop s1 s2 (i + 1) rem

def getCommonPrefix (s1 s2 : List Nat) (depth : Nat) : List Nat :=
  let minLen := min s1.length s2.length
  (s1.take (gcpStop s1 s2 depth (minLen - depth))).drop depth

/-!
`(*Tree).search` in a sequential execution.  The Go loop walks
`curNodeAddress` down the tree; the recursion below mirrors one loop
iteration per call.  `searchSlot` is the loop body's view of the current
slot (`curNodeAddress`): a nil slot content returns `(nil, false)`
(lines 167-177), a leaf compares the whole key (lines 178-188), an inner
node matches its compressed path and descends through the slot that
`findChild` returns (lines 189-216); `break` with no child found returns
`(nil, false)` (line 217).  `searchChildren` dereferences the slot pointer
`next` at a given array index and continues the loop there.
-/

mutual

def searchSlot : Option (ART V) → List Nat → Nat → Option V × Bool
  | none, _, _ => (none, false)
  | some t, key, depth => searchNode t key depth

def searchNode : ART V → List Nat → Nat → Option V × Bool
  | .leaf k v, key, _ => if k = key then (some v, true) else (none, false)
  | .n4 ps keys cs num, key, depth =>
    let pre := (ART.n4 ps keys cs num (V := V)).getPre
    let p := checkPrefix pre key depth
    if p ≠ pre.length then (none, false)
    else
      match (ART.n4 ps keys cs num (V := V)).findChildIdx (edgeByte key (depth + pre.length)) with
      | some i => searchChildren cs i key (depth + pre.length)
      | none => (none, false)
  | .n16 ps keys cs num, key, depth =>
    let pre := (ART.n16 ps keys cs num (V := V)).getPre
    let p := checkPrefix pre key depth
    if p ≠ pre.length then (none, false)
    else
      match (ART.n16 ps keys cs num (V := V)).findChildIdx (edgeByte key (depth + pre.length)) with
      | some i => searchChildren cs i key (depth + pre.length)
      | none => (none, false)
  | .n48 ps ci cs num, key, depth =>
    let pre := (ART.n48 ps ci cs num (V := V)).getPre
    let p := checkPrefix pre key depth
    if p ≠ pre.length then (none, false)
    else
      match (ART.n48 ps ci cs num (V := V)).findChildIdx (edgeByte key (depth + pre.length)) with
      | some i => searchChildren cs i key (depth + pre.length)
      | none => (none, false)
  | .n256 ps cs, key, depth =>
    let pre := (ART.n256 ps cs (V := V)).getPre
    let p := checkPrefix pre key depth
    if p ≠ pre.length then (none, false)
    else
      match (ART.n256 ps cs (V := V)).findChildIdx (edgeByte key (depth + pre.length)) with
      | some i => searchChildren cs i key (depth + pre.length)
      | none => (none, false)

def searchChildren : List (Option (ART V)) → Nat → List Nat → Nat → Option V × Bool
  | [], _, _, _ => (none, false)
  | c :: _, 0, key, depth => searchSlot c key depth
  | _ :: tl, i + 1, key, depth => searchChildren tl i key depth

end

/-!
`(*Tree).insert` in a sequential execution, as the function from the old
slot content to the new one.  Again one loop iteration per call:
- empty slot: install the new leaf (lines 56-64);
- leaf with the same key: overwrite the value in place (lines 75-80);
- leaf with another key: split into a fresh `node4` whose prefix is the
  common part of the two keys from `depth` on, holding the old leaf and the
  new one (lines 81-94);
- inner node with a partial prefix match: split into a fresh `node4` that
  keeps `curPrefix[:p]`, files the new leaf under `key[depth+p]` (or END)
  and the old node under `curPrefix[p]`, while the old node's own prefix
  becomes `curPrefix[p:]` (lines 103-123; `curNode.setPrefix` runs on the
  aliased child after it was linked, so the functional model trims the
  child before linking it);
- full prefix match: descend through the slot `findChild` returns
  (lines 124-156), or — with no such slot — add the leaf, growing the node
  first when it is full (lines 130-152; the grown node replaces the old one
  in the parent slot and the old node is marked obsolete).
-/

mutual

def insertSlot : Option (ART V) → List Nat → V → Nat → ART V
  | none, key, v, _ => .leaf key v
  | some t, key, v, depth => insertNode t key v depth

def insertNode : ART V → List Nat → V → Nat → ART V
  | .leaf k v0, key, v, depth =>
    if k = key then .leaf k v
    else
      let key2 := k
      let common := getCommonPrefix key key2 depth
      let nn : ART V := newNode4.setPre common
      addChildK (addChildK nn (.leaf key2 v0) key2 (depth + common.length))
        (.leaf key v) key (depth + common.length)
  | .n4 ps keys cs num, key, v, depth =>
    let t := ART.n4 ps keys cs num (V := V)
    let curPre := t.getPre
    let p := checkPrefix curPre key depth
    if p ≠ curPre.length then
      (addChildK (addChildK newNode4 (.leaf key v) key (depth + p))
        (t.setPre (curPre.drop p)) curPre p).setPre (curPre.take p)
    else
      match t.findChildIdx (edgeByte key (depth + curPre.length)) with
      | some i => ART.n4 ps keys (insertChildren cs i key v (depth + curPre.length)) num
      | none =>
        if t.isFullB then addChildK t.growB (.leaf key v) key (depth + curPre.length)
        else addChildK t (.leaf key v) key (depth + curPre.length)
  | .n16 ps keys cs num, key, v, depth =>
    let t := ART.n16 ps keys cs num (V := V)
    let curPre := t.getPre
    let p := checkPrefix curPre key depth
    if p ≠ curPre.length then
      (addChildK (addChildK newNode4 (.leaf key v) key (depth + p))
        (t.setPre (curPre.drop p)) curPre p).setPre (curPre.take p)
    else
      match t.findChildIdx (edgeByte key (depth + curPre.length)) with
      | some i => ART.n16 ps keys (insertChildren cs i key v (depth + curPre.length)) num
      | none =>
        if t.isFullB then addChildK t.growB (.leaf key v) key (depth + curPre.length)
        else addChildK t (.leaf key v) key (depth + curPre.length)
  | .n48 ps ci cs num, key, v, depth =>
    let t := ART.n48 ps ci cs num (V := V)
    let curPre := t.getPre
    let p := checkPrefix curPre key depth
    if p ≠ curPre.length then
      (addChildK (addChildK newNode4 (.leaf key v) key (depth + p))
        (t.setPre (curPre.drop p)) curPre p).setPre (curPre.take p)
    else
      match t.findChildIdx (edgeByte key (depth + curPre.length)) with
      | some i => ART.n48 ps ci (insertChildren cs i key v (depth + curPre.length)) num
      | none =>
        if t.isFullB then addChildK t.growB (.leaf key v) key (depth + curPre.length)
        else addChildK t (.leaf key v) key (depth + curPre.length)
  | .n256 ps cs, key, v, depth =>
    let t := ART.n256 ps cs (V := V)
    let curPre := t.getPre
    let p := checkPrefix curPre key depth
    if p ≠ curPre.length then
      (addChildK (addChildK newNode4 (.leaf key v) key (depth + p))
        (t.setPre (curPre.drop p)) curPre p).setPre (curPre.take p)
    else
      match t.findChildIdx (edgeByte key (depth + curPre.length)) with
      | some i => ART.n256 ps (insertChildren cs i key v (depth + curPre.length))
      | none =>
        if t.isFullB then addChildK t.growB (.leaf key v) key (depth + curPre.length)
        else addChildK t (.leaf key v) key (depth + curPre.length)

def insertChildren : List (Option (ART V)) → Nat → List Nat → V → Nat → List (Option (ART V))
  | [], _, _, _, _ => []
  | c :: tl, 0, key, v, depth => some (insertSlot c key v depth) :: tl
  | c :: tl, i + 1, key, v, depth => c :: insertChildren tl i key v depth

end

/-- Go: `NewART()` — the empty tree (nil root). -/
def NewART : Option (ART V) := none

/-- Go: `(*Tree).Insert(key, val)` — wraps the pair in a fresh leaf and runs
the insert loop from the root slot. -/
def Insert (t : Option (ART V)) (key : List Nat) (v : V) : Option (ART V) :=
  some (insertSlot t key v 0)

/-- Go: `(*Tree).Search(key)` — runs the search loop from the root slot. -/
def Search (t : Option (ART V)) (key : List Nat) : Option V × Bool :=
  searchSlot t key 0

/-- A finite sequence of sequential `Insert`s on a tree created by
`NewART()`. -/
def InsertAll (ops : List (List Nat × V)) : Option (ART V) :=
  ops.foldl (fun t p => Insert t p.1 p.2) NewART

/-- The value of the last `Insert` of key `k` in the sequence (the reference
last-writer-wins map), `none` when `k` never appears. -/
def lastIns (ops : List (List Nat × V)) (k : List Nat) : Option V :=
  ops.foldl (fun acc p => if p.1 = k then some p.2 else acc) none

/-!  ### The 64-bit version/lock/obsolete words

Go: `versionLockObsolete *atomic.Uint64` — 62-bit counter, lock bit (bit 1),
obsolete bit (bit 0).  The words are modelled as natural numbers below
`2^64`; the primitives below are the pure word transformations that the
atomic operations of `art.go` install. -/

def OBSOLETE_BIT : Nat := 1
def LOCK_BIT : Nat := 2
def LOCK_INCREMENT : Nat := 2

/-- `2^64`, the wrap-around modulus of Go's `uint64` arithmetic. -/
def WordSize : Nat := 2 ^ 64

/-- Go: `setLockedBit(version)` = `version | LOCK_BIT`. -/
def setLockedBit (version : Nat) : Nat := version ||| LOCK_BIT

/-- The word installed by `writeUnlock(n)`: `n.version().Add(LOCK_INCREMENT)`
(uint64 addition wraps). -/
def writeUnlockWord (v : Nat) : Nat := (v + LOCK_INCREMENT) % WordSize

/-- The word installed by `writeUnlockObsolete(n)`'s CAS:
`desired := (v | OBSOLETE_BIT) + LOCK_INCREMENT`. -/
def writeUnlockObsoleteWord (v : Nat) : Nat :=
  ((v ||| OBSOLETE_BIT) + LOCK_INCREMENT) % WordSize

/-- The word installed by `upgradeToWriteLockOrRestart(n, version)`'s CAS
when it succeeds: `setLockedBit(version)`. -/
def upgradeWord (v : Nat) : Nat := setLockedBit v

/-- Bit 0 of a version word: the obsolete bit. -/
def obsoleteBit (v : Nat) : Nat := v % 2

/-- Bit 1 of a version word: the lock bit. -/
def lockBit (v : Nat) : Nat := v / 2 % 2

/-- Bits 2..63 of a version word: the 62-bit version counter. -/
def versionCounter (v : Nat) : Nat := v / 4

/-!  ### `addChild` with the Go panic made explicit

`(*node4).addChild` writes `n.keys[n.numOfChildren]` and
`n.childPtr[n.numOfChildren]` into fixed arrays of length 4; on a full node
the index is out of range and the program panics.  Likewise `node16`
(length 16) and `node48` (`childPtr[48]`; its `childIndex[b]` write is
always in bounds since `b` is a byte).  `none` models the panic;
`some` the normal return. -/
def ART.addChildP : ART V → Nat → ART V → Option (ART V)
  | .leaf k v, _, _ => some (.leaf k v)
  | .n4 ps keys cs num, b, c =>
    if num < keys.length ∧ num < cs.length then
      some (.n4 ps (keys.set num b) (cs.set num (some c)) (num + 1))
    else none
  | .n16 ps keys cs num, b, c =>
    if num < keys.length ∧ num < cs.length then
      some (.n16 ps (keys.set num b) (cs.set num (some c)) (num + 1))
    else none
  | .n48 ps ci cs num, b, c =>
    if num < cs.length then
      some (.n48 ps (ci.set b (Int.ofNat num)) (cs.set num (some c)) (num + 1))
    else none
  | .n256 ps cs, b, c => some (.n256 ps (cs.set b (some c)))

/-!  ### The bindings a tree stores -/

mutual

/-- All key/value pairs stored in the leaves under a slot. -/
def bindingsSlot : Option (ART V) → List (List Nat × V)
  | none => []
  | some t => bindingsNode t

def bindingsNode : ART V → List (List Nat × V)
  | .leaf k v => [(k, v)]
  | .n4 _ _ cs _ => bindingsList cs
  | .n16 _ _ cs _ => bindingsList cs
  | .n48 _ _ cs _ => bindingsList cs
  | .n256 _ cs => bindingsList cs

def bindingsList : List (Option (ART V)) → List (List Nat × V)
  | [] => []
  | c :: tl => bindingsSlot c ++ bindingsList tl

end

/-- The keys stored under a slot. -/
def keysUnder (c : Option (ART V)) : List (List Nat) :=
  (bindingsSlot c).map Prod.fst

/-!  ### Well-formedness of reachable trees

`validByte`/`validKey` delimit the keys for which the engine is a correct
map: bytes 1..254 avoid both the END sentinel `TerminationChar = 0xFF`
(which the code files end-of-key edges under without escaping) and the byte
0 (which collides with the zero-initialised unused `keys` entries that
`node4`/`node16` `findChild` scans). -/

def validByte (b : Nat) : Prop := 1 ≤ b ∧ b ≤ 254

def validKey (k : List Nat) : Prop := ∀ b ∈ k, validByte b

instance : DecidablePred validByte := fun b => by unfold validByte; infer_instance

instance : DecidablePred validKey := fun k => by unfold validKey; infer_instance

/-- The slot at index `i` of a child-pointer array. -/
def childAt {α : Type} (cs : List (Option α)) (i : Nat) : Option α :=
  cs.getD i none

/-- Every key under the slot `c` matches the parent's compressed path `pre`
at depth `d` and carries edge byte `b` at position `d + pre.length` (with
`TerminationChar` standing for "the key ends there"). -/
def underEdge (pre : List Nat) (d b : Nat) (c : Option (ART V)) : Prop :=
  ∀ p ∈ bindingsSlot c,
    checkPrefix pre p.1 d = pre.length ∧ edgeByte p.1 (d + pre.length) = b

/-- A compressed path all of whose bytes are valid key bytes. -/
def preOK (pre : List Nat) : Prop := ∀ b ∈ pre, 1 ≤ b ∧ b ≤ 254

/-- The structural invariant of a slot that is reachable, at depth `d`, in a
tree built by sequential `Insert`s of valid keys: array lengths are the
declared capacities, unused array entries hold the Go zero values, used edge
bytes are nonzero bytes and pairwise distinct, `node48`'s `childIndex`
entries point below `numOfChildren` and every used child slot is hit by
one, and every child is itself well-formed one prefix further down with all
its keys matching the node's path and its edge byte. -/
inductive Inv : Option (ART V) → Nat → Prop where
  | nil (d : Nat) : Inv none d
  | leaf (k : List Nat) (v : V) (d : Nat) (hk : validKey k) :
      Inv (some (.leaf k v)) d
  | n4 (ps : PStore) (keys : List Nat) (cs : List (Option (ART V))) (num d : Nat)
      (hkl : keys.length = 4) (hcl : cs.length = 4) (hnum : num ≤ 4)
      (hpre : preOK ps.get)
      (hused : ∀ i, i < num → 1 ≤ keys.getD i 0 ∧ keys.getD i 0 ≤ 255)
      (hkfree : ∀ i, num ≤ i → keys.getD i 0 = 0)
      (hcfree : ∀ i, num ≤ i → childAt cs i = none)
      (hdist : ∀ i j, i < j → j < num → keys.getD i 0 ≠ keys.getD j 0)
      (hsome : ∀ i, i < num → childAt cs i ≠ none)
      (hchild : ∀ i, i < num → Inv (childAt cs i) (d + ps.get.length))
      (hedge : ∀ i, i < num → underEdge ps.get d (keys.getD i 0) (childAt cs i)) :
      Inv (some (.n4 ps keys cs num)) d
  | n16 (ps : PStore) (keys : List Nat) (cs : List (Option (ART V))) (num d : Nat)
      (hkl : keys.length = 16) (hcl : cs.length = 16) (hnum : num ≤ 16)
      (hpre : preOK ps.get)
      (hused : ∀ i, i < num → 1 ≤ keys.getD i 0 ∧ keys.getD i 0 ≤ 255)
      (hkfree : ∀ i, num ≤ i → keys.getD i 0 = 0)
      (hcfree : ∀ i, num ≤ i → childAt cs i = none)
      (hdist : ∀ i j, i < j → j < num → keys.getD i 0 ≠ keys.getD j 0)
      (hsome : ∀ i, i < num → childAt cs i ≠ none)
      (hchild : ∀ i, i < num → Inv (childAt cs i) (d + ps.get.length))
      (hedge : ∀ i, i < num → underEdge ps.get d (keys.getD i 0) (childAt cs i)) :
      Inv (some (.n16 ps keys cs num)) d
  | n48 (ps : PStore) (ci : List Int) (cs : List (Option (ART V))) (num d : Nat)
      (hcil : ci.length = 256) (hcl : cs.length = 48) (hnum : num ≤ 48)
      (hpre : preOK ps.get)
      (hent : ∀ b, ci.getD b (-1) = -1 ∨ ∃ j, j < num ∧ ci.getD b (-1) = Int.ofNat j)
      (hzero : ci.getD 0 (-1) = -1)
      (hinj : ∀ b b', ci.getD b (-1) ≠ -1 → ci.getD b (-1) = ci.getD b' (-1) → b = b')
      (hsurj : ∀ j, j < num → ∃ b, b < 256 ∧ ci.getD b (-1) = Int.ofNat j)
      (hcfree : ∀ j, num ≤ j → childAt cs j = none)
      (hsome : ∀ j, j < num → childAt cs j ≠ none)
      (hchild : ∀ b, ci.getD b (-1) ≠ -1 →
        Inv (childAt cs (ci.getD b (-1)).toNat) (d + ps.get.length))
      (hedge : ∀ b, ci.getD b (-1) ≠ -1 →
        underEdge ps.get d b (childAt cs (ci.getD b (-1)).toNat)) :
      Inv (some (.n48 ps ci cs num)) d
  | n256 (ps : PStore) (cs : List (Option (ART V))) (d : Nat)
      (hcl : cs.length = 256)
      (hpre : preOK ps.get)
      (hzero : childAt cs 0 = none)
      (hchild : ∀ b, b < 256 → Inv (childAt cs b) (d + ps.get.length))
      (hedge : ∀ b, b < 256 → underEdge ps.get d b (childAt cs b)) :
      Inv (some (.n256 ps cs)) d

/-- The insert-correctness property of one slot, at depth `d`: starting from
a well-formed subtree whose keys all agree with the inserted key up to `d`,
inserting yields a well-formed subtree that binds `key` to `v` and keeps
every other binding. -/
def InsP (c : Option (ART V)) (key : List Nat) (v : V) (d : Nat) : Prop :=
  Inv c d → validKey key → d ≤ key.length →
  (∀ p ∈ bindingsSlot c, d ≤ p.1.length ∧
    ∀ j, j < d → p.1.getD j 0 = key.getD j 0) →
  Inv (some (insertSlot c key v d)) d ∧
  (key, v) ∈ bindingsNode (insertSlot c key v d) ∧
  (∀ p ∈ bindingsSlot c, p.1 ≠ key → p ∈ bindingsNode (insertSlot c key v d))

/-!  ### Search as a state transformer

For the read-only claim the tree is re-embedded with every node's
`versionLockObsolete` word (`ver`) part of the state, and `(*Tree).search`
is translated as an explicit state-passing function: every step returns,
besides its outcome, the (sub)tree it worked on, rebuilt from whatever its
descent returned.  The Go body contains no assignment through the tree, so
the returned tree is provably the input — that is the content of the frame
theorem, not an assumption of the model. -/

/-- The node variants with their version words. -/
inductive VART (V : Type) : Type where
  | leaf (key : List Nat) (val : V) (ver : Nat)
  | n4 (ps : PStore) (keys : List Nat) (children : List (Option (VART V))) (num : Nat) (ver : Nat)
  | n16 (ps : PStore) (keys : List Nat) (children : List (Option (VART V))) (num : Nat) (ver : Nat)
  | n48 (ps : PStore) (childIndex : List Int) (children : List (Option (VART V))) (num : Nat) (ver : Nat)
  | n256 (ps : PStore) (children : List (Option (VART V))) (ver : Nat)

/-- The interface method `version()` (the word's current value). -/
def VART.ver : VART V → Nat
  | .leaf _ _ w => w
  | .n4 _ _ _ _ w => w
  | .n16 _ _ _ _ w => w
  | .n48 _ _ _ _ w => w
  | .n256 _ _ w => w

/-- `getPrefix` on the versioned nodes. -/
def VART.getPre : VART V → List Nat
  | .leaf _ _ _ => []
  | .n4 ps _ _ _ _ => ps.get
  | .n16 ps _ _ _ _ => ps.get
  | .n48 ps _ _ _ _ => ps.get
  | .n256 ps _ _ => ps.get

/-- `findChild`'s slot index on the versioned nodes (as in
`ART.findChildIdx`). -/
def VART.findChildIdx : VART V → Nat → Option Nat
  | .leaf _ _ _, _ => none
  | .n4 _ keys _ _ _, b => keys.findIdx? (· == b)
  | .n16 _ keys _ _ _, b => keys.findIdx? (· == b)
  | .n48 _ ci _ _ _, b =>
    if ci.getD b (-1) ≠ -1 then some (ci.getD b (-1)).toNat else none
  | .n256 _ cs _, b =>
    match cs.getD b none with
    | some _ => some b
    | none => none

/-- One pass of the search loop ends in a result, in `goto restart` (an
obsolete node was read, or a `validate` failed), or — sequentially — in the
unbounded spin of `awaitNodeUnlocked` on a locked node (`blocked`). -/
inductive SOut (V : Type) where
  | done (res : Option V × Bool)
  | restart
  | blocked

mutual

/-- One iteration of `(*Tree).search`'s inner loop on the current slot,
returning the outcome and the state.  `readLockOrRestart` (lines 558-569):
a locked word would spin forever in a quiescent sequential run (`blocked`),
an obsolete word signals restart; otherwise the version is captured and the
body proceeds, re-`validate`-ing (a load and compare, lines 570-577) around
every decision exactly as the code does. -/
def searchVSlot : Option (VART V) → List Nat → Nat → SOut V × Option (VART V)
  | none, _, _ => (.done (none, false), none)
  | some t, key, depth =>
    if lockBit t.ver = 1 then (.blocked, some t)
    else if obsoleteBit t.ver = 1 then (.restart, some t)
    else
      let (out, t') := searchVNode t t.ver key depth
      (out, some t')

def searchVNode : VART V → Nat → List Nat → Nat → SOut V × VART V
  | .leaf k v w, version, key, _ =>
    let t := VART.leaf k v w (V := V)
    if t.ver ≠ version then (.restart, t)
    else if k = key then (.done (some v, true), t)
    else (.done (none, false), t)
  | .n4 ps keys cs num w, version, key, depth =>
    let pre := (VART.n4 ps keys cs num w (V := V)).getPre
    let p := checkPrefix pre key depth
    if p ≠ pre.length then
      if (VART.n4 ps keys cs num w (V := V)).ver ≠ version then
        (.restart, .n4 ps keys cs num w)
      else (.done (none, false), .n4 ps keys cs num w)
    else
      match (VART.n4 ps keys cs num w (V := V)).findChildIdx
          (edgeByte key (depth + pre.length)) with
      | some i =>
        if (VART.n4 ps keys cs num w (V := V)).ver ≠ version then
          (.restart, .n4 ps keys cs num w)
        else
          let (out, cs') := searchVChildren cs i key (depth + pre.length)
          (out, .n4 ps keys cs' num w)
      | none =>
        if (VART.n4 ps keys cs num w (V := V)).ver ≠ version then
          (.restart, .n4 ps keys cs num w)
        else (.done (none, false), .n4 ps keys cs num w)
  | .n16 ps keys cs num w, version, key, depth =>
    let pre := (VART.n16 ps keys cs num w (V := V)).getPre
    let p := checkPrefix pre key depth
    if p ≠ pre.length then
      if (VART.n16 ps keys cs num w (V := V)).ver ≠ version then
        (.restart, .n16 ps keys cs num w)
      else (.done (none, false), .n16 ps keys cs num w)
    else
      match (VART.n16 ps keys cs num w (V := V)).findChildIdx
          (edgeByte key (depth + pre.length)) with
      | some i =>
        if (VART.n16 ps keys cs num w (V := V)).ver ≠ version then
          (.restart, .n16 ps keys cs num w)
        else
          let (out, cs') := searchVChildren cs i key (depth + pre.length)
          (out, .n16 ps keys cs' num w)
      | none =>
        if (VART.n16 ps keys cs num w (V := V)).ver ≠ version then
          (.restart, .n16 ps keys cs num w)
        else (.done (none, false), .n16 ps keys cs num w)
  | .n48 ps ci cs num w, version, key, depth =>
    let pre := (VART.n48 ps ci cs num w (V := V)).getPre
    let p := checkPrefix pre key depth
    if p ≠ pre.length then
      if (VART.n48 ps ci cs num w (V := V)).ver ≠ version then
        (.restart, .n48 ps ci cs num w)
      else (.done (none, false), .n48 ps ci cs num w)
    else
      match (VART.n48 ps ci cs num w (V := V)).findChildIdx
          (edgeByte key (depth + pre.length)) with
      | some i =>
        if (VART.n48 ps ci cs num w (V := V)).ver ≠ version then
          (.restart, .n48 ps ci cs num w)
        else
          let (out, cs') := searchVChildren cs i key (depth + pre.length)
          (out, .n48 ps ci cs' num w)
      | none =>
        if (VART.n48 ps ci cs num w (V := V)).ver ≠ version then
          (.restart, .n48 ps ci cs num w)
        else (.done (none, false), .n48 ps ci cs num w)
  | .n256 ps cs w, version, key, depth =>
    let pre := (VART.n256 ps cs w (V := V)).getPre
    let p := checkPrefix pre key depth
    if p ≠ pre.length then
      if (VART.n256 ps cs w (V := V)).ver ≠ version then
        (.restart, .n256 ps cs w)
      else (.done (none, false), .n256 ps cs w)
    else
      match (VART.n256 ps cs w (V := V)).findChildIdx
          (edgeByte key (depth + pre.length)) with
      | some i =>
        if (VART.n256 ps cs w (V := V)).ver ≠ version then
          (.restart, .n256 ps cs w)
        else
          let (out, cs') := searchVChildren cs i key (depth + pre.length)
          (out, .n256 ps cs' w)
      | none =>
        if (VART.n256 ps cs w (V := V)).ver ≠ version then
          (.restart, .n256 ps cs w)
        else (.done (none, false), .n256 ps cs w)

def searchVChildren :
    List (Option (VART V)) → Nat → List Nat → Nat → SOut V × List (Option (VART V))
  | [], _, _, _ => (.done (none, false), [])
  | c :: tl, 0, key, depth =>
    let (out, c') := searchVSlot c key depth
    (out, c' :: tl)
  | c :: tl, i + 1, key, depth =>
    let (out, tl') := searchVChildren tl i key depth
    (out, c :: tl')

end

/-- `(*Tree).search` with its `goto restart` loop: iterate passes (the fuel
bounds how many restarts are taken; a blocked or fuel-exhausted run yields
the dummy result but, like every other run, the final state). -/
def searchV (fuel : Nat) (t : Option (VART V)) (key : List Nat) :
    (Option V × Bool) × Option (VART V) :=
  match fuel with
  | 0 => ((none, false), t)
  | fuel + 1 =>
    match searchVSlot t key 0 with
    | (.done r, t') => (r, t')
    | (.restart, t') => searchV fuel t' key
    | (.blocked, t') => ((none, false), t')

/-!  ## Theorems -/

/-- `setPrefix` then `getPrefix` yields the stored bytes back (inline copy
for short paths, spilled pointer beyond `MaxInlinePrefixLength`). -/
theorem PStore.get_set (ps : PStore) (pre : List Nat) : (ps.set pre).get = pre := by
  unfold PStore.set PStore.get MaxInlinePrefixLength
  by_cases h : pre.length ≤ 8
  · simp only [h, if_pos]
    have h2 : ¬ pre.length > 8 := by omega
    simp only [h2, if_neg, reduceIte]
    rw [List.take_append_of_le_length (le_refl _), List.take_length]
  · simp only [h, if_neg, reduceIte]
    have h2 : pre.length > 8 := by omega
    simp [h2]

/-- Setting bit 0 of a word, arithmetically. -/
theorem lor_one_eq (v : Nat) : v ||| 1 = 2 * (v / 2) + 1 := by
  have h1 : (v ||| 1) % 2 = 1 := by
    have := (Nat.or_mod_two_eq_one (a := v) (b := 1)).mpr (Or.inr rfl)
    exact this
  have h2 : (v ||| 1) / 2 = v / 2 := by
    rw [Nat.or_div_two]
    norm_num
  omega

/-- Setting bit 1 of a word, arithmetically. -/
theorem lor_two_eq (v : Nat) : v ||| 2 = 4 * (v / 4) + 2 + v % 2 := by
  have h2 : (v ||| 2) / 2 = v / 2 ||| 1 := by
    rw [Nat.or_div_two]
  have h3 : v / 2 ||| 1 = 2 * (v / 2 / 2) + 1 := lor_one_eq _
  have h4 : (v ||| 2) % 2 = v % 2 := by
    rcases Nat.mod_two_eq_zero_or_one v with h | h
    · rcases Nat.mod_two_eq_zero_or_one (v ||| 2) with h' | h'
      · omega
      · have := (Nat.or_mod_two_eq_one (a := v) (b := 2)).mp h'
        omega
    · have : (v ||| 2) % 2 = 1 := (Nat.or_mod_two_eq_one (a := v) (b := 2)).mpr (by omega)
      omega
  have h5 : v / 2 / 2 = v / 4 := by omega
  omega

/-- C7: on a version word below `2^64` whose lock bit is set, `writeUnlock`'s
atomic add of `LOCK_INCREMENT` clears the lock bit, leaves the obsolete bit
unchanged and advances the 62-bit counter by exactly one (wrapping), and the
single word `writeUnlockObsolete`'s CAS installs has the obsolete bit set,
the lock bit clear and the counter advanced by exactly one — both effects in
that one word. -/
theorem writeUnlock_words (v : Nat) (_hv : v < WordSize) (hl : lockBit v = 1) :
    lockBit (writeUnlockWord v) = 0 ∧
    obsoleteBit (writeUnlockWord v) = obsoleteBit v ∧
    versionCounter (writeUnlockWord v) = (versionCounter v + 1) % 2 ^ 62 ∧
    lockBit (writeUnlockObsoleteWord v) = 0 ∧
    obsoleteBit (writeUnlockObsoleteWord v) = 1 ∧
    versionCounter (writeUnlockObsoleteWord v) = (versionCounter v + 1) % 2 ^ 62 := by
  have h1 := lor_one_eq v
  unfold writeUnlockWord writeUnlockObsoleteWord lockBit obsoleteBit versionCounter
    WordSize LOCK_INCREMENT OBSOLETE_BIT at *
  have e : (2 : Nat) ^ 64 = 18446744073709551616 := by norm_num
  have e62 : (2 : Nat) ^ 62 = 4611686018427387904 := by norm_num
  rw [e, e62]
  omega

/-- Witness for `writeUnlock_words` at the word 2 (locked, clean, counter 0). -/
theorem writeUnlock_words_witness :
    (2 < WordSize ∧ lockBit 2 = 1) ∧
    (lockBit (writeUnlockWord 2) = 0 ∧
     obsoleteBit (writeUnlockWord 2) = obsoleteBit 2 ∧
     versionCounter (writeUnlockWord 2) = (versionCounter 2 + 1) % 2 ^ 62 ∧
     lockBit (writeUnlockObsoleteWord 2) = 0 ∧
     obsoleteBit (writeUnlockObsoleteWord 2) = 1 ∧
     versionCounter (writeUnlockObsoleteWord 2) = (versionCounter 2 + 1) % 2 ^ 62) :=
  ⟨⟨by unfold WordSize; norm_num, by decide⟩,
   writeUnlock_words 2 (by unfold WordSize; norm_num) (by decide)⟩

/-- C8: every OLC primitive that writes a version word maps a word whose
obsolete bit is set to a word whose obsolete bit is still set: the upgrade
CAS target `setLockedBit v`, `writeUnlock`'s `v + LOCK_INCREMENT`, and
`writeUnlockObsolete`'s `(v | OBSOLETE_BIT) + LOCK_INCREMENT`. -/
theorem obsolete_never_cleared (v : Nat) (ho : obsoleteBit v = 1) :
    obsoleteBit (upgradeWord v) = 1 ∧
    obsoleteBit (writeUnlockWord v) = 1 ∧
    obsoleteBit (writeUnlockObsoleteWord v) = 1 := by
  have h1 := lor_one_eq v
  have h2 := lor_two_eq v
  unfold upgradeWord setLockedBit writeUnlockWord writeUnlockObsoleteWord obsoleteBit
    WordSize LOCK_INCREMENT LOCK_BIT OBSOLETE_BIT at *
  have e : (2 : Nat) ^ 64 = 18446744073709551616 := by norm_num
  rw [e]
  omega

/-- Witness for `obsolete_never_cleared` at the word 1 (obsolete, unlocked). -/
theorem obsolete_never_cleared_witness :
    obsoleteBit 1 = 1 ∧
    (obsoleteBit (upgradeWord 1) = 1 ∧
     obsoleteBit (writeUnlockWord 1) = 1 ∧
     obsoleteBit (writeUnlockObsoleteWord 1) = 1) :=
  ⟨by decide, obsolete_never_cleared 1 (by decide)⟩

/-- One pass of the search loop returns the state it was given: the body
reads (`readLockOrRestart`, prefix compare, `findChild`, `validate`, leaf
compare) but never writes. -/
theorem searchVSlot_frame (c : Option (VART V)) (key : List Nat) (d : Nat) :
    (searchVSlot c key d).2 = c := by
  induction c, key, d using Art.searchVSlot.induct with
  | motive_2 => next t ver k dd => exact (searchVNode t ver k dd).2 = t
  | motive_3 => next cs i k dd => exact (searchVChildren cs i k dd).2 = cs
  | _ =>
    first
    | rfl
    | (simp only [searchVSlot, searchVNode, searchVChildren, *]
       first | rfl | (split <;> simp_all) | simp_all)

/-- C10: `Search` is read-only — however many restart passes the loop takes,
the whole tree (root slot, every node's prefix storage, keys, child
pointers, child counts, leaf keys and values, and every version word) after
the call is the tree before it. -/
theorem search_readonly (fuel : Nat) (t : Option (VART V)) (key : List Nat) :
    (searchV fuel t key).2 = t := by
  induction fuel generalizing t with
  | zero => rfl
  | succ fuel ih =>
    unfold searchV
    have h := searchVSlot_frame t key 0
    rcases hx : searchVSlot t key 0 with ⟨out, t'⟩
    rw [hx] at h
    simp only at h
    cases out with
    | done r => simp [h]
    | restart => simpa [h] using ih t'
    | blocked => simpa using h

/-- C9: with the child count strictly below the class capacity, `addChild`
writes only in bounds (`keys[num]`/`childPtr[num]` with `num` below the
array lengths) and raises the count by exactly one; on a full `node4`,
`node16` or `node48` the write is out of range and the call panics
(`none`) instead of returning. -/
theorem addChild_inbounds_or_panic (ps : PStore) (b : Nat) (cld : ART V) :
    (∀ keys cs num, keys.length = 4 → cs.length = 4 → num < 4 →
      (ART.n4 ps keys cs num).addChildP b cld =
        some (.n4 ps (keys.set num b) (cs.set num (some cld)) (num + 1))) ∧
    (∀ keys cs, keys.length = 4 → cs.length = 4 →
      (ART.n4 ps keys cs 4).addChildP b cld = none) ∧
    (∀ keys cs num, keys.length = 16 → cs.length = 16 → num < 16 →
      (ART.n16 ps keys cs num).addChildP b cld =
        some (.n16 ps (keys.set num b) (cs.set num (some cld)) (num + 1))) ∧
    (∀ keys cs, keys.length = 16 → cs.length = 16 →
      (ART.n16 ps keys cs 16).addChildP b cld = none) ∧
    (∀ ci cs num, cs.length = 48 → num < 48 →
      (ART.n48 ps ci cs num).addChildP b cld =
        some (.n48 ps (ci.set b (Int.ofNat num)) (cs.set num (some cld)) (num + 1))) ∧
    (∀ ci cs, cs.length = 48 →
      (ART.n48 ps ci cs 48).addChildP b cld = none) := by
  refine ⟨?_, ?_, ?_, ?_, ?_, ?_⟩ <;> intros <;> simp_all [ART.addChildP]

/-- Witness for `addChild_inbounds_or_panic`: a fresh `node4` accepts a
child; a full `node4` panics. -/
theorem addChild_inbounds_or_panic_witness :
    (([0, 0, 0, 0] : List Nat).length = 4 ∧ (0 : Nat) < 4 ∧
     (ART.n4 PStore.empty [0, 0, 0, 0] [none, none, none, none] 0).addChildP 7
         (ART.leaf [1] (5 : Nat)) =
       some (.n4 PStore.empty ([0, 0, 0, 0].set 0 7)
         ([none, none, none, none].set 0 (some (.leaf [1] 5))) 1)) ∧
    (ART.n4 PStore.empty [1, 2, 3, 4]
        [some (.leaf [1] (5 : Nat)), some (.leaf [2] 6), some (.leaf [3] 7),
         some (.leaf [4] 8)] 4).addChildP 9 (.leaf [9] 9) = none :=
  ⟨⟨by decide, by decide,
    (addChild_inbounds_or_panic PStore.empty 7 (ART.leaf [1] 5)).1
      [0, 0, 0, 0] [none, none, none, none] 0 (by decide) (by decide) (by decide)⟩,
   (addChild_inbounds_or_panic PStore.empty 9 (ART.leaf [9] 9)).2.1
     [1, 2, 3, 4]
     [some (.leaf [1] 5), some (.leaf [2] 6), some (.leaf [3] 7), some (.leaf [4] 8)]
     (by decide) (by decide)⟩

/-!  ### Bindings bookkeeping -/

theorem bindingsList_append (a b : List (Option (ART V))) :
    bindingsList (a ++ b) = bindingsList a ++ bindingsList b := by
  induction a with
  | nil => simp [bindingsList]
  | cons c tl ih => simp [bindingsList, ih]

theorem bindingsList_replicate_none (n : Nat) :
    bindingsList (List.replicate n (none : Option (ART V))) = [] := by
  induction n with
  | zero => rfl
  | succ n ih => simp [List.replicate, bindingsList, bindingsSlot, ih]

theorem bindingsList_getD (cs : List (Option (ART V))) (i : Nat) (p : List Nat × V)
    (h : p ∈ bindingsSlot (childAt cs i)) : p ∈ bindingsList cs := by
  induction cs generalizing i with
  | nil => simp [childAt, bindingsSlot] at h
  | cons c tl ih =>
    cases i with
    | zero =>
      simp only [childAt, List.getD_cons_zero] at h
      simp only [bindingsList, List.mem_append]
      exact Or.inl h
    | succ j =>
      simp only [childAt, List.getD_cons_succ] at h
      simp only [bindingsList, List.mem_append]
      exact Or.inr (ih j h)

theorem bindingsList_set (cs : List (Option (ART V))) (i : Nat) (x : Option (ART V))
    (p : List Nat × V) (h : p ∈ bindingsList (cs.set i x)) :
    p ∈ bindingsSlot x ∨ p ∈ bindingsList cs := by
  induction cs generalizing i with
  | nil => simp [bindingsList] at h
  | cons c tl ih =>
    cases i with
    | zero =>
      simp only [List.set, bindingsList, List.mem_append] at h
      rcases h with h | h
      · exact Or.inl h
      · exact Or.inr (by simp [bindingsList, h])
    | succ j =>
      simp only [List.set, bindingsList, List.mem_append] at h
      rcases h with h | h
      · exact Or.inr (by simp [bindingsList, h])
      · rcases ih j h with h | h
        · exact Or.inl h
        · exact Or.inr (by simp [bindingsList, h])

theorem bindingsList_map_mem (l : List Nat) (f : Nat → Option (ART V))
    (p : List Nat × V) (h : p ∈ bindingsList (l.map f)) :
    ∃ b ∈ l, p ∈ bindingsSlot (f b) := by
  induction l with
  | nil => simp [bindingsList] at h
  | cons a tl ih =>
    simp only [List.map, bindingsList, List.mem_append] at h
    rcases h with h | h
    · exact ⟨a, by simp, h⟩
    · rcases ih h with ⟨b, hb, hp⟩
      exact ⟨b, by simp [hb], hp⟩

/-- `setPrefix` never touches the stored bindings. -/
theorem bindings_setPre (t : ART V) (pre : List Nat) :
    bindingsNode (t.setPre pre) = bindingsNode t := by
  cases t <;> simp [ART.setPre, bindingsNode]

/-- Whatever `grow` returns stores only bindings of the original node. -/
theorem bindings_grow (t : ART V) (p : List Nat × V)
    (h : p ∈ bindingsNode t.growB) : p ∈ bindingsNode t := by
  cases t with
  | leaf k v => simpa [ART.growB, bindingsNode] using h
  | n4 ps keys cs num =>
    simp only [ART.growB, bindingsNode, bindingsList_append,
      bindingsList_replicate_none, List.append_nil] at h
    exact h
  | n16 ps keys cs num =>
    simp only [ART.growB, bindingsNode, bindingsList_append,
      bindingsList_replicate_none, List.append_nil] at h
    have h2 : cs = cs.take num ++ cs.drop num := by simp
    rw [bindingsNode, h2, bindingsList_append]
    simp [h]
  | n48 ps ci cs num =>
    simp only [ART.growB, bindingsNode] at h
    rcases bindingsList_map_mem _ _ _ h with ⟨b, _, hp⟩
    by_cases hb : ci.getD b (-1) ≠ -1
    · rw [if_pos hb] at hp
      exact bindingsList_getD _ _ _ hp
    · rw [if_neg hb] at hp
      simp [bindingsSlot] at hp
  | n256 ps cs => simpa [ART.growB, bindingsNode] using h

/-- Whatever `addChild` returns stores only bindings of the original node
and of the added child. -/
theorem bindings_addChild (t : ART V) (b : Nat) (c : ART V) (p : List Nat × V)
    (h : p ∈ bindingsNode (t.addChildB b c)) :
    p ∈ bindingsNode c ∨ p ∈ bindingsNode t := by
  cases t with
  | leaf k v => exact Or.inr (by simpa [ART.addChildB] using h)
  | n4 ps keys cs num =>
    simp only [ART.addChildB, bindingsNode] at h ⊢
    exact bindingsList_set cs num _ p h
  | n16 ps keys cs num =>
    simp only [ART.addChildB, bindingsNode] at h ⊢
    exact bindingsList_set cs num _ p h
  | n48 ps ci cs num =>
    simp only [ART.addChildB, bindingsNode] at h ⊢
    exact bindingsList_set cs num _ p h
  | n256 ps cs =>
    simp only [ART.addChildB, bindingsNode] at h ⊢
    exact bindingsList_set cs b _ p h


/-!  ### Branch equations of `insertNode` / `searchNode`

One equation per control-flow branch of the Go loop bodies, used throughout
the proofs below. -/

theorem insertNode_leaf_eq (k : List Nat) (v0 v : V) (d : Nat) :
    insertNode (ART.leaf k v0) k v d = .leaf k v := by
  simp [insertNode]

theorem insertNode_leaf_ne (k key : List Nat) (v0 v : V) (d : Nat) (h : ¬ k = key) :
    insertNode (ART.leaf k v0) key v d =
      addChildK (addChildK ((newNode4 : ART V).setPre (getCommonPrefix key k d))
          (.leaf k v0) k (d + (getCommonPrefix key k d).length))
        (.leaf key v) key (d + (getCommonPrefix key k d).length) := by
  simp only [insertNode]
  rw [if_neg h]

theorem searchNode_leaf (k : List Nat) (v : V) (key : List Nat) (d : Nat) :
    searchNode (ART.leaf k v) key d = if k = key then (some v, true) else (none, false) := by
  simp only [searchNode]

theorem insertNode_n4_split (ps : PStore) (keys : List Nat) (cs : List (Option (ART V))) (num : Nat)
    (key : List Nat) (v : V) (d : Nat)
    (h : checkPrefix ps.get key d ≠ ps.get.length) :
    insertNode (ART.n4 ps keys cs num) key v d =
      (addChildK (addChildK newNode4 (.leaf key v) key (d + checkPrefix ps.get key d))
          ((ART.n4 ps keys cs num (V := V)).setPre (ps.get.drop (checkPrefix ps.get key d)))
          ps.get (checkPrefix ps.get key d)).setPre (ps.get.take (checkPrefix ps.get key d)) := by
  simp only [insertNode, ART.getPre]
  rw [if_pos h]

theorem insertNode_n4_descend (ps : PStore) (keys : List Nat) (cs : List (Option (ART V))) (num : Nat)
    (key : List Nat) (v : V) (d i : Nat)
    (hp : checkPrefix ps.get key d = ps.get.length)
    (hi : (ART.n4 ps keys cs num (V := V)).findChildIdx (edgeByte key (d + ps.get.length)) = some i) :
    insertNode (ART.n4 ps keys cs num) key v d =
      .n4 ps keys (insertChildren cs i key v (d + ps.get.length)) num := by
  simp only [insertNode, ART.getPre]
  rw [if_neg (by simp [hp]), hi]

theorem insertNode_n4_grow (ps : PStore) (keys : List Nat) (cs : List (Option (ART V))) (num : Nat)
    (key : List Nat) (v : V) (d : Nat)
    (hp : checkPrefix ps.get key d = ps.get.length)
    (hi : (ART.n4 ps keys cs num (V := V)).findChildIdx (edgeByte key (d + ps.get.length)) = none)
    (hf : (ART.n4 ps keys cs num (V := V)).isFullB = true) :
    insertNode (ART.n4 ps keys cs num) key v d =
      addChildK (ART.n4 ps keys cs num (V := V)).growB (.leaf key v) key (d + ps.get.length) := by
  simp only [insertNode, ART.getPre]
  rw [if_neg (by simp [hp]), hi, if_pos hf]

theorem insertNode_n4_add (ps : PStore) (keys : List Nat) (cs : List (Option (ART V))) (num : Nat)
    (key : List Nat) (v : V) (d : Nat)
    (hp : checkPrefix ps.get key d = ps.get.length)
    (hi : (ART.n4 ps keys cs num (V := V)).findChildIdx (edgeByte key (d + ps.get.length)) = none)
    (hf : ¬ (ART.n4 ps keys cs num (V := V)).isFullB = true) :
    insertNode (ART.n4 ps keys cs num) key v d =
      addChildK (ART.n4 ps keys cs num (V := V)) (.leaf key v) key (d + ps.get.length) := by
  simp only [insertNode, ART.getPre]
  rw [if_neg (by simp [hp]), hi, if_neg hf]

theorem searchNode_n4_mismatch (ps : PStore) (keys : List Nat) (cs : List (Option (ART V))) (num : Nat)
    (key : List Nat) (d : Nat)
    (h : checkPrefix ps.get key d ≠ ps.get.length) :
    searchNode (ART.n4 ps keys cs num : ART V) key d = (none, false) := by
  simp only [searchNode, ART.getPre]
  rw [if_pos h]

theorem searchNode_n4_descend (ps : PStore) (keys : List Nat) (cs : List (Option (ART V))) (num : Nat)
    (key : List Nat) (d i : Nat)
    (hp : checkPrefix ps.get key d = ps.get.length)
    (hi : (ART.n4 ps keys cs num (V := V)).findChildIdx (edgeByte key (d + ps.get.length)) = some i) :
    searchNode (ART.n4 ps keys cs num : ART V) key d = searchChildren cs i key (d + ps.get.length) := by
  simp only [searchNode, ART.getPre]
  rw [if_neg (by simp [hp]), hi]

theorem searchNode_n4_miss (ps : PStore) (keys : List Nat) (cs : List (Option (ART V))) (num : Nat)
    (key : List Nat) (d : Nat)
    (hp : checkPrefix ps.get key d = ps.get.length)
    (hi : (ART.n4 ps keys cs num (V := V)).findChildIdx (edgeByte key (d + ps.get.length)) = none) :
    searchNode (ART.n4 ps keys cs num : ART V) key d = (none, false) := by
  simp only [searchNode, ART.getPre]
  rw [if_neg (by simp [hp]), hi]

theorem insertNode_n16_split (ps : PStore) (keys : List Nat) (cs : List (Option (ART V))) (num : Nat)
    (key : List Nat) (v : V) (d : Nat)
    (h : checkPrefix ps.get key d ≠ ps.get.length) :
    insertNode (ART.n16 ps keys cs num) key v d =
      (addChildK (addChildK newNode4 (.leaf key v) key (d + checkPrefix ps.get key d))
          ((ART.n16 ps keys cs num (V := V)).setPre (ps.get.drop (checkPrefix ps.get key d)))
          ps.get (checkPrefix ps.get key d)).setPre (ps.get.take (checkPrefix ps.get key d)) := by
  simp only [insertNode, ART.getPre]
  rw [if_pos h]

theorem insertNode_n16_descend (ps : PStore) (keys : List Nat) (cs : List (Option (ART V))) (num : Nat)
    (key : List Nat) (v : V) (d i : Nat)
    (hp : checkPrefix ps.get key d = ps.get.length)
    (hi : (ART.n16 ps keys cs num (V := V)).findChildIdx (edgeByte key (d + ps.get.length)) = some i) :
    insertNode (ART.n16 ps keys cs num) key v d =
      .n16 ps keys (insertChildren cs i key v (d + ps.get.length)) num := by
  simp only [insertNode, ART.getPre]
  rw [if_neg (by simp [hp]), hi]

theorem insertNode_n16_grow (ps : PStore) (keys : List Nat) (cs : List (Option (ART V))) (num : Nat)
    (key : List Nat) (v : V) (d : Nat)
    (hp : checkPrefix ps.get key d = ps.get.length)
    (hi : (ART.n16 ps keys cs num (V := V)).findChildIdx (edgeByte key (d + ps.get.length)) = none)
    (hf : (ART.n16 ps keys cs num (V := V)).isFullB = true) :
    insertNode (ART.n16 ps keys cs num) key v d =
      addChildK (ART.n16 ps keys cs num (V := V)).growB (.leaf key v) key (d + ps.get.length) := by
  simp only [insertNode, ART.getPre]
  rw [if_neg (by simp [hp]), hi, if_pos hf]

theorem insertNode_n16_add (ps : PStore) (keys : List Nat) (cs : List (Option (ART V))) (num : Nat)
    (key : List Nat) (v : V) (d : Nat)
    (hp : checkPrefix ps.get key d = ps.get.length)
    (hi : (ART.n16 ps keys cs num (V := V)).findChildIdx (edgeByte key (d + ps.get.length)) = none)
    (hf : ¬ (ART.n16 ps keys cs num (V := V)).isFullB = true) :
    insertNode (ART.n16 ps keys cs num) key v d =
      addChildK (ART.n16 ps keys cs num (V := V)) (.leaf key v) key (d + ps.get.length) := by
  simp only [insertNode, ART.getPre]
  rw [if_neg (by simp [hp]), hi, if_neg hf]

theorem searchNode_n16_mismatch (ps : PStore) (keys : List Nat) (cs : List (Option (ART V))) (num : Nat)
    (key : List Nat) (d : Nat)
    (h : checkPrefix ps.get key d ≠ ps.get.length) :
    searchNode (ART.n16 ps keys cs num : ART V) key d = (none, false) := by
  simp only [searchNode, ART.getPre]
  rw [if_pos h]

theorem searchNode_n16_descend (ps : PStore) (keys : List Nat) (cs : List (Option (ART V))) (num : Nat)
    (key : List Nat) (d i : Nat)
    (hp : checkPrefix ps.get key d = ps.get.length)
    (hi : (ART.n16 ps keys cs num (V := V)).findChildIdx (edgeByte key (d + ps.get.length)) = some i) :
    searchNode (ART.n16 ps keys cs num : ART V) key d = searchChildren cs i key (d + ps.get.length) := by
  simp only [searchNode, ART.getPre]
  rw [if_neg (by simp [hp]), hi]

theorem searchNode_n16_miss (ps : PStore) (keys : List Nat) (cs : List (Option (ART V))) (num : Nat)
    (key : List Nat) (d : Nat)
    (hp : checkPrefix ps.get key d = ps.get.length)
    (hi : (ART.n16 ps keys cs num (V := V)).findChildIdx (edgeByte key (d + ps.get.length)) = none) :
    searchNode (ART.n16 ps keys cs num : ART V) key d = (none, false) := by
  simp only [searchNode, ART.getPre]
  rw [if_neg (by simp [hp]), hi]

theorem insertNode_n48_split (ps : PStore) (ci : List Int) (cs : List (Option (ART V))) (num : Nat)
    (key : List Nat) (v : V) (d : Nat)
    (h : checkPrefix ps.get key d ≠ ps.get.length) :
    insertNode (ART.n48 ps ci cs num) key v d =
      (addChildK (addChildK newNode4 (.leaf key v) key (d + checkPrefix ps.get key d))
          ((ART.n48 ps ci cs num (V := V)).setPre (ps.get.drop (checkPrefix ps.get key d)))
          ps.get (checkPrefix ps.get key d)).setPre (ps.get.take (checkPrefix ps.get key d)) := by
  simp only [insertNode, ART.getPre]
  rw [if_pos h]

theorem insertNode_n48_descend (ps : PStore) (ci : List Int) (cs : List (Option (ART V))) (num : Nat)
    (key : List Nat) (v : V) (d i : Nat)
    (hp : checkPrefix ps.get key d = ps.get.length)
    (hi : (ART.n48 ps ci cs num (V := V)).findChildIdx (edgeByte key (d + ps.get.length)) = some i) :
    insertNode (ART.n48 ps ci cs num) key v d =
      .n48 ps ci (insertChildren cs i key v (d + ps.get.length)) num := by
  simp only [insertNode, ART.getPre]
  rw [if_neg (by simp [hp]), hi]

theorem insertNode_n48_grow (ps : PStore) (ci : List Int) (cs : List (Option (ART V))) (num : Nat)
    (key : List Nat) (v : V) (d : Nat)
    (hp : checkPrefix ps.get key d = ps.get.length)
    (hi : (ART.n48 ps ci cs num (V := V)).findChildIdx (edgeByte key (d + ps.get.length)) = none)
    (hf : (ART.n48 ps ci cs num (V := V)).isFullB = true) :
    insertNode (ART.n48 ps ci cs num) key v d =
      addChildK (ART.n48 ps ci cs num (V := V)).growB (.leaf key v) key (d + ps.get.length) := by
  simp only [insertNode, ART.getPre]
  rw [if_neg (by simp [hp]), hi, if_pos hf]

theorem insertNode_n48_add (ps : PStore) (ci : List Int) (cs : List (Option (ART V))) (num : Nat)
    (key : List Nat) (v : V) (d : Nat)
    (hp : checkPrefix ps.get key d = ps.get.length)
    (hi : (ART.n48 ps ci cs num (V := V)).findChildIdx (edgeByte key (d + ps.get.length)) = none)
    (hf : ¬ (ART.n48 ps ci cs num (V := V)).isFullB = true) :
    insertNode (ART.n48 ps ci cs num) key v d =
      addChildK (ART.n48 ps ci cs num (V := V)) (.leaf key v) key (d + ps.get.length) := by
  simp only [insertNode, ART.getPre]
  rw [if_neg (by simp [hp]), hi, if_neg hf]

theorem searchNode_n48_mismatch (ps : PStore) (ci : List Int) (cs : List (Option (ART V))) (num : Nat)
    (key : List Nat) (d : Nat)
    (h : checkPrefix ps.get key d ≠ ps.get.length) :
    searchNode (ART.n48 ps ci cs num : ART V) key d = (none, false) := by
  simp only [searchNode, ART.getPre]
  rw [if_pos h]

theorem searchNode_n48_descend (ps : PStore) (ci : List Int) (cs : List (Option (ART V))) (num : Nat)
    (key : List Nat) (d i : Nat)
    (hp : checkPrefix ps.get key d = ps.get.length)
    (hi : (ART.n48 ps ci cs num (V := V)).findChildIdx (edgeByte key (d + ps.get.length)) = some i) :
    searchNode (ART.n48 ps ci cs num : ART V) key d = searchChildren cs i key (d + ps.get.length) := by
  simp only [searchNode, ART.getPre]
  rw [if_neg (by simp [hp]), hi]

theorem searchNode_n48_miss (ps : PStore) (ci : List Int) (cs : List (Option (ART V))) (num : Nat)
    (key : List Nat) (d : Nat)
    (hp : checkPrefix ps.get key d = ps.get.length)
    (hi : (ART.n48 ps ci cs num (V := V)).findChildIdx (edgeByte key (d + ps.get.length)) = none) :
    searchNode (ART.n48 ps ci cs num : ART V) key d = (none, false) := by
  simp only [searchNode, ART.getPre]
  rw [if_neg (by simp [hp]), hi]

theorem insertNode_n256_split (ps : PStore) (cs : List (Option (ART V)))
    (key : List Nat) (v : V) (d : Nat)
    (h : checkPrefix ps.get key d ≠ ps.get.length) :
    insertNode (ART.n256 ps cs) key v d =
      (addChildK (addChildK newNode4 (.leaf key v) key (d + checkPrefix ps.get key d))
          ((ART.n256 ps cs (V := V)).setPre (ps.get.drop (checkPrefix ps.get key d)))
          ps.get (checkPrefix ps.get key d)).setPre (ps.get.take (checkPrefix ps.get key d)) := by
  simp only [insertNode, ART.getPre]
  rw [if_pos h]

theorem insertNode_n256_descend (ps : PStore) (cs : List (Option (ART V)))
    (key : List Nat) (v : V) (d i : Nat)
    (hp : checkPrefix ps.get key d = ps.get.length)
    (hi : (ART.n256 ps cs (V := V)).findChildIdx (edgeByte key (d + ps.get.length)) = some i) :
    insertNode (ART.n256 ps cs) key v d =
      .n256 ps (insertChildren cs i key v (d + ps.get.length)) := by
  simp only [insertNode, ART.getPre]
  rw [if_neg (by simp [hp]), hi]

theorem insertNode_n256_grow (ps : PStore) (cs : List (Option (ART V)))
    (key : List Nat) (v : V) (d : Nat)
    (hp : checkPrefix ps.get key d = ps.get.length)
    (hi : (ART.n256 ps cs (V := V)).findChildIdx (edgeByte key (d + ps.get.length)) = none)
    (hf : (ART.n256 ps cs (V := V)).isFullB = true) :
    insertNode (ART.n256 ps cs) key v d =
      addChildK (ART.n256 ps cs (V := V)).growB (.leaf key v) key (d + ps.get.length) := by
  simp only [insertNode, ART.getPre]
  rw [if_neg (by simp [hp]), hi, if_pos hf]

theorem insertNode_n256_add (ps : PStore) (cs : List (Option (ART V)))
    (key : List Nat) (v : V) (d : Nat)
    (hp : checkPrefix ps.get key d = ps.get.length)
    (hi : (ART.n256 ps cs (V := V)).findChildIdx (edgeByte key (d + ps.get.length)) = none)
    (hf : ¬ (ART.n256 ps cs (V := V)).isFullB = true) :
    insertNode (ART.n256 ps cs) key v d =
      addChildK (ART.n256 ps cs (V := V)) (.leaf key v) key (d + ps.get.length) := by
  simp only [insertNode, ART.getPre]
  rw [if_neg (by simp [hp]), hi, if_neg hf]

theorem searchNode_n256_mismatch (ps : PStore) (cs : List (Option (ART V)))
    (key : List Nat) (d : Nat)
    (h : checkPrefix ps.get key d ≠ ps.get.length) :
    searchNode (ART.n256 ps cs : ART V) key d = (none, false) := by
  simp only [searchNode, ART.getPre]
  rw [if_pos h]

theorem searchNode_n256_descend (ps : PStore) (cs : List (Option (ART V)))
    (key : List Nat) (d i : Nat)
    (hp : checkPrefix ps.get key d = ps.get.length)
    (hi : (ART.n256 ps cs (V := V)).findChildIdx (edgeByte key (d + ps.get.length)) = some i) :
    searchNode (ART.n256 ps cs : ART V) key d = searchChildren cs i key (d + ps.get.length) := by
  simp only [searchNode, ART.getPre]
  rw [if_neg (by simp [hp]), hi]

theorem searchNode_n256_miss (ps : PStore) (cs : List (Option (ART V)))
    (key : List Nat) (d : Nat)
    (hp : checkPrefix ps.get key d = ps.get.length)
    (hi : (ART.n256 ps cs (V := V)).findChildIdx (edgeByte key (d + ps.get.length)) = none) :
    searchNode (ART.n256 ps cs : ART V) key d = (none, false) := by
  simp only [searchNode, ART.getPre]
  rw [if_neg (by simp [hp]), hi]


theorem bindings_newNode4_empty : bindingsNode (newNode4 : ART V) = [] := by
  simp [newNode4, bindingsNode, bindingsList, bindingsSlot, List.replicate]

theorem bindings_newNode4_setPre (pre : List Nat) :
    bindingsNode ((newNode4 : ART V).setPre pre) = [] := by
  simp [newNode4, ART.setPre, bindingsNode, bindingsList, bindingsSlot, List.replicate]

/-- A fresh `node4` that received two children stores exactly their
bindings. -/
theorem bindings_two_children (nn : ART V) (hn : bindingsNode nn = [])
    (a b : ART V) (k1 k2 : List Nat) (p1 p2 : Nat) (p : List Nat × V)
    (hp : p ∈ bindingsNode (addChildK (addChildK nn a k1 p1) b k2 p2)) :
    p ∈ bindingsNode a ∨ p ∈ bindingsNode b := by
  unfold addChildK at hp
  rcases bindings_addChild _ _ _ _ hp with h | h
  · right; exact h
  · rcases bindings_addChild _ _ _ _ h with h | h
    · left; exact h
    · rw [hn] at h; simp at h

/-- `insert` adds no binding beyond the inserted key: every binding of the
result either carries `key` or was already present. -/
theorem bindings_insert_sub (c : Option (ART V)) (key : List Nat) (v : V) (d : Nat) :
    ∀ p ∈ bindingsNode (insertSlot c key v d), p.1 = key ∨ p ∈ bindingsSlot c := by
  induction c, key, v, d using insertSlot.induct with
  | motive_2 => next t k vv dd =>
      exact ∀ p ∈ bindingsNode (insertNode t k vv dd), p.1 = k ∨ p ∈ bindingsNode t
  | motive_3 => next cs i k vv dd =>
      exact ∀ p ∈ bindingsList (insertChildren cs i k vv dd), p.1 = k ∨ p ∈ bindingsList cs
  | case1 v0 key v dd =>
    intro p hp
    rw [insertNode_leaf_eq] at hp
    simp only [bindingsNode, List.mem_singleton] at hp
    exact Or.inl (by rw [hp])
  | case2 k v0 key v dd h =>
    intro p hp
    rw [insertNode_leaf_ne _ _ _ _ _ h] at hp
    rcases bindings_two_children _ (bindings_newNode4_setPre _) _ _ _ _ _ _ _ hp with h2 | h2
    · exact Or.inr h2
    · simp only [bindingsNode, List.mem_singleton] at h2
      exact Or.inl (by rw [h2])
  | case3 ps keys cs num key v dd t curPre pp h =>
    intro p hp
    have h' : checkPrefix (PStore.get ps) key dd ≠ (PStore.get ps).length := h
    rw [insertNode_n4_split ps keys cs num key v dd h'] at hp
    rw [bindings_setPre] at hp
    rcases bindings_two_children _ bindings_newNode4_empty _ _ _ _ _ _ _ hp with h2 | h2
    · simp only [bindingsNode, List.mem_singleton] at h2
      exact Or.inl (by rw [h2])
    · rw [bindings_setPre] at h2
      exact Or.inr h2
  | case4 ps keys cs num key v dd t curPre pp h i hx ih =>
    intro p hp
    have hp' : checkPrefix (PStore.get ps) key dd = (PStore.get ps).length :=
      not_ne_iff.mp h
    have hx' : (ART.n4 ps keys cs num (V := V)).findChildIdx
        (edgeByte key (dd + (PStore.get ps).length)) = some i := hx
    rw [insertNode_n4_descend ps keys cs num key v dd i hp' hx'] at hp
    simp only [bindingsNode] at hp ⊢
    exact ih p hp
  | case5 ps keys cs num key v dd t curPre pp h hx hf =>
    intro p hp
    have hp' : checkPrefix (PStore.get ps) key dd = (PStore.get ps).length :=
      not_ne_iff.mp h
    have hx' : (ART.n4 ps keys cs num (V := V)).findChildIdx
        (edgeByte key (dd + (PStore.get ps).length)) = none := hx
    have hf' : (ART.n4 ps keys cs num (V := V)).isFullB = true := hf
    rw [insertNode_n4_grow ps keys cs num key v dd hp' hx' hf'] at hp
    unfold addChildK at hp
    rcases bindings_addChild _ _ _ _ hp with h2 | h2
    · simp only [bindingsNode, List.mem_singleton] at h2
      exact Or.inl (by rw [h2])
    · exact Or.inr (bindings_grow _ _ h2)
  | case6 ps keys cs num key v dd t curPre pp h hx hf =>
    intro p hp
    have hp' : checkPrefix (PStore.get ps) key dd = (PStore.get ps).length :=
      not_ne_iff.mp h
    have hx' : (ART.n4 ps keys cs num (V := V)).findChildIdx
        (edgeByte key (dd + (PStore.get ps).length)) = none := hx
    have hf' : ¬ (ART.n4 ps keys cs num (V := V)).isFullB = true := hf
    rw [insertNode_n4_add ps keys cs num key v dd hp' hx' hf'] at hp
    unfold addChildK at hp
    rcases bindings_addChild _ _ _ _ hp with h2 | h2
    · simp only [bindingsNode, List.mem_singleton] at h2
      exact Or.inl (by rw [h2])
    · exact Or.inr h2
  | case7 ps keys cs num key v dd t curPre pp h =>
    intro p hp
    have h' : checkPrefix (PStore.get ps) key dd ≠ (PStore.get ps).length := h
    rw [insertNode_n16_split ps keys cs num key v dd h'] at hp
    rw [bindings_setPre] at hp
    rcases bindings_two_children _ bindings_newNode4_empty _ _ _ _ _ _ _ hp with h2 | h2
    · simp only [bindingsNode, List.mem_singleton] at h2
      exact Or.inl (by rw [h2])
    · rw [bindings_setPre] at h2
      exact Or.inr h2
  | case8 ps keys cs num key v dd t curPre pp h i hx ih =>
    intro p hp
    have hp' : checkPrefix (PStore.get ps) key dd = (PStore.get ps).length :=
      not_ne_iff.mp h
    have hx' : (ART.n16 ps keys cs num (V := V)).findChildIdx
        (edgeByte key (dd + (PStore.get ps).length)) = some i := hx
    rw [insertNode_n16_descend ps keys cs num key v dd i hp' hx'] at hp
    simp only [bindingsNode] at hp ⊢
    exact ih p hp
  | case9 ps keys cs num key v dd t curPre pp h hx hf =>
    intro p hp
    have hp' : checkPrefix (PStore.get ps) key dd = (PStore.get ps).length :=
      not_ne_iff.mp h
    have hx' : (ART.n16 ps keys cs num (V := V)).findChildIdx
        (edgeByte key (dd + (PStore.get ps).length)) = none := hx
    have hf' : (ART.n16 ps keys cs num (V := V)).isFullB = true := hf
    rw [insertNode_n16_grow ps keys cs num key v dd hp' hx' hf'] at hp
    unfold addChildK at hp
    rcases bindings_addChild _ _ _ _ hp with h2 | h2
    · simp only [bindingsNode, List.mem_singleton] at h2
      exact Or.inl (by rw [h2])
    · exact Or.inr (bindings_grow _ _ h2)
  | case10 ps keys cs num key v dd t curPre pp h hx hf =>
    intro p hp
    have hp' : checkPrefix (PStore.get ps) key dd = (PStore.get ps).length :=
      not_ne_iff.mp h
    have hx' : (ART.n16 ps keys cs num (V := V)).findChildIdx
        (edgeByte key (dd + (PStore.get ps).length)) = none := hx
    have hf' : ¬ (ART.n16 ps keys cs num (V := V)).isFullB = true := hf
    rw [insertNode_n16_add ps keys cs num key v dd hp' hx' hf'] at hp
    unfold addChildK at hp
    rcases bindings_addChild _ _ _ _ hp with h2 | h2
    · simp only [bindingsNode, List.mem_singleton] at h2
      exact Or.inl (by rw [h2])
    · exact Or.inr h2
  | case11 ps ci cs num key v dd t curPre pp h =>
    intro p hp
    have h' : checkPrefix (PStore.get ps) key dd ≠ (PStore.get ps).length := h
    rw [insertNode_n48_split ps ci cs num key v dd h'] at hp
    rw [bindings_setPre] at hp
    rcases bindings_two_children _ bindings_newNode4_empty _ _ _ _ _ _ _ hp with h2 | h2
    · simp only [bindingsNode, List.mem_singleton] at h2
      exact Or.inl (by rw [h2])
    · rw [bindings_setPre] at h2
      exact Or.inr h2
  | case12 ps ci cs num key v dd t curPre pp h i hx ih =>
    intro p hp
    have hp' : checkPrefix (PStore.get ps) key dd = (PStore.get ps).length :=
      not_ne_iff.mp h
    have hx' : (ART.n48 ps ci cs num (V := V)).findChildIdx
        (edgeByte key (dd + (PStore.get ps).length)) = some i := hx
    rw [insertNode_n48_descend ps ci cs num key v dd i hp' hx'] at hp
    simp only [bindingsNode] at hp ⊢
    exact ih p hp
  | case13 ps ci cs num key v dd t curPre pp h hx hf =>
    intro p hp
    have hp' : checkPrefix (PStore.get ps) key dd = (PStore.get ps).length :=
      not_ne_iff.mp h
    have hx' : (ART.n48 ps ci cs num (V := V)).findChildIdx
        (edgeByte key (dd + (PStore.get ps).length)) = none := hx
    have hf' : (ART.n48 ps ci cs num (V := V)).isFullB = true := hf
    rw [insertNode_n48_grow ps ci cs num key v dd hp' hx' hf'] at hp
    unfold addChildK at hp
    rcases bindings_addChild _ _ _ _ hp with h2 | h2
    · simp only [bindingsNode, List.mem_singleton] at h2
      exact Or.inl (by rw [h2])
    · exact Or.inr (bindings_grow _ _ h2)
  | case14 ps ci cs num key v dd t curPre pp h hx hf =>
    intro p hp
    have hp' : checkPrefix (PStore.get ps) key dd = (PStore.get ps).length :=
      not_ne_iff.mp h
    have hx' : (ART.n48 ps ci cs num (V := V)).findChildIdx
        (edgeByte key (dd + (PStore.get ps).length)) = none := hx
    have hf' : ¬ (ART.n48 ps ci cs num (V := V)).isFullB = true := hf
    rw [insertNode_n48_add ps ci cs num key v dd hp' hx' hf'] at hp
    unfold addChildK at hp
    rcases bindings_addChild _ _ _ _ hp with h2 | h2
    · simp only [bindingsNode, List.mem_singleton] at h2
      exact Or.inl (by rw [h2])
    · exact Or.inr h2
  | case15 ps cs key v dd t curPre pp h =>
    intro p hp
    have h' : checkPrefix (PStore.get ps) key dd ≠ (PStore.get ps).length := h
    rw [insertNode_n256_split ps cs key v dd h'] at hp
    rw [bindings_setPre] at hp
    rcases bindings_two_children _ bindings_newNode4_empty _ _ _ _ _ _ _ hp with h2 | h2
    · simp only [bindingsNode, List.mem_singleton] at h2
      exact Or.inl (by rw [h2])
    · rw [bindings_setPre] at h2
      exact Or.inr h2
  | case16 ps cs key v dd t curPre pp h i hx ih =>
    intro p hp
    have hp' : checkPrefix (PStore.get ps) key dd = (PStore.get ps).length :=
      not_ne_iff.mp h
    have hx' : (ART.n256 ps cs (V := V)).findChildIdx
        (edgeByte key (dd + (PStore.get ps).length)) = some i := hx
    rw [insertNode_n256_descend ps cs key v dd i hp' hx'] at hp
    simp only [bindingsNode] at hp ⊢
    exact ih p hp
  | case17 ps cs key v dd t curPre pp h hx hf =>
    intro p hp
    have hp' : checkPrefix (PStore.get ps) key dd = (PStore.get ps).length :=
      not_ne_iff.mp h
    have hx' : (ART.n256 ps cs (V := V)).findChildIdx
        (edgeByte key (dd + (PStore.get ps).length)) = none := hx
    have hf' : (ART.n256 ps cs (V := V)).isFullB = true := hf
    rw [insertNode_n256_grow ps cs key v dd hp' hx' hf'] at hp
    unfold addChildK at hp
    rcases bindings_addChild _ _ _ _ hp with h2 | h2
    · simp only [bindingsNode, List.mem_singleton] at h2
      exact Or.inl (by rw [h2])
    · exact Or.inr (bindings_grow _ _ h2)
  | case18 ps cs key v dd t curPre pp h hx hf =>
    intro p hp
    have hp' : checkPrefix (PStore.get ps) key dd = (PStore.get ps).length :=
      not_ne_iff.mp h
    have hx' : (ART.n256 ps cs (V := V)).findChildIdx
        (edgeByte key (dd + (PStore.get ps).length)) = none := hx
    have hf' : ¬ (ART.n256 ps cs (V := V)).isFullB = true := hf
    rw [insertNode_n256_add ps cs key v dd hp' hx' hf'] at hp
    unfold addChildK at hp
    rcases bindings_addChild _ _ _ _ hp with h2 | h2
    · simp only [bindingsNode, List.mem_singleton] at h2
      exact Or.inl (by rw [h2])
    · exact Or.inr h2
  | case19 i key v dd =>
    intro p hp
    simp [insertChildren, bindingsList] at hp
  | case20 c tl key v dd ih =>
    intro p hp
    simp only [insertChildren, bindingsList, List.mem_append, bindingsSlot] at hp ⊢
    rcases hp with hp | hp
    · rcases ih p hp with h2 | h2
      · exact Or.inl h2
      · exact Or.inr (Or.inl h2)
    · exact Or.inr (Or.inr hp)
  | case21 c tl i key v dd ih =>
    intro p hp
    simp only [insertChildren, bindingsList, List.mem_append] at hp ⊢
    rcases hp with hp | hp
    · exact Or.inr (Or.inl hp)
    · rcases ih p hp with h2 | h2
      · exact Or.inl h2
      · exact Or.inr (Or.inr h2)
  | case22 key v dd =>
    intro p hp
    simp only [insertSlot, bindingsNode, List.mem_singleton] at hp
    exact Or.inl (by rw [hp])
  | case23 t key v dd ih =>
    intro p hp
    simp only [insertSlot] at hp
    simpa [bindingsSlot] using ih p hp


/-- A key that is under no stored binding is not found: every `search`
return path other than the leaf hit yields `(nil, false)`. -/
theorem search_not_found (c : Option (ART V)) (key : List Nat) (d : Nat) :
    key ∉ (bindingsSlot c).map Prod.fst → searchSlot c key d = (none, false) := by
  induction c, key, d using searchSlot.induct with
  | motive_2 => next t k dd =>
      exact k ∉ (bindingsNode t).map Prod.fst → searchNode t k dd = (none, false)
  | motive_3 => next cs i k dd =>
      exact k ∉ (bindingsList cs).map Prod.fst → searchChildren cs i k dd = (none, false)
  | case1 v key dd =>
    intro hk
    exact absurd (by simp [bindingsNode]) hk
  | case2 k v key dd h =>
    intro _
    rw [searchNode_leaf, if_neg h]
  | case3 ps keys cs num key dd pre pp h =>
    intro _
    exact searchNode_n4_mismatch ps keys cs num key dd h
  | case4 ps keys cs num key dd pre pp h i hx ih =>
    intro hk
    rw [searchNode_n4_descend ps keys cs num key dd i (not_ne_iff.mp h) hx]
    exact ih (by simpa [bindingsNode] using hk)
  | case5 ps keys cs num key dd pre pp h hx =>
    intro _
    exact searchNode_n4_miss ps keys cs num key dd (not_ne_iff.mp h) hx
  | case6 ps keys cs num key dd pre pp h =>
    intro _
    exact searchNode_n16_mismatch ps keys cs num key dd h
  | case7 ps keys cs num key dd pre pp h i hx ih =>
    intro hk
    rw [searchNode_n16_descend ps keys cs num key dd i (not_ne_iff.mp h) hx]
    exact ih (by simpa [bindingsNode] using hk)
  | case8 ps keys cs num key dd pre pp h hx =>
    intro _
    exact searchNode_n16_miss ps keys cs num key dd (not_ne_iff.mp h) hx
  | case9 ps ci cs num key dd pre pp h =>
    intro _
    exact searchNode_n48_mismatch ps ci cs num key dd h
  | case10 ps ci cs num key dd pre pp h i hx ih =>
    intro hk
    rw [searchNode_n48_descend ps ci cs num key dd i (not_ne_iff.mp h) hx]
    exact ih (by simpa [bindingsNode] using hk)
  | case11 ps ci cs num key dd pre pp h hx =>
    intro _
    exact searchNode_n48_miss ps ci cs num key dd (not_ne_iff.mp h) hx
  | case12 ps cs key dd pre pp h =>
    intro _
    exact searchNode_n256_mismatch ps cs key dd h
  | case13 ps cs key dd pre pp h i hx ih =>
    intro hk
    rw [searchNode_n256_descend ps cs key dd i (not_ne_iff.mp h) hx]
    exact ih (by simpa [bindingsNode] using hk)
  | case14 ps cs key dd pre pp h hx =>
    intro _
    exact searchNode_n256_miss ps cs key dd (not_ne_iff.mp h) hx
  | case15 i key dd =>
    intro _
    rfl
  | case16 c tl key dd ih =>
    intro hk
    show searchSlot c key dd = (none, false)
    apply ih
    intro hm
    apply hk
    simp only [bindingsList, List.map_append, List.mem_append]
    exact Or.inl hm
  | case17 c tl i key dd ih =>
    intro hk
    show searchChildren tl i key dd = (none, false)
    apply ih
    intro hm
    apply hk
    simp only [bindingsList, List.map_append, List.mem_append]
    exact Or.inr hm
  | case18 key dd =>
    intro _
    rfl
  | case19 t key dd ih =>
    intro hk
    show searchNode t key dd = (none, false)
    exact ih (by simpa [bindingsSlot] using hk)

/-- Every key stored after a sequence of inserts was inserted by it. -/
theorem bindings_InsertAll (ops : List (List Nat × V)) :
    ∀ p ∈ bindingsSlot (InsertAll ops), p.1 ∈ ops.map Prod.fst := by
  suffices h : ∀ (acc : Option (ART V)) (S : List (List Nat)),
      (∀ p ∈ bindingsSlot acc, p.1 ∈ S) →
      ∀ p ∈ bindingsSlot (ops.foldl (fun t q => Insert t q.1 q.2) acc),
        p.1 ∈ S ++ ops.map Prod.fst by
    have h2 := h NewART [] (by simp [NewART, bindingsSlot])
    simpa [InsertAll] using h2
  induction ops with
  | nil => intro acc S hS p hp; simpa using hS p hp
  | cons q tl ih =>
    intro acc S hS p hp
    simp only [List.foldl] at hp
    have h3 := ih (Insert acc q.1 q.2) (S ++ [q.1]) ?_ p hp
    · simpa [List.append_assoc] using h3
    · intro r hr
      rcases bindings_insert_sub acc q.1 q.2 0 r
          (by simpa [Insert, bindingsSlot] using hr) with h1 | h1
      · simp [h1]
      · simp [hS r h1]

/-- C3: after any sequence of sequential inserts on `NewART()`, searching a
key that equals none of the inserted keys (in particular any key on the
empty tree) returns `(absent, false)`. -/
theorem search_never_inserted (ops : List (List Nat × V)) (k : List Nat)
    (hk : k ∉ ops.map Prod.fst) : Search (InsertAll ops) k = (none, false) := by
  unfold Search
  apply search_not_found
  intro hm
  rcases List.mem_map.mp hm with ⟨p, hp, hfst⟩
  exact hk (hfst ▸ bindings_InsertAll ops p hp)

/-- Witness for `search_never_inserted`: after inserting key `[1]`, key `[2]`
is reported absent. -/
theorem search_never_inserted_witness :
    ([2] ∉ ([([1], 1)] : List (List Nat × Nat)).map Prod.fst) ∧
    Search (InsertAll [([1], (1 : Nat))]) [2] = (none, false) :=
  ⟨by decide, search_never_inserted [([1], 1)] [2] (by decide)⟩

/-- C4, counterexample: after inserting keys `[97]` and `[98]` the root is a
`node4` under which no child was ever added with edge byte 0 — yet
`findChild(0)` does not return the absent marker (nil): it returns a pointer
to the zero-initialised unused slot 2 (whose content is nil), because the
linear scan runs over the whole fixed-size `keys` array. -/
theorem findChild_absent_marker_cex :
    (InsertAll [([97], (1 : Nat)), ([98], 2)]).map (fun t => t.findChildB 0) =
      some (some none) := rfl

/-- C4, amended: `findChild` is as the claim states except at byte 0 on a
non-full `node4`/`node16`, where the zero-initialised unused `keys` entries
shadow absence.  For node states reachable by `addChild` (arrays at
capacity, unused `keys` entries 0, used entries pairwise distinct):
a `node4`/`node16` reports a child absent only for lookup bytes `b ≠ 0`;
it reports the slot of the unique matching entry when one exists (any `b`);
a `node48` reports absent exactly when `childIndex[b]` is -1 and otherwise
the slot it indexes; a `node256` reports absent exactly when the directly
indexed slot is empty. -/
theorem findChild_spec (ps : PStore) :
    (∀ (keys : List Nat) (cs : List (Option (ART V))) (num b : Nat),
      keys.length = 4 → num ≤ 4 → (∀ i, i < 4 → num ≤ i → keys.getD i 0 = 0) →
      ((b ≠ 0 → (∀ i, i < num → keys.getD i 0 ≠ b) →
        (ART.n4 ps keys cs num).findChildB b = none) ∧
       (∀ i, i < num → keys.getD i 0 = b → (∀ j, j < i → keys.getD j 0 ≠ b) →
        (ART.n4 ps keys cs num).findChildB b = some (childAt cs i)))) ∧
    (∀ (keys : List Nat) (cs : List (Option (ART V))) (num b : Nat),
      keys.length = 16 → num ≤ 16 → (∀ i, i < 16 → num ≤ i → keys.getD i 0 = 0) →
      ((b ≠ 0 → (∀ i, i < num → keys.getD i 0 ≠ b) →
        (ART.n16 ps keys cs num).findChildB b = none) ∧
       (∀ i, i < num → keys.getD i 0 = b → (∀ j, j < i → keys.getD j 0 ≠ b) →
        (ART.n16 ps keys cs num).findChildB b = some (childAt cs i)))) ∧
    (∀ (ci : List Int) (cs : List (Option (ART V))) (num b : Nat),
      ((ci.getD b (-1) = -1 → (ART.n48 ps ci cs num).findChildB b = none) ∧
       (∀ j : Nat, ci.getD b (-1) = Int.ofNat j →
        (ART.n48 ps ci cs num).findChildB b = some (childAt cs j)))) ∧
    (∀ (cs : List (Option (ART V))) (b : Nat),
      ((childAt cs b = none → (ART.n256 ps cs).findChildB b = none) ∧
       (∀ c : ART V, childAt cs b = some c →
        (ART.n256 ps cs).findChildB b = some (some c)))) := by
  refine ⟨?_, ?_, ?_, ?_⟩
  · intro keys cs num b hkl hnum hfree
    constructor
    · intro hb habs
      simp only [ART.findChildB]
      have hnone : keys.findIdx? (· == b) = none := by
        rw [List.findIdx?_eq_none_iff]
        intro x hx
        rcases List.mem_iff_getElem.mp hx with ⟨i, hilt, rfl⟩
        have hgd : keys.getD i 0 = keys[i] := List.getD_eq_getElem keys 0 hilt
        by_cases hi : i < num
        · have := habs i hi
          rw [hgd] at this
          simpa using this
        · have := hfree i (by omega) (by omega)
          rw [hgd] at this
          simp [this, Ne.symm hb]
      rw [hnone]
    · intro i hi hib hfirst
      simp only [ART.findChildB]
      have hsome : keys.findIdx? (· == b) = some i := by
        rw [List.findIdx?_eq_some_iff_getElem]
        have hilt : i < keys.length := by omega
        refine ⟨hilt, ?_, ?_⟩
        · have hgd : keys.getD i 0 = keys[i] := List.getD_eq_getElem keys 0 hilt
          rw [hgd] at hib
          simp [hib]
        · intro j hj
          have hjlt : j < keys.length := by omega
          have hgd : keys.getD j 0 = keys[j] := List.getD_eq_getElem keys 0 hjlt
          have := hfirst j hj
          rw [hgd] at this
          simpa using this
      rw [hsome]
      rfl
  · intro keys cs num b hkl hnum hfree
    constructor
    · intro hb habs
      simp only [ART.findChildB]
      have hnone : keys.findIdx? (· == b) = none := by
        rw [List.findIdx?_eq_none_iff]
        intro x hx
        rcases List.mem_iff_getElem.mp hx with ⟨i, hilt, rfl⟩
        have hgd : keys.getD i 0 = keys[i] := List.getD_eq_getElem keys 0 hilt
        by_cases hi : i < num
        · have := habs i hi
          rw [hgd] at this
          simpa using this
        · have := hfree i (by omega) (by omega)
          rw [hgd] at this
          simp [this, Ne.symm hb]
      rw [hnone]
    · intro i hi hib hfirst
      simp only [ART.findChildB]
      have hsome : keys.findIdx? (· == b) = some i := by
        rw [List.findIdx?_eq_some_iff_getElem]
        have hilt : i < keys.length := by omega
        refine ⟨hilt, ?_, ?_⟩
        · have hgd : keys.getD i 0 = keys[i] := List.getD_eq_getElem keys 0 hilt
          rw [hgd] at hib
          simp [hib]
        · intro j hj
          have hjlt : j < keys.length := by omega
          have hgd : keys.getD j 0 = keys[j] := List.getD_eq_getElem keys 0 hjlt
          have := hfirst j hj
          rw [hgd] at this
          simpa using this
      rw [hsome]
      rfl
  · intro ci cs num b
    constructor
    · intro h
      simp only [ART.findChildB]
      rw [if_neg (not_ne_iff.mpr h)]
    · intro j h
      have hne : ci.getD b (-1) ≠ -1 := by
        rw [h]
        intro hc
        rw [Int.ofNat_eq_natCast] at hc
        omega
      simp only [ART.findChildB]
      rw [if_pos hne, h]
      simp [childAt]
  · intro cs b
    constructor
    · intro h
      simp only [childAt, List.getD, List.get?_eq_getElem?] at h
      simp [ART.findChildB, List.getD, List.get?_eq_getElem?, h]
    · intro c h
      simp only [childAt, List.getD, List.get?_eq_getElem?] at h
      simp [ART.findChildB, List.getD, List.get?_eq_getElem?, h]

/-- Witness for `findChild_spec`: on the `node4` with edge bytes 5 and 9,
byte 7 is absent (nil) and byte 9 yields slot 1. -/
theorem findChild_spec_witness :
    (([5, 9, 0, 0] : List Nat).length = 4 ∧ (2 : Nat) ≤ 4 ∧ (7 : Nat) ≠ 0 ∧
     (ART.n4 PStore.empty [5, 9, 0, 0]
       [some (.leaf [5] (1 : Nat)), some (.leaf [9] 2), none, none] 2).findChildB 7 =
         none) ∧
    (ART.n4 PStore.empty [5, 9, 0, 0]
       [some (.leaf [5] (1 : Nat)), some (.leaf [9] 2), none, none] 2).findChildB 9 =
         some (childAt [some (.leaf [5] 1), some (.leaf [9] 2), none, none] 1) :=
  ⟨⟨by decide, by decide, by decide,
    ((findChild_spec PStore.empty).1 [5, 9, 0, 0]
      [some (.leaf [5] 1), some (.leaf [9] 2), none, none] 2 7
      (by decide) (by decide) (by decide)).1 (by decide) (by decide)⟩,
   ((findChild_spec PStore.empty).1 [5, 9, 0, 0]
      [some (.leaf [5] 1), some (.leaf [9] 2), none, none] 2 9
      (by decide) (by decide) (by decide)).2 1 (by decide) (by decide) (by decide)⟩

/-!  ### List index bookkeeping -/

theorem getD_set_eq {α : Type} (l : List α) (i : Nat) (x d : α) (h : i < l.length) :
    (l.set i x).getD i d = x := by
  induction l generalizing i with
  | nil => simp at h
  | cons a tl ih =>
    cases i with
    | zero => rfl
    | succ j =>
      simp only [List.set, List.getD_cons_succ]
      exact ih j (by simpa using h)

theorem getD_set_ne {α : Type} (l : List α) (i j : Nat) (x : α) (d : α) (h : i ≠ j) :
    (l.set i x).getD j d = l.getD j d := by
  induction l generalizing i j with
  | nil => simp
  | cons a tl ih =>
    cases i with
    | zero =>
      cases j with
      | zero => exact absurd rfl h
      | succ k => rfl
    | succ i' =>
      cases j with
      | zero => rfl
      | succ k =>
        simp only [List.set, List.getD_cons_succ]
        exact ih i' k (by omega)

theorem getD_replicate {α : Type} (n i : Nat) (a : α) :
    (List.replicate n a).getD i a = a := by
  induction n generalizing i with
  | zero => simp [List.getD]
  | succ m ih =>
    cases i with
    | zero => rfl
    | succ j =>
      simp only [List.replicate, List.getD_cons_succ]
      exact ih j

theorem getD_range_map {α : Type} (f : Nat → α) (n b : Nat) (d : α) (h : b < n) :
    ((List.range n).map f).getD b d = f b := by
  have h1 : b < ((List.range n).map f).length := by simpa using h
  rw [List.getD_eq_getElem _ _ h1]
  simp

theorem getD_append_left {α : Type} (l₁ l₂ : List α) (i : Nat) (d : α)
    (h : i < l₁.length) : (l₁ ++ l₂).getD i d = l₁.getD i d := by
  induction l₁ generalizing i with
  | nil => simp at h
  | cons a tl ih =>
    cases i with
    | zero => rfl
    | succ j =>
      simp only [List.cons_append, List.getD_cons_succ]
      exact ih j (by simpa using h)

/-!  ### The `childIndex` array `node16.grow` builds -/

theorem buildChildIndex_length (keys : List Nat) (num : Nat) :
    (buildChildIndex keys num).length = 256 := by
  unfold buildChildIndex
  induction num with
  | zero =>
    rw [List.range_zero, List.foldl_nil, List.length_replicate]
  | succ n ih =>
    rw [List.range_succ, List.foldl_append, List.foldl_cons, List.foldl_nil,
      List.length_set]
    exact ih

theorem buildChildIndex_succ (keys : List Nat) (n : Nat) :
    buildChildIndex keys (n + 1) =
      (buildChildIndex keys n).set (keys.getD n 0) (Int.ofNat n) := by
  unfold buildChildIndex
  rw [List.range_succ, List.foldl_append, List.foldl_cons, List.foldl_nil]

theorem buildChildIndex_miss (keys : List Nat) (num : Nat) (b : Nat)
    (hb : ∀ i, i < num → keys.getD i 0 ≠ b) :
    (buildChildIndex keys num).getD b (-1) = -1 := by
  induction num with
  | zero =>
    unfold buildChildIndex
    simp only [List.range_zero, List.foldl_nil]
    exact getD_replicate 256 b (-1)
  | succ n ih =>
    rw [buildChildIndex_succ]
    rw [getD_set_ne _ _ _ _ _ (hb n (by omega))]
    exact ih (fun i hi => hb i (by omega))

theorem buildChildIndex_hit (keys : List Nat) (num : Nat)
    (hlt : ∀ i, i < num → keys.getD i 0 < 256)
    (hdist : ∀ i j, i < j → j < num → keys.getD i 0 ≠ keys.getD j 0) :
    ∀ i, i < num → (buildChildIndex keys num).getD (keys.getD i 0) (-1) = Int.ofNat i := by
  induction num with
  | zero => intro i hi; omega
  | succ n ih =>
    intro i hi
    rw [buildChildIndex_succ]
    by_cases hcase : i = n
    · subst hcase
      exact getD_set_eq _ _ _ _ (by rw [buildChildIndex_length]; exact hlt i (by omega))
    · have hne : keys.getD n 0 ≠ keys.getD i 0 :=
        (hdist i n (by omega) (by omega)).symm
      rw [getD_set_ne _ _ _ _ _ hne]
      exact ih (fun j hj => hlt j (by omega)) (fun j k hjk hk => hdist j k hjk (by omega))
        i (by omega)


/-- C6, counterexample: the tree after inserting `[1]`,`[2]`,`[3]`,`[4]` has
a full `node4` root with no child under byte 0; `findChild(0)` on it is nil,
but on the grown `node16` the twelve zero-initialised new `keys` entries
make `findChild(0)` return a (nil) slot — absence is not preserved. -/
theorem grow_preserves_cex :
    (InsertAll [([1], (1 : Nat)), ([2], 2), ([3], 3), ([4], 4)]).map
      (fun t => (t.isFullB, t.findChildB 0, t.growB.findChildB 0)) =
      some (true, none, some none) := rfl

/-- C6, amended: `grow()` keeps the prefix verbatim and preserves
`findChild` — except at byte 0 for `node4`→`node16`, where it is preserved
only when byte 0 is actually present (the zeroed new `keys` entries shadow
absence); `node16`→`node48` (distinct stored bytes, as `addChild` under
`findChild = nil` guarantees) and `node48`→`node256` (indexed slots
non-empty) preserve it at every byte. -/
theorem grow_preserves_findChild (ps : PStore) :
    (∀ (keys : List Nat) (cs : List (Option (ART V))),
      keys.length = 4 → cs.length = 4 →
      ((ART.n4 ps keys cs 4).growB.getPre = (ART.n4 ps keys cs 4 (V := V)).getPre ∧
       ∀ b, (b ≠ 0 ∨ ∃ i, i < 4 ∧ keys.getD i 0 = b) →
         (ART.n4 ps keys cs 4).growB.findChildB b =
           (ART.n4 ps keys cs 4 (V := V)).findChildB b)) ∧
    (∀ (keys : List Nat) (cs : List (Option (ART V))),
      keys.length = 16 → cs.length = 16 →
      (∀ i, i < 16 → keys.getD i 0 < 256) →
      (∀ i j, i < j → j < 16 → keys.getD i 0 ≠ keys.getD j 0) →
      ((ART.n16 ps keys cs 16).growB.getPre = (ART.n16 ps keys cs 16 (V := V)).getPre ∧
       ∀ b, (ART.n16 ps keys cs 16).growB.findChildB b =
         (ART.n16 ps keys cs 16 (V := V)).findChildB b)) ∧
    (∀ (ci : List Int) (cs : List (Option (ART V))),
      ci.length = 256 → cs.length = 48 →
      (∀ b : Nat, b < 256 → ci.getD b (-1) = -1 ∨
        ∃ j : Nat, j < 48 ∧ ci.getD b (-1) = Int.ofNat j ∧ childAt cs j ≠ none) →
      ((ART.n48 ps ci cs 48).growB.getPre = (ART.n48 ps ci cs 48 (V := V)).getPre ∧
       ∀ b, b < 256 → (ART.n48 ps ci cs 48).growB.findChildB b =
         (ART.n48 ps ci cs 48 (V := V)).findChildB b)) := by
  refine ⟨?_, ?_, ?_⟩
  · intro keys cs hkl hcl
    refine ⟨rfl, ?_⟩
    intro b hb
    simp only [ART.growB, ART.findChildB]
    rw [List.findIdx?_append]
    rcases hcase : keys.findIdx? (· == b) with _ | i
    · have hb0 : b ≠ 0 := by
        rcases hb with hb | ⟨i, hi, hkey⟩
        · exact hb
        · exfalso
          rw [List.findIdx?_eq_none_iff] at hcase
          have hilt : i < keys.length := by omega
          have hmem := hcase keys[i] (List.getElem_mem hilt)
          rw [List.getD_eq_getElem _ _ hilt] at hkey
          simp [hkey] at hmem
      have hz : (List.replicate 12 (0 : Nat)).findIdx? (· == b) = none := by
        rw [List.findIdx?_eq_none_iff]
        intro x hx
        rw [List.eq_of_mem_replicate hx]
        simp [Ne.symm hb0]
      rw [hz]
      rfl
    · have hilt : i < keys.length := (List.findIdx?_eq_some_iff_getElem.mp hcase).1
      rw [Option.or_some]
      have hgd := getD_append_left cs (List.replicate 12 (none : Option (ART V))) i none
        (by omega)
      simp only [hgd]
  · intro keys cs hkl hcl hbyte hdist
    refine ⟨rfl, ?_⟩
    intro b
    simp only [ART.growB, ART.findChildB]
    rcases hcase : keys.findIdx? (· == b) with _ | i
    · have hmiss : ∀ i, i < 16 → keys.getD i 0 ≠ b := by
        intro i hi
        rw [List.findIdx?_eq_none_iff] at hcase
        have hilt : i < keys.length := by omega
        have hmem := hcase keys[i] (List.getElem_mem hilt)
        rw [List.getD_eq_getElem _ _ hilt]
        simpa using hmem
      rw [buildChildIndex_miss keys 16 b hmiss]
      simp
    · obtain ⟨hilt, hpi, hfirst⟩ := List.findIdx?_eq_some_iff_getElem.mp hcase
      have hkb : keys.getD i 0 = b := by
        rw [List.getD_eq_getElem _ _ hilt]
        simpa using hpi
      have hhit := buildChildIndex_hit keys 16 hbyte hdist i (by omega)
      rw [hkb] at hhit
      have hne : (buildChildIndex keys 16).getD b (-1) ≠ -1 := by
        rw [hhit]
        intro hc
        rw [Int.ofNat_eq_natCast] at hc
        omega
      have h16 : cs.take 16 = cs := by rw [← hcl, List.take_length]
      rw [if_pos hne, hhit, h16]
      simp only [Int.ofNat_eq_natCast, Int.toNat_ofNat]
      have hgd := getD_append_left cs (List.replicate 32 (none : Option (ART V))) i none
        (by omega)
      simp only [hgd]
  · intro ci cs hcil hcl hent
    refine ⟨rfl, ?_⟩
    intro b hb256
    simp only [ART.growB, ART.findChildB]
    rw [getD_range_map _ 256 b _ hb256]
    by_cases hci : ci.getD b (-1) ≠ -1
    · rcases hent b hb256 with h | ⟨j, hj48, hjeq, hcne⟩
      · exact absurd h hci
      · rw [if_pos hci, if_pos hci, hjeq]
        rcases hc : cs.getD j none with _ | c
        · exact absurd (by unfold childAt; rw [hc]) hcne
        · simp only [Int.ofNat_eq_natCast, Int.toNat_ofNat]
          simp only [hc]
    · rw [if_neg hci, if_neg hci]

/-- Witness for `grow_preserves_findChild`: growing a full `node4` keeps
the child under edge byte 3. -/
theorem grow_preserves_findChild_witness :
    (([1, 2, 3, 4] : List Nat).length = 4 ∧
     ((3 : Nat) ≠ 0 ∨ ∃ i, i < 4 ∧ ([1, 2, 3, 4] : List Nat).getD i 0 = 3)) ∧
    (ART.n4 PStore.empty [1, 2, 3, 4]
        [some (.leaf [1] (1 : Nat)), some (.leaf [2] 2), some (.leaf [3] 3),
         some (.leaf [4] 4)] 4).growB.findChildB 3 =
      (ART.n4 PStore.empty [1, 2, 3, 4]
        [some (.leaf [1] (1 : Nat)), some (.leaf [2] 2), some (.leaf [3] 3),
         some (.leaf [4] 4)] 4).findChildB 3 :=
  ⟨⟨by decide, Or.inl (by decide)⟩,
   ((grow_preserves_findChild PStore.empty).1 [1, 2, 3, 4]
      [some (.leaf [1] 1), some (.leaf [2] 2), some (.leaf [3] 3), some (.leaf [4] 4)]
      (by decide) (by decide)).2 3 (Or.inl (by decide))⟩


/-- C5, counterexample: inserting `"axy"` into a tree holding `"abc"`,
`"abd"` splits the root (old prefix `[97,98]`, match length `p = 1`).  The
re-attached old node retains prefix `[98]` — that is `prefix[p:]`, whose
first byte repeats the edge byte 98 — not the `prefix[p+1:] = []` the claim
states. -/
theorem split_retains_cex :
    ((InsertAll [([97, 98, 99], (1 : Nat)), ([97, 98, 100], 2), ([97, 120, 121], 3)]).bind
      (fun t => (t.findChildB 98).bind (fun s => s.map ART.getPre))) = some [98] ∧
    ([98] : List Nat) ≠ List.drop (1 + 1) [97, 98] := ⟨rfl, by decide⟩

theorem checkPrefix_le (pre key : List Nat) (d : Nat) :
    checkPrefix pre key d ≤ pre.length := by
  induction pre generalizing d with
  | nil => simp [checkPrefix]
  | cons b tl ih =>
    simp only [checkPrefix]
    split
    · split
      · have := ih (d + 1); simp; omega
      · simp
    · simp

theorem edgeByte_eq_getD (k : List Nat) (pos : Nat) (h : pos < k.length) :
    edgeByte k pos = k.getD pos 0 := by
  unfold edgeByte
  rw [if_neg (by omega)]

/-- C5, amended: when insert meets an inner node `N` whose prefix matches
the key for only `p < |N.prefix|` bytes, the split creates a new `node4`
whose prefix is `N.prefix[:p]` and re-attaches `N` under the single edge
byte `N.prefix[p]` — but that byte is NOT consumed by the edge: `N`
afterwards retains exactly `N.prefix[p:]` (its first byte equal to the edge
byte; the code's descent convention never advances the depth across an
edge, so child prefixes start at the edge byte). -/
theorem split_retains (t : ART V) (key : List Nat) (v : V) (d : Nat)
    (hleaf : ∀ k v0, t ≠ .leaf k v0)
    (hp : checkPrefix t.getPre key d ≠ t.getPre.length)
    (hedge : edgeByte key (d + checkPrefix t.getPre key d) ≠
      t.getPre.getD (checkPrefix t.getPre key d) 0) :
    (insertNode t key v d).getPre = t.getPre.take (checkPrefix t.getPre key d) ∧
    (insertNode t key v d).findChildB (t.getPre.getD (checkPrefix t.getPre key d) 0) =
      some (some (t.setPre (t.getPre.drop (checkPrefix t.getPre key d)))) ∧
    (insertNode t key v d).findChildB (edgeByte key (d + checkPrefix t.getPre key d)) =
      some (some (.leaf key v)) ∧
    (t.setPre (t.getPre.drop (checkPrefix t.getPre key d))).getPre =
      t.getPre.drop (checkPrefix t.getPre key d) := by
  cases t with
  | leaf k v0 => exact absurd rfl (hleaf k v0)
  | n4 ps keys cs num =>
    simp only [ART.getPre] at hp hedge ⊢
    have hlt : checkPrefix ps.get key d < ps.get.length :=
      lt_of_le_of_ne (checkPrefix_le _ _ _) hp
    have hedge2 : edgeByte key (d + checkPrefix ps.get key d) ≠
        edgeByte ps.get (checkPrefix ps.get key d) := by
      rw [edgeByte_eq_getD _ _ hlt]; exact hedge
    rw [insertNode_n4_split ps keys cs num key v d hp, ← edgeByte_eq_getD _ _ hlt]
    refine ⟨?_, ?_, ?_, ?_⟩
    · simp [addChildK, ART.addChildB, newNode4, ART.setPre, ART.getPre, PStore.get_set]
    · simp [addChildK, ART.addChildB, newNode4, ART.setPre, ART.findChildB,
        List.replicate, List.findIdx?_cons, beq_iff_eq, hedge2, childAt]
    · simp [addChildK, ART.addChildB, newNode4, ART.setPre, ART.findChildB,
        List.replicate, List.findIdx?_cons, beq_iff_eq, hedge2, childAt]
    · simp [ART.setPre, ART.getPre, PStore.get_set]
  | n16 ps keys cs num =>
    simp only [ART.getPre] at hp hedge ⊢
    have hlt : checkPrefix ps.get key d < ps.get.length :=
      lt_of_le_of_ne (checkPrefix_le _ _ _) hp
    have hedge2 : edgeByte key (d + checkPrefix ps.get key d) ≠
        edgeByte ps.get (checkPrefix ps.get key d) := by
      rw [edgeByte_eq_getD _ _ hlt]; exact hedge
    rw [insertNode_n16_split ps keys cs num key v d hp, ← edgeByte_eq_getD _ _ hlt]
    refine ⟨?_, ?_, ?_, ?_⟩
    · simp [addChildK, ART.addChildB, newNode4, ART.setPre, ART.getPre, PStore.get_set]
    · simp [addChildK, ART.addChildB, newNode4, ART.setPre, ART.findChildB,
        List.replicate, List.findIdx?_cons, beq_iff_eq, hedge2, childAt]
    · simp [addChildK, ART.addChildB, newNode4, ART.setPre, ART.findChildB,
        List.replicate, List.findIdx?_cons, beq_iff_eq, hedge2, childAt]
    · simp [ART.setPre, ART.getPre, PStore.get_set]
  | n48 ps ci cs num =>
    simp only [ART.getPre] at hp hedge ⊢
    have hlt : checkPrefix ps.get key d < ps.get.length :=
      lt_of_le_of_ne (checkPrefix_le _ _ _) hp
    have hedge2 : edgeByte key (d + checkPrefix ps.get key d) ≠
        edgeByte ps.get (checkPrefix ps.get key d) := by
      rw [edgeByte_eq_getD _ _ hlt]; exact hedge
    rw [insertNode_n48_split ps ci cs num key v d hp, ← edgeByte_eq_getD _ _ hlt]
    refine ⟨?_, ?_, ?_, ?_⟩
    · simp [addChildK, ART.addChildB, newNode4, ART.setPre, ART.getPre, PStore.get_set]
    · simp [addChildK, ART.addChildB, newNode4, ART.setPre, ART.findChildB,
        List.replicate, List.findIdx?_cons, beq_iff_eq, hedge2, childAt]
    · simp [addChildK, ART.addChildB, newNode4, ART.setPre, ART.findChildB,
        List.replicate, List.findIdx?_cons, beq_iff_eq, hedge2, childAt]
    · simp [ART.setPre, ART.getPre, PStore.get_set]
  | n256 ps cs =>
    simp only [ART.getPre] at hp hedge ⊢
    have hlt : checkPrefix ps.get key d < ps.get.length :=
      lt_of_le_of_ne (checkPrefix_le _ _ _) hp
    have hedge2 : edgeByte key (d + checkPrefix ps.get key d) ≠
        edgeByte ps.get (checkPrefix ps.get key d) := by
      rw [edgeByte_eq_getD _ _ hlt]; exact hedge
    rw [insertNode_n256_split ps cs key v d hp, ← edgeByte_eq_getD _ _ hlt]
    refine ⟨?_, ?_, ?_, ?_⟩
    · simp [addChildK, ART.addChildB, newNode4, ART.setPre, ART.getPre, PStore.get_set]
    · simp [addChildK, ART.addChildB, newNode4, ART.setPre, ART.findChildB,
        List.replicate, List.findIdx?_cons, beq_iff_eq, hedge2, childAt]
    · simp [addChildK, ART.addChildB, newNode4, ART.setPre, ART.findChildB,
        List.replicate, List.findIdx?_cons, beq_iff_eq, hedge2, childAt]
    · simp [ART.setPre, ART.getPre, PStore.get_set]

/-- Witness for `split_retains`: splitting the node with prefix `[97,98]`
on key `[97,120,121]` at `p = 1`. -/
theorem split_retains_witness :
    (checkPrefix ((ART.n4 (PStore.empty.set [97, 98]) [99, 100, 0, 0]
      [some (.leaf [97, 98, 99] (1 : Nat)), some (.leaf [97, 98, 100] 2), none, none] 2) : ART Nat).getPre [97, 120, 121] 0 ≠
       ((ART.n4 (PStore.empty.set [97, 98]) [99, 100, 0, 0]
      [some (.leaf [97, 98, 99] (1 : Nat)), some (.leaf [97, 98, 100] 2), none, none] 2) : ART Nat).getPre.length ∧
     edgeByte [97, 120, 121]
        (0 + checkPrefix ((ART.n4 (PStore.empty.set [97, 98]) [99, 100, 0, 0]
      [some (.leaf [97, 98, 99] (1 : Nat)), some (.leaf [97, 98, 100] 2), none, none] 2) : ART Nat).getPre [97, 120, 121] 0) ≠
       ((ART.n4 (PStore.empty.set [97, 98]) [99, 100, 0, 0]
      [some (.leaf [97, 98, 99] (1 : Nat)), some (.leaf [97, 98, 100] 2), none, none] 2) : ART Nat).getPre.getD
        (checkPrefix ((ART.n4 (PStore.empty.set [97, 98]) [99, 100, 0, 0]
      [some (.leaf [97, 98, 99] (1 : Nat)), some (.leaf [97, 98, 100] 2), none, none] 2) : ART Nat).getPre [97, 120, 121] 0) 0) ∧
    (insertNode ((ART.n4 (PStore.empty.set [97, 98]) [99, 100, 0, 0]
      [some (.leaf [97, 98, 99] (1 : Nat)), some (.leaf [97, 98, 100] 2), none, none] 2) : ART Nat) [97, 120, 121] 3 0).findChildB
        (((ART.n4 (PStore.empty.set [97, 98]) [99, 100, 0, 0]
      [some (.leaf [97, 98, 99] (1 : Nat)), some (.leaf [97, 98, 100] 2), none, none] 2) : ART Nat).getPre.getD
          (checkPrefix ((ART.n4 (PStore.empty.set [97, 98]) [99, 100, 0, 0]
      [some (.leaf [97, 98, 99] (1 : Nat)), some (.leaf [97, 98, 100] 2), none, none] 2) : ART Nat).getPre [97, 120, 121] 0) 0) =
      some (some (((ART.n4 (PStore.empty.set [97, 98]) [99, 100, 0, 0]
      [some (.leaf [97, 98, 99] (1 : Nat)), some (.leaf [97, 98, 100] 2), none, none] 2) : ART Nat).setPre
        (((ART.n4 (PStore.empty.set [97, 98]) [99, 100, 0, 0]
      [some (.leaf [97, 98, 99] (1 : Nat)), some (.leaf [97, 98, 100] 2), none, none] 2) : ART Nat).getPre.drop
          (checkPrefix ((ART.n4 (PStore.empty.set [97, 98]) [99, 100, 0, 0]
      [some (.leaf [97, 98, 99] (1 : Nat)), some (.leaf [97, 98, 100] 2), none, none] 2) : ART Nat).getPre [97, 120, 121] 0)))) :=
  ⟨⟨by decide, by decide⟩,
   (split_retains ((ART.n4 (PStore.empty.set [97, 98]) [99, 100, 0, 0]
      [some (.leaf [97, 98, 99] (1 : Nat)), some (.leaf [97, 98, 100] 2), none, none] 2) : ART Nat) [97, 120, 121] 3 0
      (fun k v0 h => ART.noConfusion h) (by decide) (by decide)).2.1⟩


/-!  ### Byte-level facts about prefixes, edges and keys -/

theorem getD_drop (l : List Nat) (p j : Nat) :
    (l.drop p).getD j 0 = l.getD (p + j) 0 := by
  induction l generalizing p with
  | nil => simp [List.getD]
  | cons a tl ih =>
    cases p with
    | zero => simp
    | succ q =>
      simp only [List.drop_succ_cons]
      rw [ih q]
      have h : q + 1 + j = (q + j) + 1 := by omega
      rw [h, List.getD_cons_succ]

theorem getD_take (l : List Nat) (b j : Nat) (h : j < b) :
    (l.take b).getD j 0 = l.getD j 0 := by
  induction l generalizing b j with
  | nil => simp
  | cons a tl ih =>
    cases b with
    | zero => omega
    | succ b' =>
      cases j with
      | zero => rfl
      | succ j' =>
        simp only [List.take_succ_cons, List.getD_cons_succ]
        exact ih b' j' (by omega)

theorem checkPrefix_spec (pre key : List Nat) (d : Nat) :
    (∀ j, j < checkPrefix pre key d →
      d + j < key.length ∧ key.getD (d + j) 0 = pre.getD j 0) ∧
    (checkPrefix pre key d < pre.length →
      (key.length ≤ d + checkPrefix pre key d ∨
       key.getD (d + checkPrefix pre key d) 0 ≠ pre.getD (checkPrefix pre key d) 0)) := by
  induction pre generalizing d with
  | nil => exact ⟨by simp [checkPrefix], by simp⟩
  | cons b tl ih =>
    simp only [checkPrefix]
    by_cases hd : d < key.length
    · rw [if_pos hd]
      by_cases heq : key.getD d 0 = b
      · rw [if_pos heq]
        obtain ⟨ha, hc⟩ := ih (d + 1)
        refine ⟨?_, ?_⟩
        · intro j hj
          cases j with
          | zero => exact ⟨by omega, by simpa using heq⟩
          | succ j' =>
            obtain ⟨hlt2, heq2⟩ := ha j' (by omega)
            refine ⟨by omega, ?_⟩
            simp only [List.getD_cons_succ]
            rw [← heq2]
            congr 1
            omega
        · intro hlt
          simp only [List.length_cons] at hlt
          rcases hc (by omega) with h | h
          · left; omega
          · right
            simp only [List.getD_cons_succ]
            have harith : d + (checkPrefix tl key (d + 1) + 1) =
                d + 1 + checkPrefix tl key (d + 1) := by omega
            rw [harith]
            exact h
      · rw [if_neg heq]
        exact ⟨by omega, fun _ => Or.inr (by simpa using heq)⟩
    · rw [if_neg hd]
      exact ⟨by omega, fun _ => Or.inl (by omega)⟩

theorem checkPrefix_full_iff (pre key : List Nat) (d : Nat) :
    checkPrefix pre key d = pre.length ↔
      ∀ j, j < pre.length → d + j < key.length ∧ key.getD (d + j) 0 = pre.getD j 0 := by
  constructor
  · intro h j hj
    exact (checkPrefix_spec pre key d).1 j (by omega)
  · intro h
    by_contra hne
    have hlt : checkPrefix pre key d < pre.length :=
      lt_of_le_of_ne (checkPrefix_le _ _ _) hne
    rcases (checkPrefix_spec pre key d).2 hlt with h2 | h2
    · obtain ⟨hl, _⟩ := h _ hlt
      omega
    · obtain ⟨_, he⟩ := h _ hlt
      exact h2 he

theorem checkPrefix_add_le (pre key : List Nat) (d : Nat) (hd : d ≤ key.length) :
    d + checkPrefix pre key d ≤ key.length := by
  rcases Nat.eq_zero_or_pos (checkPrefix pre key d) with h | h
  · omega
  · obtain ⟨hl, _⟩ := (checkPrefix_spec pre key d).1 (checkPrefix pre key d - 1) (by omega)
    omega

theorem keys_eq_of_agree (k1 k2 : List Nat) (hlen : k1.length = k2.length)
    (h : ∀ j, j < k1.length → k1.getD j 0 = k2.getD j 0) : k1 = k2 := by
  apply List.ext_getElem hlen
  intro j hj1 hj2
  have h2 := h j hj1
  rwa [List.getD_eq_getElem _ _ hj1, List.getD_eq_getElem _ _ hj2] at h2

theorem edgeByte_valid (key : List Nat) (hk : validKey key) (pos : Nat) :
    (pos < key.length → 1 ≤ edgeByte key pos ∧ edgeByte key pos ≤ 254) ∧
    (key.length ≤ pos → edgeByte key pos = 255) := by
  constructor
  · intro h
    rw [edgeByte_eq_getD _ _ h, List.getD_eq_getElem _ _ h]
    exact hk key[pos] (List.getElem_mem h)
  · intro h
    unfold edgeByte TerminationChar
    rw [if_pos (by omega)]


theorem gcpStop_spec (s1 s2 : List Nat) (i rem : Nat) :
    i ≤ gcpStop s1 s2 i rem ∧ gcpStop s1 s2 i rem ≤ i + rem ∧
    (∀ j, i ≤ j → j < gcpStop s1 s2 i rem → s1.getD j 0 = s2.getD j 0) ∧
    (gcpStop s1 s2 i rem < i + rem →
      s1.getD (gcpStop s1 s2 i rem) 0 ≠ s2.getD (gcpStop s1 s2 i rem) 0) := by
  induction rem generalizing i with
  | zero =>
    simp only [gcpStop]
    exact ⟨le_refl _, by omega, by omega, by omega⟩
  | succ rem ih =>
    simp only [gcpStop]
    by_cases hne : s1.getD i 0 ≠ s2.getD i 0
    · rw [if_pos hne]
      exact ⟨le_refl _, by omega, by omega, fun _ => hne⟩
    · rw [if_neg hne]
      obtain ⟨h1, h2, h3, h4⟩ := ih (i + 1)
      refine ⟨by omega, by omega, ?_, by omega⟩
      intro j hj1 hj2
      by_cases hji : j = i
      · subst hji
        exact not_ne_iff.mp hne
      · exact h3 j (by omega) hj2

theorem getCommonPrefix_spec (s1 s2 : List Nat) (d : Nat)
    (hd1 : d ≤ s1.length) (hd2 : d ≤ s2.length) :
    (∀ j, j < (getCommonPrefix s1 s2 d).length →
      (getCommonPrefix s1 s2 d).getD j 0 = s1.getD (d + j) 0) ∧
    (∀ j, j < (getCommonPrefix s1 s2 d).length →
      s1.getD (d + j) 0 = s2.getD (d + j) 0) ∧
    d + (getCommonPrefix s1 s2 d).length ≤ s1.length ∧
    d + (getCommonPrefix s1 s2 d).length ≤ s2.length ∧
    (d + (getCommonPrefix s1 s2 d).length = min s1.length s2.length ∨
      (d + (getCommonPrefix s1 s2 d).length < min s1.length s2.length ∧
       s1.getD (d + (getCommonPrefix s1 s2 d).length) 0 ≠
        s2.getD (d + (getCommonPrefix s1 s2 d).length) 0)) := by
  obtain ⟨hs1, hs2, hs3, hs4⟩ :=
    gcpStop_spec s1 s2 d (min s1.length s2.length - d)
  set stop := gcpStop s1 s2 d (min s1.length s2.length - d) with hstop
  have hstople : stop ≤ min s1.length s2.length := by omega
  have hc : getCommonPrefix s1 s2 d = (s1.take stop).drop d := rfl
  have hlen : (getCommonPrefix s1 s2 d).length = stop - d := by
    rw [hc, List.length_drop, List.length_take]
    omega
  have hgd : ∀ j, j < (getCommonPrefix s1 s2 d).length →
      (getCommonPrefix s1 s2 d).getD j 0 = s1.getD (d + j) 0 := by
    intro j hj
    rw [hlen] at hj
    rw [hc, getD_drop, getD_take _ _ _ (by omega)]
  refine ⟨hgd, ?_, by omega, by omega, ?_⟩
  · intro j hj
    rw [hlen] at hj
    exact hs3 (d + j) (by omega) (by omega)
  · rw [hlen]
    have harith : d + (stop - d) = stop := by omega
    rw [harith]
    by_cases hend : stop = min s1.length s2.length
    · exact Or.inl hend
    · exact Or.inr ⟨by omega, hs4 (by omega)⟩

/-- Trimming an inner node's prefix by `p` bytes re-roots it `p` levels
deeper: the split re-attaches the old node with prefix `curPrefix[p:]`. -/
theorem Inv_drop (t : ART V) (d p : Nat) (h : Inv (some t) d)
    (hp : p ≤ t.getPre.length) :
    Inv (some (t.setPre (t.getPre.drop p))) (d + p) := by
  have hshift : ∀ (pre : List Nat) (b : Nat) (c : Option (ART V)),
      p ≤ pre.length → underEdge pre d b c →
      underEdge (pre.drop p) (d + p) b c := by
    intro pre b c hple hu
    intro q hq
    obtain ⟨h1, h2⟩ := hu q hq
    constructor
    · rw [checkPrefix_full_iff] at h1 ⊢
      intro j hj
      rw [List.length_drop] at hj
      obtain ⟨ha, hb⟩ := h1 (p + j) (by omega)
      rw [getD_drop]
      exact ⟨by omega, by rw [← hb]; congr 1; omega⟩
    · rw [List.length_drop]
      have harith : d + p + (pre.length - p) = d + pre.length := by omega
      rw [harith]
      exact h2
  cases h with
  | leaf k v d hk => exact Inv.leaf k v _ hk
  | n4 ps keys cs num d hkl hcl hnum hpre hused hkfree hcfree hdist hsome hchild hedge =>
    simp only [ART.getPre] at hp ⊢
    simp only [ART.setPre]
    have hget : (ps.set (ps.get.drop p)).get = ps.get.drop p := PStore.get_set _ _
    have hdepth : d + p + (ps.get.drop p).length = d + ps.get.length := by
      rw [List.length_drop]; omega
    refine Inv.n4 _ _ _ _ _ hkl hcl hnum ?_ hused hkfree hcfree hdist hsome ?_ ?_
    · rw [hget]
      intro b hb
      exact hpre b (List.drop_subset _ _ hb)
    · intro i hi
      rw [hget, hdepth]
      exact hchild i hi
    · intro i hi
      rw [hget]
      exact hshift _ _ _ hp (hedge i hi)
  | n16 ps keys cs num d hkl hcl hnum hpre hused hkfree hcfree hdist hsome hchild hedge =>
    simp only [ART.getPre] at hp ⊢
    simp only [ART.setPre]
    have hget : (ps.set (ps.get.drop p)).get = ps.get.drop p := PStore.get_set _ _
    have hdepth : d + p + (ps.get.drop p).length = d + ps.get.length := by
      rw [List.length_drop]; omega
    refine Inv.n16 _ _ _ _ _ hkl hcl hnum ?_ hused hkfree hcfree hdist hsome ?_ ?_
    · rw [hget]
      intro b hb
      exact hpre b (List.drop_subset _ _ hb)
    · intro i hi
      rw [hget, hdepth]
      exact hchild i hi
    · intro i hi
      rw [hget]
      exact hshift _ _ _ hp (hedge i hi)
  | n48 ps ci cs num d hcil hcl hnum hpre hent hzero hinj hsurj hcfree hsome hchild hedge =>
    simp only [ART.getPre] at hp ⊢
    simp only [ART.setPre]
    have hget : (ps.set (ps.get.drop p)).get = ps.get.drop p := PStore.get_set _ _
    have hdepth : d + p + (ps.get.drop p).length = d + ps.get.length := by
      rw [List.length_drop]; omega
    refine Inv.n48 _ _ _ _ _ hcil hcl hnum ?_ hent hzero hinj hsurj hcfree hsome ?_ ?_
    · rw [hget]
      intro b hb
      exact hpre b (List.drop_subset _ _ hb)
    · intro b hb
      rw [hget, hdepth]
      exact hchild b hb
    · intro b hb
      rw [hget]
      exact hshift _ _ _ hp (hedge b hb)
  | n256 ps cs d hcl hpre hzero hchild hedge =>
    simp only [ART.getPre] at hp ⊢
    simp only [ART.setPre]
    have hget : (ps.set (ps.get.drop p)).get = ps.get.drop p := PStore.get_set _ _
    have hdepth : d + p + (ps.get.drop p).length = d + ps.get.length := by
      rw [List.length_drop]; omega
    refine Inv.n256 _ _ _ hcl ?_ hzero ?_ ?_
    · rw [hget]
      intro b hb
      exact hpre b (List.drop_subset _ _ hb)
    · intro b hb
      rw [hget, hdepth]
      exact hchild b hb
    · intro b hb
      rw [hget]
      exact hshift _ _ _ hp (hedge b hb)


theorem edgeByte_bounds (key : List Nat) (hk : validKey key) (pos : Nat)
    (_h : pos ≤ key.length) : 1 ≤ edgeByte key pos ∧ edgeByte key pos ≤ 255 := by
  rcases lt_or_ge pos key.length with hlt | hge
  · obtain ⟨h1, h2⟩ := (edgeByte_valid key hk pos).1 hlt
    omega
  · rw [(edgeByte_valid key hk pos).2 hge]
    omega

theorem InsP_leaf_split (k2 key : List Nat) (v0 v : V) (d : Nat)
    (hne : ¬ k2 = key)
    (hk : validKey key) (hk2 : validKey k2)
    (hd : d ≤ key.length) (hd2 : d ≤ k2.length)
    (hagree : ∀ j, j < d → k2.getD j 0 = key.getD j 0) :
    Inv (some (insertNode (ART.leaf k2 v0) key v d)) d ∧
    (key, v) ∈ bindingsNode (insertNode (ART.leaf k2 v0) key v d) ∧
    (k2, v0) ∈ bindingsNode (insertNode (ART.leaf k2 v0) key v d) := by
  rw [insertNode_leaf_ne _ _ _ _ _ hne]
  obtain ⟨hg1, hg2, hg3, hg4, hg5⟩ := getCommonPrefix_spec key k2 d hd hd2
  set com := getCommonPrefix key k2 d with hcom
  have hres : addChildK (addChildK ((newNode4 : ART V).setPre com) (ART.leaf k2 v0) k2
        (d + com.length)) (ART.leaf key v) key (d + com.length) =
      ART.n4 (PStore.empty.set com)
        [edgeByte k2 (d + com.length), edgeByte key (d + com.length), 0, 0]
        [some (ART.leaf k2 v0), some (ART.leaf key v), none, none] 2 := rfl
  rw [hres]
  have hget : (PStore.empty.set com).get = com := PStore.get_set _ _
  have hvcom : preOK com := by
    intro b hb
    rcases List.mem_iff_getElem.mp hb with ⟨j, hj, rfl⟩
    rw [← List.getD_eq_getElem com 0 hj, hg1 j hj]
    have hlt : d + j < key.length := by omega
    rw [List.getD_eq_getElem _ _ hlt]
    exact hk _ (List.getElem_mem hlt)
  have hb2 := edgeByte_bounds k2 hk2 (d + com.length) hg4
  have hb1 := edgeByte_bounds key hk (d + com.length) hg3
  have hdistinct : edgeByte k2 (d + com.length) ≠ edgeByte key (d + com.length) := by
    rcases hg5 with hend | ⟨hlt, hne2⟩
    · rcases lt_or_ge (d + com.length) key.length with hklt | hkge
      · rcases lt_or_ge (d + com.length) k2.length with h2lt | h2ge
        · omega
        · rw [(edgeByte_valid k2 hk2 _).2 h2ge]
          obtain ⟨_, hle⟩ := (edgeByte_valid key hk _).1 hklt
          omega
      · rcases lt_or_ge (d + com.length) k2.length with h2lt | h2ge
        · rw [(edgeByte_valid key hk _).2 hkge]
          obtain ⟨_, hle⟩ := (edgeByte_valid k2 hk2 _).1 h2lt
          omega
        · exfalso
          apply hne
          apply keys_eq_of_agree k2 key (by omega)
          intro j hj
          by_cases hjd : j < d
          · exact hagree j hjd
          · have hj2 : j - d < com.length := by omega
            have := hg2 (j - d) hj2
            have harith : d + (j - d) = j := by omega
            rw [harith] at this
            exact this.symm
    · rw [edgeByte_eq_getD _ _ (by omega), edgeByte_eq_getD _ _ (by omega)]
      exact fun hc => hne2 (hc.symm)
  refine ⟨?_, by simp [bindingsNode, bindingsList, bindingsSlot], by simp [bindingsNode, bindingsList, bindingsSlot]⟩
  refine Inv.n4 _ _ _ _ _ rfl rfl (by omega) ?_ ?_ ?_ ?_ ?_ ?_ ?_ ?_
  · rw [hget]; exact hvcom
  · intro i hi
    interval_cases i
    · simpa using hb2
    · simpa using hb1
  · intro i hi
    rcases i with _ | _ | _ | _ | n
    · omega
    · omega
    · rfl
    · rfl
    · rw [List.getD_eq_default]
      simp
  · intro i hi
    rcases i with _ | _ | _ | _ | n
    · omega
    · omega
    · rfl
    · rfl
    · unfold childAt
      rw [List.getD_eq_default]
      simp
  · intro i j hij hj
    interval_cases j
    · omega
    · interval_cases i
      simpa using hdistinct
  · intro i hi
    interval_cases i
    · simp [childAt]
    · simp [childAt]
  · intro i hi
    interval_cases i
    · exact Inv.leaf _ _ _ hk2
    · exact Inv.leaf _ _ _ hk
  · intro i hi
    rw [hget]
    interval_cases i
    · intro p hp
      simp only [childAt, List.getD_cons_zero, bindingsSlot, bindingsNode,
        List.mem_singleton] at hp
      subst hp
      refine ⟨?_, rfl⟩
      show checkPrefix com k2 d = com.length
      rw [checkPrefix_full_iff]
      intro j hj
      refine ⟨by omega, ?_⟩
      rw [hg1 j hj]
      exact (hg2 j hj).symm
    · intro p hp
      simp only [childAt, List.getD_cons_succ, List.getD_cons_zero, bindingsSlot,
        bindingsNode, List.mem_singleton] at hp
      subst hp
      refine ⟨?_, rfl⟩
      show checkPrefix com key d = com.length
      rw [checkPrefix_full_iff]
      intro j hj
      exact ⟨by omega, (hg1 j hj).symm⟩

end Art





namespace Art
variable {V : Type}

theorem bindings_mem_child (cs : List (Option (ART V))) (p : List Nat × V)
    (h : p ∈ bindingsList cs) :
    ∃ i, i < cs.length ∧ p ∈ bindingsSlot (childAt cs i) := by
  induction cs with
  | nil => simp [bindingsList] at h
  | cons c tl ih =>
    simp only [bindingsList, List.mem_append] at h
    rcases h with h | h
    · exact ⟨0, by simp, h⟩
    · rcases ih h with ⟨i, hi, hp⟩
      exact ⟨i + 1, by simpa using hi, hp⟩

theorem Inv_preOK (t : ART V) (d : Nat) (h : Inv (some t) d) : preOK t.getPre := by
  cases h with
  | leaf k v d hk => intro b hb; simp [ART.getPre] at hb
  | n4 ps keys cs num d hkl hcl hnum hpre hused hkfree hcfree hdist hsome hchild hedge =>
    exact hpre
  | n16 ps keys cs num d hkl hcl hnum hpre hused hkfree hcfree hdist hsome hchild hedge =>
    exact hpre
  | n48 ps ci cs num d hcil hcl hnum hpre hent hzero hinj hsurj hcfree hsome hchild hedge =>
    exact hpre
  | n256 ps cs d hcl hpre hzero hchild hedge => exact hpre

/-- Every key stored under a well-formed node matches the node's own
compressed path (the constraint each child's `underEdge` carries). -/
theorem Inv_bindings_match (t : ART V) (d : Nat) (h : Inv (some t) d) :
    ∀ p ∈ bindingsNode t, checkPrefix t.getPre p.1 d = t.getPre.length := by
  cases h with
  | leaf k v d hk =>
    intro p hp
    simp [ART.getPre, checkPrefix]
  | n4 ps keys cs num d hkl hcl hnum hpre hused hkfree hcfree hdist hsome hchild hedge =>
    intro p hp
    simp only [bindingsNode] at hp
    rcases bindings_mem_child cs p hp with ⟨i, hilt, hpc⟩
    by_cases hi : i < num
    · exact (hedge i hi p hpc).1
    · rw [hcfree i (by omega)] at hpc
      simp [bindingsSlot] at hpc
  | n16 ps keys cs num d hkl hcl hnum hpre hused hkfree hcfree hdist hsome hchild hedge =>
    intro p hp
    simp only [bindingsNode] at hp
    rcases bindings_mem_child cs p hp with ⟨i, hilt, hpc⟩
    by_cases hi : i < num
    · exact (hedge i hi p hpc).1
    · rw [hcfree i (by omega)] at hpc
      simp [bindingsSlot] at hpc
  | n48 ps ci cs num d hcil hcl hnum hpre hent hzero hinj hsurj hcfree hsome hchild hedge =>
    intro p hp
    simp only [bindingsNode] at hp
    rcases bindings_mem_child cs p hp with ⟨i, hilt, hpc⟩
    by_cases hi : i < num
    · rcases hsurj i hi with ⟨b, hb256, hbi⟩
      have hbne : ci.getD b (-1) ≠ -1 := by rw [hbi]; intro hc; cases hc
      have := (hedge b hbne p ?_).1
      · exact this
      · rw [hbi]
        simpa using hpc
    · rw [hcfree i (by omega)] at hpc
      simp [bindingsSlot] at hpc
  | n256 ps cs d hcl hpre hzero hchild hedge =>
    intro p hp
    simp only [bindingsNode] at hp
    rcases bindings_mem_child cs p hp with ⟨b, hblt, hpc⟩
    exact (hedge b (by omega) p hpc).1

theorem Inv_split_node (t : ART V) (key : List Nat) (v : V) (d : Nat)
    (hInv : Inv (some t) d) (hk : validKey key) (hd : d ≤ key.length)
    (hp : checkPrefix t.getPre key d ≠ t.getPre.length) :
    Inv (some ((addChildK (addChildK newNode4 (ART.leaf key v) key
          (d + checkPrefix t.getPre key d))
        (t.setPre (t.getPre.drop (checkPrefix t.getPre key d)))
        t.getPre (checkPrefix t.getPre key d)).setPre
          (t.getPre.take (checkPrefix t.getPre key d)))) d ∧
    (key, v) ∈ bindingsNode ((addChildK (addChildK newNode4 (ART.leaf key v) key
          (d + checkPrefix t.getPre key d))
        (t.setPre (t.getPre.drop (checkPrefix t.getPre key d)))
        t.getPre (checkPrefix t.getPre key d)).setPre
          (t.getPre.take (checkPrefix t.getPre key d))) ∧
    (∀ p ∈ bindingsNode t, p ∈ bindingsNode ((addChildK (addChildK newNode4
          (ART.leaf key v) key (d + checkPrefix t.getPre key d))
        (t.setPre (t.getPre.drop (checkPrefix t.getPre key d)))
        t.getPre (checkPrefix t.getPre key d)).setPre
          (t.getPre.take (checkPrefix t.getPre key d)))) := by
  set pre := t.getPre with hpre
  set p := checkPrefix pre key d with hpdef
  have hplt : p < pre.length := lt_of_le_of_ne (checkPrefix_le _ _ _) hp
  have hpreOK : preOK pre := Inv_preOK t d hInv
  have hmatch := Inv_bindings_match t d hInv
  obtain ⟨hs1, hs2⟩ := checkPrefix_spec pre key d
  have hres : (addChildK (addChildK newNode4 (ART.leaf key v) key (d + p))
      (t.setPre (pre.drop p)) pre p).setPre (pre.take p) =
      ART.n4 (PStore.empty.set (pre.take p))
        [edgeByte key (d + p), edgeByte pre p, 0, 0]
        [some (ART.leaf key v), some (t.setPre (pre.drop p)), none, none] 2 := rfl
  rw [hres]
  have hget : (PStore.empty.set (pre.take p)).get = pre.take p := PStore.get_set _ _
  have hlentake : (pre.take p).length = p := by
    rw [List.length_take]
    omega
  have hb2getD : edgeByte pre p = pre.getD p 0 := edgeByte_eq_getD _ _ hplt
  have hb2mem : pre.getD p 0 ∈ pre := by
    rw [List.getD_eq_getElem _ _ hplt]
    exact List.getElem_mem hplt
  have hb2v : 1 ≤ edgeByte pre p ∧ edgeByte pre p ≤ 254 := by
    rw [hb2getD]
    exact hpreOK _ hb2mem
  have hb1v : 1 ≤ edgeByte key (d + p) ∧ edgeByte key (d + p) ≤ 255 :=
    edgeByte_bounds key hk (d + p) (checkPrefix_add_le _ _ _ hd)
  have hdistinct : edgeByte key (d + p) ≠ edgeByte pre p := by
    rcases le_or_lt key.length (d + p) with hge | hlt
    · rw [(edgeByte_valid key hk _).2 hge]
      omega
    · rcases hs2 hplt with h | h
      · omega
      · rw [edgeByte_eq_getD _ _ hlt, hb2getD]
        exact h
  -- every stored key matches pre fully at d
  have hfull : ∀ q ∈ bindingsNode t,
      ∀ j, j < pre.length → d + j < q.1.length ∧ q.1.getD (d + j) 0 = pre.getD j 0 := by
    intro q hq
    have := hmatch q hq
    rw [← hpre, checkPrefix_full_iff] at this
    exact this
  refine ⟨?_, by simp [bindingsNode, bindingsList, bindingsSlot],
    ?_⟩
  swap
  · intro q hq
    simp only [bindingsNode, bindingsList, bindingsSlot, List.mem_append]
    right; left
    rw [bindings_setPre]
    exact hq
  refine Inv.n4 _ _ _ _ _ rfl rfl (by omega) ?_ ?_ ?_ ?_ ?_ ?_ ?_ ?_
  · rw [hget]
    intro b hb
    exact hpreOK b (List.take_subset _ _ hb)
  · intro i hi
    interval_cases i
    · simpa using hb1v
    · have := hb2v
      simp only [List.getD_cons_succ, List.getD_cons_zero]
      omega
  · intro i hi
    rcases i with _ | _ | _ | _ | n
    · omega
    · omega
    · rfl
    · rfl
    · rw [List.getD_eq_default]
      simp
  · intro i hi
    rcases i with _ | _ | _ | _ | n
    · omega
    · omega
    · rfl
    · rfl
    · unfold childAt
      rw [List.getD_eq_default]
      simp
  · intro i j hij hj
    interval_cases j
    · omega
    · interval_cases i
      simpa using hdistinct
  · intro i hi
    interval_cases i
    · simp [childAt]
    · simp [childAt]
  · intro i hi
    rw [hget, hlentake]
    interval_cases i
    · exact Inv.leaf _ _ _ hk
    · show Inv (some (t.setPre (pre.drop p))) (d + p)
      exact Inv_drop t d p hInv (by rw [← hpre]; omega)
  · intro i hi q hq
    rw [hget, hlentake]
    interval_cases i
    · simp only [childAt, List.getD_cons_zero, bindingsSlot, bindingsNode,
        List.mem_singleton] at hq
      subst hq
      refine ⟨?_, rfl⟩
      show checkPrefix (pre.take p) key d = p
      have hcf := checkPrefix_full_iff (pre.take p) key d
      rw [hlentake] at hcf
      rw [hcf]
      intro j hj
      obtain ⟨hlt2, heq2⟩ := hs1 j (by omega)
      refine ⟨hlt2, ?_⟩
      rw [getD_take _ _ _ hj]
      exact heq2
    · simp only [childAt, List.getD_cons_succ, List.getD_cons_zero] at hq
      rw [show bindingsSlot (some (t.setPre (List.drop p pre))) =
        bindingsNode (t.setPre (List.drop p pre)) from rfl, bindings_setPre] at hq
      constructor
      · show checkPrefix (pre.take p) q.1 d = p
        have hcf := checkPrefix_full_iff (pre.take p) q.1 d
        rw [hlentake] at hcf
        rw [hcf]
        intro j hj
        obtain ⟨hlt2, heq2⟩ := hfull q hq j (by omega)
        exact ⟨hlt2, by rw [getD_take _ _ _ hj]; exact heq2⟩
      · show edgeByte q.1 (d + p) = edgeByte pre p
        obtain ⟨hlt2, heq2⟩ := hfull q hq p hplt
        rw [edgeByte_eq_getD _ _ hlt2, hb2getD]
        exact heq2

end Art

namespace Art
variable {V : Type}

/-!  ### `findIdx?` over the fixed-size `keys` arrays -/

theorem findIdx_some_aux (keys : List Nat) (b s i : Nat)
    (h : List.findIdx? (fun x => x == b) keys s = some i) :
    s ≤ i ∧ i - s < keys.length ∧ keys.getD (i - s) 0 = b := by
  induction keys generalizing s with
  | nil => rw [List.findIdx?] at h; cases h
  | cons a tl ih =>
    rw [List.findIdx?] at h
    by_cases ha : a = b
    · rw [if_pos (by simpa using ha)] at h
      cases h
      exact ⟨le_refl _, by simp, by simpa using ha⟩
    · rw [if_neg (by simpa using ha)] at h
      obtain ⟨h1, h2, h3⟩ := ih (s + 1) h
      refine ⟨by omega, by simp only [List.length_cons]; omega, ?_⟩
      have harith : i - s = (i - (s + 1)) + 1 := by omega
      rw [harith, List.getD_cons_succ]
      exact h3

theorem findIdx_some_spec (keys : List Nat) (b i : Nat)
    (h : keys.findIdx? (fun x => x == b) = some i) :
    i < keys.length ∧ keys.getD i 0 = b := by
  obtain ⟨h1, h2, h3⟩ := findIdx_some_aux keys b 0 i h
  simp only [Nat.sub_zero] at h2 h3
  exact ⟨h2, h3⟩

theorem findIdx_none_aux (keys : List Nat) (b s : Nat)
    (h : List.findIdx? (fun x => x == b) keys s = none) :
    ∀ i, i < keys.length → keys.getD i 0 ≠ b := by
  induction keys generalizing s with
  | nil => intro i hi; simp at hi
  | cons a tl ih =>
    rw [List.findIdx?] at h
    by_cases ha : a = b
    · rw [if_pos (by simpa using ha)] at h
      cases h
    · rw [if_neg (by simpa using ha)] at h
      intro i hi
      cases i with
      | zero => simpa using ha
      | succ j =>
        simp only [List.getD_cons_succ]
        exact ih (s + 1) h j (by simpa using hi)

theorem findIdx_none_spec (keys : List Nat) (b : Nat)
    (h : keys.findIdx? (fun x => x == b) = none) :
    ∀ i, i < keys.length → keys.getD i 0 ≠ b :=
  findIdx_none_aux keys b 0 h

theorem findIdx_none_of_all_aux (keys : List Nat) (b : Nat)
    (h : ∀ i, i < keys.length → keys.getD i 0 ≠ b) :
    ∀ s, List.findIdx? (fun x => x == b) keys s = none := by
  induction keys with
  | nil => intro s; rw [List.findIdx?]
  | cons a tl ih =>
    intro s
    rw [List.findIdx?]
    have ha : a ≠ b := by simpa using h 0 (by simp)
    rw [if_neg (by simpa using ha)]
    apply ih
    intro i hi
    have h2 := h (i + 1) (by simpa using hi)
    simpa using h2

theorem findIdx_none_of_all (keys : List Nat) (b : Nat)
    (h : ∀ i, i < keys.length → keys.getD i 0 ≠ b) :
    keys.findIdx? (fun x => x == b) = none :=
  findIdx_none_of_all_aux keys b h 0

/-!  ### Slots of a `set` child array -/

theorem childAt_set_self {A : Type} (cs : List (Option A)) (i : Nat) (x : Option A)
    (h : i < cs.length) : childAt (cs.set i x) i = x :=
  getD_set_eq cs i x none h

theorem childAt_set_other {A : Type} (cs : List (Option A)) (i j : Nat) (x : Option A)
    (h : i ≠ j) : childAt (cs.set i x) j = childAt cs j :=
  getD_set_ne cs i j x none h

theorem getD_append_right {A : Type} (l1 l2 : List A) (i : Nat) (d : A)
    (h : l1.length ≤ i) : (l1 ++ l2).getD i d = l2.getD (i - l1.length) d := by
  induction l1 generalizing i with
  | nil => simp
  | cons a tl ih =>
    cases i with
    | zero => simp at h
    | succ j =>
      simp only [List.cons_append, List.getD_cons_succ, List.length_cons]
      rw [ih j (by simpa using h)]
      congr 1
      omega

/-- The Go write `curNode.childPtr[i] = ...` behind a found slot: the loop
body continues in the slot `insertChildren` rewrites. -/
theorem insertChildren_eq_set (cs : List (Option (ART V))) (i : Nat)
    (key : List Nat) (v : V) (d : Nat) (h : i < cs.length) :
    insertChildren cs i key v d = cs.set i (some (insertSlot (childAt cs i) key v d)) := by
  induction cs generalizing i with
  | nil => simp at h
  | cons c tl ih =>
    cases i with
    | zero => rfl
    | succ j =>
      simp only [insertChildren, List.set]
      rw [ih j (by simpa using h)]
      rfl

end Art

namespace Art
variable {V : Type}

/-- Adding a fresh leaf to a non-full inner node whose path the key fully
matches preserves the invariant, stores the new binding and keeps the old
ones (lines 130-152 of the Go insert loop). -/
theorem InsP_addChild (t : ART V) (key : List Nat) (v : V) (d : Nat)
    (hL : ∀ k0 v0, t ≠ ART.leaf k0 v0)
    (hInv : Inv (some t) d) (hk : validKey key) (hd : d ≤ key.length)
    (hmatch : checkPrefix t.getPre key d = t.getPre.length)
    (hmiss : t.findChildIdx (edgeByte key (d + t.getPre.length)) = none)
    (hfull : t.isFullB = false) :
    Inv (some (addChildK t (ART.leaf key v) key (d + t.getPre.length))) d ∧
    (key, v) ∈ bindingsNode (addChildK t (ART.leaf key v) key (d + t.getPre.length)) ∧
    (∀ p ∈ bindingsNode t,
      p ∈ bindingsNode (addChildK t (ART.leaf key v) key (d + t.getPre.length))) := by
  have hdlen : d + t.getPre.length ≤ key.length := by
    have h2 := checkPrefix_add_le t.getPre key d hd
    rw [hmatch] at h2
    exact h2
  have hb := edgeByte_bounds key hk (d + t.getPre.length) hdlen
  cases t with
  | leaf k0 v0 => exact absurd rfl (hL k0 v0)
  | n4 ps keys cs num =>
    simp only [ART.getPre] at hmatch hmiss hfull hdlen hb ⊢
    simp only [ART.findChildIdx] at hmiss
    simp only [ART.isFullB] at hfull
    have hnumlt : num < 4 := by
      have h4 : num ≠ 4 := by simpa using hfull
      cases hInv with
      | n4 _ _ _ _ _ hkl hcl hnum => omega
    cases hInv with
    | n4 _ _ _ _ _ hkl hcl hnum hpre hused hkfree hcfree hdist hsome hchild hedge =>
    simp only [addChildK, ART.addChildB, bindingsNode]
    refine ⟨?_, ?_, ?_⟩
    · refine Inv.n4 _ _ _ _ _ (by rw [List.length_set, hkl]) (by rw [List.length_set, hcl])
        (by omega) hpre ?_ ?_ ?_ ?_ ?_ ?_ ?_
      · intro i hi
        by_cases hcase : i = num
        · subst hcase
          rw [getD_set_eq _ _ _ _ (by rw [hkl]; omega)]
          exact hb
        · rw [getD_set_ne _ _ _ _ _ (fun h => hcase h.symm)]
          exact hused i (by omega)
      · intro i hi
        rw [getD_set_ne _ _ _ _ _ (by omega)]
        exact hkfree i (by omega)
      · intro i hi
        rw [childAt_set_other _ _ _ _ (by omega)]
        exact hcfree i (by omega)
      · intro i j hij hj
        by_cases hjc : j = num
        · subst hjc
          rw [getD_set_ne _ _ _ _ _ (by omega), getD_set_eq _ _ _ _ (by rw [hkl]; omega)]
          exact findIdx_none_spec keys _ hmiss i (by omega)
        · rw [getD_set_ne _ _ _ _ _ (by omega), getD_set_ne _ _ _ _ _ (fun h => hjc h.symm)]
          exact hdist i j hij (by omega)
      · intro i hi
        by_cases hcase : i = num
        · subst hcase
          rw [childAt_set_self _ _ _ (by rw [hcl]; omega)]
          simp
        · rw [childAt_set_other _ _ _ _ (fun h => hcase h.symm)]
          exact hsome i (by omega)
      · intro i hi
        by_cases hcase : i = num
        · subst hcase
          rw [childAt_set_self _ _ _ (by rw [hcl]; omega)]
          exact Inv.leaf _ _ _ hk
        · rw [childAt_set_other _ _ _ _ (fun h => hcase h.symm)]
          exact hchild i (by omega)
      · intro i hi
        by_cases hcase : i = num
        · subst hcase
          rw [childAt_set_self _ _ _ (by rw [hcl]; omega),
            getD_set_eq _ _ _ _ (by rw [hkl]; omega)]
          intro q hq
          simp only [bindingsSlot, bindingsNode, List.mem_singleton] at hq
          subst hq
          exact ⟨hmatch, rfl⟩
        · rw [childAt_set_other _ _ _ _ (fun h => hcase h.symm),
            getD_set_ne _ _ _ _ _ (fun h => hcase h.symm)]
          exact hedge i (by omega)
    · apply bindingsList_getD _ num
      rw [childAt_set_self _ _ _ (by rw [hcl]; omega)]
      simp [bindingsSlot, bindingsNode]
    · intro p hp
      rcases bindings_mem_child cs p hp with ⟨j, hjlt, hpj⟩
      have hjnum : j ≠ num := by
        intro h
        subst h
        rw [hcfree j (le_refl _)] at hpj
        simp [bindingsSlot] at hpj
      apply bindingsList_getD _ j
      rw [childAt_set_other _ _ _ _ (fun h => hjnum h.symm)]
      exact hpj
  | n16 ps keys cs num =>
    simp only [ART.getPre] at hmatch hmiss hfull hdlen hb ⊢
    simp only [ART.findChildIdx] at hmiss
    simp only [ART.isFullB] at hfull
    have hnumlt : num < 16 := by
      have h4 : num ≠ 16 := by simpa using hfull
      cases hInv with
      | n16 _ _ _ _ _ hkl hcl hnum => omega
    cases hInv with
    | n16 _ _ _ _ _ hkl hcl hnum hpre hused hkfree hcfree hdist hsome hchild hedge =>
    simp only [addChildK, ART.addChildB, bindingsNode]
    refine ⟨?_, ?_, ?_⟩
    · refine Inv.n16 _ _ _ _ _ (by rw [List.length_set, hkl]) (by rw [List.length_set, hcl])
        (by omega) hpre ?_ ?_ ?_ ?_ ?_ ?_ ?_
      · intro i hi
        by_cases hcase : i = num
        · subst hcase
          rw [getD_set_eq _ _ _ _ (by rw [hkl]; omega)]
          exact hb
        · rw [getD_set_ne _ _ _ _ _ (fun h => hcase h.symm)]
          exact hused i (by omega)
      · intro i hi
        rw [getD_set_ne _ _ _ _ _ (by omega)]
        exact hkfree i (by omega)
      · intro i hi
        rw [childAt_set_other _ _ _ _ (by omega)]
        exact hcfree i (by omega)
      · intro i j hij hj
        by_cases hjc : j = num
        · subst hjc
          rw [getD_set_ne _ _ _ _ _ (by omega), getD_set_eq _ _ _ _ (by rw [hkl]; omega)]
          exact findIdx_none_spec keys _ hmiss i (by omega)
        · rw [getD_set_ne _ _ _ _ _ (by omega), getD_set_ne _ _ _ _ _ (fun h => hjc h.symm)]
          exact hdist i j hij (by omega)
      · intro i hi
        by_cases hcase : i = num
        · subst hcase
          rw [childAt_set_self _ _ _ (by rw [hcl]; omega)]
          simp
        · rw [childAt_set_other _ _ _ _ (fun h => hcase h.symm)]
          exact hsome i (by omega)
      · intro i hi
        by_cases hcase : i = num
        · subst hcase
          rw [childAt_set_self _ _ _ (by rw [hcl]; omega)]
          exact Inv.leaf _ _ _ hk
        · rw [childAt_set_other _ _ _ _ (fun h => hcase h.symm)]
          exact hchild i (by omega)
      · intro i hi
        by_cases hcase : i = num
        · subst hcase
          rw [childAt_set_self _ _ _ (by rw [hcl]; omega),
            getD_set_eq _ _ _ _ (by rw [hkl]; omega)]
          intro q hq
          simp only [bindingsSlot, bindingsNode, List.mem_singleton] at hq
          subst hq
          exact ⟨hmatch, rfl⟩
        · rw [childAt_set_other _ _ _ _ (fun h => hcase h.symm),
            getD_set_ne _ _ _ _ _ (fun h => hcase h.symm)]
          exact hedge i (by omega)
    · apply bindingsList_getD _ num
      rw [childAt_set_self _ _ _ (by rw [hcl]; omega)]
      simp [bindingsSlot, bindingsNode]
    · intro p hp
      rcases bindings_mem_child cs p hp with ⟨j, hjlt, hpj⟩
      have hjnum : j ≠ num := by
        intro h
        subst h
        rw [hcfree j (le_refl _)] at hpj
        simp [bindingsSlot] at hpj
      apply bindingsList_getD _ j
      rw [childAt_set_other _ _ _ _ (fun h => hjnum h.symm)]
      exact hpj
  | n48 ps ci cs num =>
    simp only [ART.getPre] at hmatch hmiss hfull hdlen hb ⊢
    simp only [ART.findChildIdx] at hmiss
    simp only [ART.isFullB] at hfull
    have hnumlt : num < 48 := by
      have h4 : num ≠ 48 := by simpa using hfull
      cases hInv with
      | n48 _ _ _ _ _ hcil hcl hnum => omega
    cases hInv with
    | n48 _ _ _ _ _ hcil hcl hnum hpre hent hzero hinj hsurj hcfree hsome hchild hedge =>
    have hbm1 : ci.getD (edgeByte key (d + (PStore.get ps).length)) (-1) = -1 := by
      by_contra hc
      rw [if_pos hc] at hmiss
      cases hmiss
    simp only [addChildK, ART.addChildB, bindingsNode]
    refine ⟨?_, ?_, ?_⟩
    · refine Inv.n48 _ _ _ _ _ (by rw [List.length_set, hcil]) (by rw [List.length_set, hcl])
        (by omega) hpre ?_ ?_ ?_ ?_ ?_ ?_ ?_ ?_
      · intro b1
        by_cases hb1 : b1 = edgeByte key (d + (PStore.get ps).length)
        · subst hb1
          right
          exact ⟨num, by omega, getD_set_eq _ _ _ _ (by rw [hcil]; omega)⟩
        · rw [getD_set_ne _ _ _ _ _ (fun h => hb1 h.symm)]
          rcases hent b1 with he | ⟨j, hj, he⟩
          · exact Or.inl he
          · exact Or.inr ⟨j, by omega, he⟩
      · rw [getD_set_ne _ _ _ _ _ (by omega)]
        exact hzero
      · intro b1 b2 h1 h2
        by_cases hb1 : b1 = edgeByte key (d + (PStore.get ps).length)
        · by_cases hb2 : b2 = edgeByte key (d + (PStore.get ps).length)
          · rw [hb1, hb2]
          · exfalso
            subst hb1
            rw [getD_set_eq _ _ _ _ (by rw [hcil]; omega)] at h2
            rw [getD_set_ne _ _ _ _ _ (fun h => hb2 h.symm)] at h2
            rcases hent b2 with he | ⟨j, hj, he⟩
            · rw [he] at h2
              simp only [Int.ofNat_eq_natCast] at h2
              omega
            · rw [he] at h2
              simp only [Int.ofNat_eq_natCast] at h2
              omega
        · by_cases hb2 : b2 = edgeByte key (d + (PStore.get ps).length)
          · exfalso
            subst hb2
            rw [getD_set_ne _ _ _ _ _ (fun h => hb1 h.symm)] at h1 h2
            rw [getD_set_eq _ _ _ _ (by rw [hcil]; omega)] at h2
            rcases hent b1 with he | ⟨j, hj, he⟩
            · exact h1 he
            · rw [he] at h2
              simp only [Int.ofNat_eq_natCast] at h2
              omega
          · rw [getD_set_ne _ _ _ _ _ (fun h => hb1 h.symm)] at h1 h2
            rw [getD_set_ne _ _ _ _ _ (fun h => hb2 h.symm)] at h2
            exact hinj b1 b2 h1 h2
      · intro j hj
        by_cases hc : j = num
        · subst hc
          exact ⟨edgeByte key (d + (PStore.get ps).length), by omega,
            getD_set_eq _ _ _ _ (by rw [hcil]; omega)⟩
        · obtain ⟨b1, hb1lt, hb1⟩ := hsurj j (by omega)
          have hbne : b1 ≠ edgeByte key (d + (PStore.get ps).length) := by
            intro h
            rw [h, hbm1] at hb1
            simp only [Int.ofNat_eq_natCast] at hb1
            omega
          exact ⟨b1, hb1lt, by
            rw [getD_set_ne _ _ _ _ _ (fun h => hbne h.symm)]
            exact hb1⟩
      · intro j hj
        rw [childAt_set_other _ _ _ _ (by omega)]
        exact hcfree j (by omega)
      · intro j hj
        by_cases hc : j = num
        · subst hc
          rw [childAt_set_self _ _ _ (by rw [hcl]; omega)]
          simp
        · rw [childAt_set_other _ _ _ _ (fun h => hc h.symm)]
          exact hsome j (by omega)
      · intro b1 h1
        by_cases hb1 : b1 = edgeByte key (d + (PStore.get ps).length)
        · subst hb1
          rw [getD_set_eq _ _ _ _ (by rw [hcil]; omega)]
          have ht : (Int.ofNat num).toNat = num := by
            simp only [Int.ofNat_eq_natCast, Int.toNat_natCast]
          rw [ht, childAt_set_self _ _ _ (by rw [hcl]; omega)]
          exact Inv.leaf _ _ _ hk
        · rw [getD_set_ne _ _ _ _ _ (fun h => hb1 h.symm)] at h1 ⊢
          rcases hent b1 with he | ⟨j, hj, he⟩
          · exact absurd he h1
          · have ht : (Int.ofNat j).toNat = j := by
              simp only [Int.ofNat_eq_natCast, Int.toNat_natCast]
            rw [he, ht, childAt_set_other _ _ _ _ (by omega)]
            have h3 := hchild b1 h1
            rw [he, ht] at h3
            exact h3
      · intro b1 h1
        by_cases hb1 : b1 = edgeByte key (d + (PStore.get ps).length)
        · subst hb1
          rw [getD_set_eq _ _ _ _ (by rw [hcil]; omega)]
          have ht : (Int.ofNat num).toNat = num := by
            simp only [Int.ofNat_eq_natCast, Int.toNat_natCast]
          rw [ht, childAt_set_self _ _ _ (by rw [hcl]; omega)]
          intro q hq
          simp only [bindingsSlot, bindingsNode, List.mem_singleton] at hq
          subst hq
          exact ⟨hmatch, rfl⟩
        · rw [getD_set_ne _ _ _ _ _ (fun h => hb1 h.symm)] at h1 ⊢
          rcases hent b1 with he | ⟨j, hj, he⟩
          · exact absurd he h1
          · have ht : (Int.ofNat j).toNat = j := by
              simp only [Int.ofNat_eq_natCast, Int.toNat_natCast]
            rw [he, ht, childAt_set_other _ _ _ _ (by omega)]
            have h3 := hedge b1 h1
            rw [he, ht] at h3
            exact h3
    · apply bindingsList_getD _ num
      rw [childAt_set_self _ _ _ (by rw [hcl]; omega)]
      simp [bindingsSlot, bindingsNode]
    · intro p hp
      rcases bindings_mem_child cs p hp with ⟨j, hjlt, hpj⟩
      have hjnum : j ≠ num := by
        intro h
        subst h
        rw [hcfree j (le_refl _)] at hpj
        simp [bindingsSlot] at hpj
      apply bindingsList_getD _ j
      rw [childAt_set_other _ _ _ _ (fun h => hjnum h.symm)]
      exact hpj
  | n256 ps cs =>
    simp only [ART.getPre] at hmatch hmiss hfull hdlen hb ⊢
    simp only [ART.findChildIdx] at hmiss
    cases hInv with
    | n256 _ _ _ hcl hpre hzero hchild hedge =>
    have hslot : childAt cs (edgeByte key (d + (PStore.get ps).length)) = none := by
      unfold childAt
      cases hcs : cs.getD (edgeByte key (d + (PStore.get ps).length)) none with
      | none => rfl
      | some c =>
        rw [hcs] at hmiss
        cases hmiss
    simp only [addChildK, ART.addChildB, bindingsNode]
    refine ⟨?_, ?_, ?_⟩
    · refine Inv.n256 _ _ _ (by rw [List.length_set, hcl]) hpre ?_ ?_ ?_
      · rw [childAt_set_other _ _ _ _ (by omega)]
        exact hzero
      · intro b1 hb1
        by_cases hc : b1 = edgeByte key (d + (PStore.get ps).length)
        · subst hc
          rw [childAt_set_self _ _ _ (by rw [hcl]; omega)]
          exact Inv.leaf _ _ _ hk
        · rw [childAt_set_other _ _ _ _ (fun h => hc h.symm)]
          exact hchild b1 hb1
      · intro b1 hb1
        by_cases hc : b1 = edgeByte key (d + (PStore.get ps).length)
        · subst hc
          rw [childAt_set_self _ _ _ (by rw [hcl]; omega)]
          intro q hq
          simp only [bindingsSlot, bindingsNode, List.mem_singleton] at hq
          subst hq
          exact ⟨hmatch, rfl⟩
        · rw [childAt_set_other _ _ _ _ (fun h => hc h.symm)]
          exact hedge b1 hb1
    · apply bindingsList_getD _ (edgeByte key (d + (PStore.get ps).length))
      rw [childAt_set_self _ _ _ (by rw [hcl]; omega)]
      simp [bindingsSlot, bindingsNode]
    · intro p hp
      rcases bindings_mem_child cs p hp with ⟨j, hjlt, hpj⟩
      have hjnum : j ≠ edgeByte key (d + (PStore.get ps).length) := by
        intro h
        subst h
        rw [hslot] at hpj
        simp [bindingsSlot] at hpj
      apply bindingsList_getD _ j
      rw [childAt_set_other _ _ _ _ (fun h => hjnum h.symm)]
      exact hpj

end Art

namespace Art
variable {V : Type}

theorem childAt_append_left {A : Type} (l1 l2 : List (Option A)) (i : Nat)
    (h : i < l1.length) : childAt (l1 ++ l2) i = childAt l1 i :=
  getD_append_left l1 l2 i none h

theorem childAt_append_right {A : Type} (l1 l2 : List (Option A)) (i : Nat)
    (h : l1.length ≤ i) : childAt (l1 ++ l2) i = l2.getD (i - l1.length) none :=
  getD_append_right l1 l2 i none h

/-- `grow()` on a full node keeps the invariant, the prefix, every stored
binding, and the absence of a child under every nonzero byte; the grown node
is not full. -/
theorem Inv_grow (t : ART V) (d : Nat) (hInv : Inv (some t) d)
    (hfull : t.isFullB = true) :
    Inv (some t.growB) d ∧ t.growB.getPre = t.getPre ∧ t.growB.isFullB = false ∧
    (∀ b, 1 ≤ b → t.findChildIdx b = none → t.growB.findChildIdx b = none) ∧
    (∀ p ∈ bindingsNode t, p ∈ bindingsNode t.growB) := by
  cases t with
  | leaf k0 v0 => cases hfull
  | n256 ps cs => cases hfull
  | n4 ps keys cs num =>
    simp only [ART.isFullB] at hfull
    have h4 : num = 4 := by simpa using hfull
    subst h4
    cases hInv with
    | n4 _ _ _ _ _ hkl hcl hnum hpre hused hkfree hcfree hdist hsome hchild hedge =>
    simp only [ART.growB, ART.getPre, ART.isFullB, bindingsNode]
    refine ⟨?_, trivial, rfl, ?_, ?_⟩
    · refine Inv.n16 _ _ _ _ _ (by rw [List.length_append, hkl, List.length_replicate])
        (by rw [List.length_append, hcl, List.length_replicate]) (by omega) hpre
        ?_ ?_ ?_ ?_ ?_ ?_ ?_
      · intro i hi
        rw [getD_append_left _ _ _ _ (by rw [hkl]; omega)]
        exact hused i hi
      · intro i hi
        rcases lt_or_ge i keys.length with hlt | hge
        · rw [hkl] at hlt; omega
        · rw [getD_append_right _ _ _ _ hge]
          exact getD_replicate _ _ _
      · intro i hi
        rcases lt_or_ge i cs.length with hlt | hge
        · rw [hcl] at hlt; omega
        · rw [childAt_append_right _ _ _ hge]
          exact getD_replicate _ _ _
      · intro i j hij hj
        rw [getD_append_left _ _ _ _ (by rw [hkl]; omega),
          getD_append_left _ _ _ _ (by rw [hkl]; omega)]
        exact hdist i j hij hj
      · intro i hi
        rw [childAt_append_left _ _ _ (by rw [hcl]; omega)]
        exact hsome i hi
      · intro i hi
        rw [childAt_append_left _ _ _ (by rw [hcl]; omega)]
        exact hchild i hi
      · intro i hi
        rw [childAt_append_left _ _ _ (by rw [hcl]; omega),
          getD_append_left _ _ _ _ (by rw [hkl]; omega)]
        exact hedge i hi
    · intro b hb1 hnone
      simp only [ART.findChildIdx] at hnone ⊢
      apply findIdx_none_of_all
      intro i hi
      rcases lt_or_ge i keys.length with hlt | hge
      · rw [getD_append_left _ _ _ _ hlt]
        exact findIdx_none_spec keys b hnone i hlt
      · rw [getD_append_right _ _ _ _ hge, getD_replicate]
        omega
    · intro p hp
      rw [bindingsList_append, bindingsList_replicate_none, List.append_nil]
      exact hp
  | n16 ps keys cs num =>
    simp only [ART.isFullB] at hfull
    have h16 : num = 16 := by simpa using hfull
    subst h16
    cases hInv with
    | n16 _ _ _ _ _ hkl hcl hnum hpre hused hkfree hcfree hdist hsome hchild hedge =>
    have htake : cs.take 16 = cs := by rw [← hcl]; exact List.take_length cs
    simp only [ART.growB, ART.getPre, ART.isFullB, bindingsNode]
    rw [htake]
    have hlt256 : ∀ i, i < 16 → keys.getD i 0 < 256 := by
      intro i hi
      have h2 := hused i hi
      omega
    have hit := buildChildIndex_hit keys 16 hlt256 hdist
    have hchar : ∀ b1, (buildChildIndex keys 16).getD b1 (-1) = -1 ∨
        ∃ i, i < 16 ∧ keys.getD i 0 = b1 ∧
          (buildChildIndex keys 16).getD b1 (-1) = Int.ofNat i := by
      intro b1
      by_cases hex : ∃ i, i < 16 ∧ keys.getD i 0 = b1
      · rcases hex with ⟨i, hi, hkey⟩
        right
        exact ⟨i, hi, hkey, by rw [← hkey]; exact hit i hi⟩
      · left
        apply buildChildIndex_miss
        intro i hi hc
        exact hex ⟨i, hi, hc⟩
    refine ⟨?_, trivial, rfl, ?_, ?_⟩
    · refine Inv.n48 _ _ _ _ _ (buildChildIndex_length keys 16)
        (by rw [List.length_append, hcl, List.length_replicate]) (by omega) hpre
        ?_ ?_ ?_ ?_ ?_ ?_ ?_ ?_
      · intro b1
        rcases hchar b1 with he | ⟨i, hi, hk1, he⟩
        · exact Or.inl he
        · exact Or.inr ⟨i, hi, he⟩
      · apply buildChildIndex_miss
        intro i hi
        have h2 := hused i hi
        omega
      · intro b1 b2 h1 h2
        rcases hchar b1 with he1 | ⟨i1, hi1, hk1, he1⟩
        · exact absurd he1 h1
        · rcases hchar b2 with he2 | ⟨i2, hi2, hk2, he2⟩
          · rw [he2] at h2
            exact absurd h2 h1
          · rw [he1, he2] at h2
            simp only [Int.ofNat_eq_natCast] at h2
            have hii : i1 = i2 := by omega
            rw [← hk1, ← hk2, hii]
      · intro j hj
        refine ⟨keys.getD j 0, ?_, hit j hj⟩
        have h2 := hused j hj
        omega
      · intro j hj
        rw [childAt_append_right _ _ _ (by rw [hcl]; omega)]
        exact getD_replicate _ _ _
      · intro j hj
        rw [childAt_append_left _ _ _ (by rw [hcl]; omega)]
        exact hsome j hj
      · intro b1 h1
        rcases hchar b1 with he | ⟨i, hi, hk1, he⟩
        · exact absurd he h1
        · rw [he]
          have ht : (Int.ofNat i).toNat = i := by
            simp only [Int.ofNat_eq_natCast, Int.toNat_natCast]
          rw [ht, childAt_append_left _ _ _ (by rw [hcl]; omega)]
          exact hchild i hi
      · intro b1 h1
        rcases hchar b1 with he | ⟨i, hi, hk1, he⟩
        · exact absurd he h1
        · rw [he]
          have ht : (Int.ofNat i).toNat = i := by
            simp only [Int.ofNat_eq_natCast, Int.toNat_natCast]
          rw [ht, childAt_append_left _ _ _ (by rw [hcl]; omega), ← hk1]
          exact hedge i hi
    · intro b hb1 hnone
      simp only [ART.findChildIdx] at hnone ⊢
      have hm : (buildChildIndex keys 16).getD b (-1) = -1 := by
        apply buildChildIndex_miss
        intro i hi
        exact findIdx_none_spec keys b hnone i (by rw [hkl]; omega)
      rw [if_neg (show ¬((buildChildIndex keys 16).getD b (-1) ≠ -1) from
        fun hc => hc hm)]
    · intro p hp
      rw [bindingsList_append, bindingsList_replicate_none, List.append_nil]
      exact hp
  | n48 ps ci cs num =>
    simp only [ART.isFullB] at hfull
    have h48 : num = 48 := by simpa using hfull
    subst h48
    cases hInv with
    | n48 _ _ _ _ _ hcil hcl hnum hpre hent hzero hinj hsurj hcfree hsome hchild hedge =>
    simp only [ART.growB, ART.getPre, ART.isFullB, bindingsNode]
    have hcsb : ∀ b, b < 256 →
        childAt ((List.range 256).map fun b =>
          if ci.getD b (-1) ≠ -1 then cs.getD (ci.getD b (-1)).toNat none else none) b =
        (if ci.getD b (-1) ≠ -1 then cs.getD (ci.getD b (-1)).toNat none else none) := by
      intro b hb
      exact getD_range_map _ _ _ _ hb
    refine ⟨?_, trivial, trivial, ?_, ?_⟩
    · refine Inv.n256 _ _ _ (by rw [List.length_map, List.length_range]) hpre ?_ ?_ ?_
      · rw [hcsb 0 (by omega), if_neg (show ¬(ci.getD 0 (-1) ≠ -1) from fun hc => hc hzero)]
      · intro b hb
        rw [hcsb b hb]
        by_cases hc : ci.getD b (-1) ≠ -1
        · rw [if_pos hc]
          exact hchild b hc
        · rw [if_neg hc]
          exact Inv.nil _
      · intro b hb
        rw [hcsb b hb]
        by_cases hc : ci.getD b (-1) ≠ -1
        · rw [if_pos hc]
          exact hedge b hc
        · rw [if_neg hc]
          intro q hq
          simp [bindingsSlot] at hq
    · intro b hb1 hnone
      simp only [ART.findChildIdx] at hnone ⊢
      have hm : ci.getD b (-1) = -1 := by
        by_contra hc
        rw [if_pos hc] at hnone
        cases hnone
      have hslot : (((List.range 256).map fun b =>
          if ci.getD b (-1) ≠ -1 then cs.getD (ci.getD b (-1)).toNat none
          else none)).getD b none = none := by
        rcases lt_or_ge b 256 with hblt | hbge
        · have h2 := hcsb b hblt
          unfold childAt at h2
          rw [h2, if_neg (show ¬(ci.getD b (-1) ≠ -1) from fun hc => hc hm)]
        · apply List.getD_eq_default
          rw [List.length_map, List.length_range]
          omega
      rw [hslot]
    · intro p hp
      rcases bindings_mem_child cs p hp with ⟨j, hjlt, hpj⟩
      rw [hcl] at hjlt
      rcases hsurj j hjlt with ⟨b, hb256, hbj⟩
      apply bindingsList_getD _ b
      rw [hcsb b hb256, hbj]
      have hpos : (Int.ofNat j : Int) ≠ -1 := by
        simp only [Int.ofNat_eq_natCast]
        omega
      rw [if_pos hpos]
      have ht : (Int.ofNat j).toNat = j := by
        simp only [Int.ofNat_eq_natCast, Int.toNat_natCast]
      rw [ht]
      exact hpj

end Art

namespace Art
variable {V : Type}

/-- Inserting into an empty slot installs the new leaf. -/
theorem InsP_none (key : List Nat) (v : V) (d : Nat) : InsP (none : Option (ART V)) key v d := by
  intro hInv hk hd hpath
  refine ⟨Inv.leaf _ _ _ hk, by simp [insertSlot, bindingsNode], ?_⟩
  intro p hp
  simp [bindingsSlot] at hp

/-- Descending through a fully matched compressed path extends the
agreement between the inserted key and every key under the chosen child
from depth `d` to depth `d + pre.length`. -/
theorem path_descend (pre key : List Nat) (d : Nat) (c : Option (ART V))
    (hp : checkPrefix pre key d = pre.length)
    (hmem : ∀ p ∈ bindingsSlot c, checkPrefix pre p.1 d = pre.length)
    (hpath : ∀ p ∈ bindingsSlot c, d ≤ p.1.length ∧
      ∀ j, j < d → p.1.getD j 0 = key.getD j 0) :
    ∀ p ∈ bindingsSlot c, d + pre.length ≤ p.1.length ∧
      ∀ j, j < d + pre.length → p.1.getD j 0 = key.getD j 0 := by
  intro p hpmem
  obtain ⟨hdle, hagree⟩ := hpath p hpmem
  have hfull := (checkPrefix_full_iff pre p.1 d).mp (hmem p hpmem)
  have hkfull := (checkPrefix_full_iff pre key d).mp hp
  constructor
  · rcases Nat.eq_zero_or_pos pre.length with h0 | hpos
    · omega
    · obtain ⟨hlt, _⟩ := hfull (pre.length - 1) (by omega)
      omega
  · intro j hj
    by_cases hjd : j < d
    · exact hagree j hjd
    · have hj2 : j - d < pre.length := by omega
      obtain ⟨_, he1⟩ := hfull (j - d) hj2
      obtain ⟨_, he2⟩ := hkfull (j - d) hj2
      have harith : d + (j - d) = j := by omega
      rw [harith] at he1 he2
      rw [he1, he2]

/-- `insert` is correct on every well-formed slot: one sequential insert of a
valid key preserves the invariant, stores the binding and keeps all others. -/
theorem insert_correct (c : Option (ART V)) (key : List Nat) (v : V) (d : Nat) :
    InsP c key v d := by
  induction c, key, v, d using insertSlot.induct with
  | motive_2 => next t k vv dd => exact InsP (some t) k vv dd
  | motive_3 => next cs i k vv dd => exact InsP (childAt cs i) k vv dd
  | case1 v0 key v dd =>
    intro hInv hk hd hpath
    refine ⟨?_, ?_, ?_⟩
    · simp only [insertSlot]
      rw [insertNode_leaf_eq]
      exact Inv.leaf _ _ _ hk
    · simp only [insertSlot]
      rw [insertNode_leaf_eq]
      simp [bindingsNode]
    · intro p hp hne
      simp only [bindingsSlot, bindingsNode, List.mem_singleton] at hp
      exact absurd (by rw [hp]) hne
  | case2 k v0 key v dd h =>
    intro hInv hk hd hpath
    have hk2 : validKey k := by
      cases hInv with
      | leaf _ _ _ hk2 => exact hk2
    have hmemk : (k, v0) ∈ bindingsSlot (some (ART.leaf k v0)) := by
      simp [bindingsSlot, bindingsNode]
    obtain ⟨hd2, hagree⟩ := hpath (k, v0) hmemk
    obtain ⟨hI, hnew, hold⟩ := InsP_leaf_split k key v0 v dd h hk hk2 hd hd2 hagree
    refine ⟨?_, ?_, ?_⟩
    · simp only [insertSlot]
      exact hI
    · simp only [insertSlot]
      exact hnew
    · intro p hp hne
      simp only [bindingsSlot, bindingsNode, List.mem_singleton] at hp
      subst hp
      simp only [insertSlot]
      exact hold
  | case3 ps keys cs num key v dd t curPre pp h =>
    intro hInv hk hd hpath
    have h2 : checkPrefix (PStore.get ps) key dd ≠ (PStore.get ps).length := h
    have hsp := Inv_split_node (ART.n4 ps keys cs num (V := V)) key v dd hInv hk hd h2
    refine ⟨?_, ?_, ?_⟩
    · simp only [insertSlot]
      rw [insertNode_n4_split ps keys cs num key v dd h2]
      exact hsp.1
    · simp only [insertSlot]
      rw [insertNode_n4_split ps keys cs num key v dd h2]
      exact hsp.2.1
    · intro p hp hne
      simp only [insertSlot]
      rw [insertNode_n4_split ps keys cs num key v dd h2]
      exact hsp.2.2 p hp
  | case4 ps keys cs num key v dd t curPre pp h i hx ih =>
    intro hInv hk hd hpath
    have hp2 : checkPrefix (PStore.get ps) key dd = (PStore.get ps).length := not_ne_iff.mp h
    have hx2 : (ART.n4 ps keys cs num (V := V)).findChildIdx
        (edgeByte key (dd + (PStore.get ps).length)) = some i := hx
    have ih2 : InsP (childAt cs i) key v (dd + (PStore.get ps).length) := ih
    have hdlen : dd + (PStore.get ps).length ≤ key.length := by
      have h3 := checkPrefix_add_le (PStore.get ps) key dd hd
      rw [hp2] at h3
      exact h3
    have hbb := edgeByte_bounds key hk (dd + (PStore.get ps).length) hdlen
    cases hInv with
    | n4 _ _ _ _ _ hkl hcl hnum hpre hused hkfree hcfree hdist hsome hchild hedge =>
    have hxi := hx2
    simp only [ART.findChildIdx] at hxi
    obtain ⟨hilt, hkey⟩ := findIdx_some_spec keys _ _ hxi
    have hinum : i < num := by
      by_contra hc
      have h0 := hkfree i (by omega)
      omega
    have hpath2 := path_descend (PStore.get ps) key dd (childAt cs i) hp2
        (fun p hp => (hedge i hinum p hp).1)
        (fun p hp => hpath p (bindingsList_getD cs i p hp))
    obtain ⟨hIc, hmemc, holdc⟩ := ih2 (hchild i hinum) hk hdlen hpath2
    have hset : insertChildren cs i key v (dd + (PStore.get ps).length) =
        cs.set i (some (insertSlot (childAt cs i) key v (dd + (PStore.get ps).length))) :=
      insertChildren_eq_set cs i key v _ (by rw [hcl]; omega)
    have hsub := bindings_insert_sub (childAt cs i) key v (dd + (PStore.get ps).length)
    refine ⟨?_, ?_, ?_⟩
    · simp only [insertSlot]
      rw [insertNode_n4_descend ps keys cs num key v dd i hp2 hx2, hset]
      refine Inv.n4 _ _ _ _ _ hkl (by rw [List.length_set, hcl]) hnum hpre hused hkfree
        ?_ hdist ?_ ?_ ?_
      · intro j hj
        rw [childAt_set_other _ _ _ _ (by omega)]
        exact hcfree j hj
      · intro j hj
        by_cases hji : j = i
        · rw [hji, childAt_set_self _ _ _ (by rw [hcl]; omega)]
          simp
        · rw [childAt_set_other _ _ _ _ (fun h3 => hji h3.symm)]
          exact hsome j hj
      · intro j hj
        by_cases hji : j = i
        · rw [hji, childAt_set_self _ _ _ (by rw [hcl]; omega)]
          exact hIc
        · rw [childAt_set_other _ _ _ _ (fun h3 => hji h3.symm)]
          exact hchild j hj
      · intro j hj
        by_cases hji : j = i
        · rw [hji, childAt_set_self _ _ _ (by rw [hcl]; omega)]
          intro q hq
          rcases hsub q hq with hq1 | hq1
          · constructor
            · rw [hq1]
              exact hp2
            · rw [hq1, hkey]
          · exact hedge i hinum q hq1
        · rw [childAt_set_other _ _ _ _ (fun h3 => hji h3.symm)]
          exact hedge j hj
    · simp only [insertSlot]
      rw [insertNode_n4_descend ps keys cs num key v dd i hp2 hx2, hset]
      apply bindingsList_getD _ i
      rw [childAt_set_self _ _ _ (by rw [hcl]; omega)]
      exact hmemc
    · intro p hp hne
      simp only [insertSlot]
      rw [insertNode_n4_descend ps keys cs num key v dd i hp2 hx2, hset]
      rcases bindings_mem_child cs p hp with ⟨j, hjlt, hpj⟩
      by_cases hji : j = i
      · apply bindingsList_getD _ j
        rw [hji, childAt_set_self _ _ _ (by rw [hcl]; omega)]
        rw [hji] at hpj
        exact holdc p hpj hne
      · apply bindingsList_getD _ j
        rw [childAt_set_other _ _ _ _ (fun h3 => hji h3.symm)]
        exact hpj
  | case5 ps keys cs num key v dd t curPre pp h hx hf =>
    intro hInv hk hd hpath
    have hp2 : checkPrefix (PStore.get ps) key dd = (PStore.get ps).length := not_ne_iff.mp h
    have hx2 : (ART.n4 ps keys cs num (V := V)).findChildIdx
        (edgeByte key (dd + (PStore.get ps).length)) = none := hx
    have hf2 : (ART.n4 ps keys cs num (V := V)).isFullB = true := hf
    have hdlen : dd + (PStore.get ps).length ≤ key.length := by
      have h3 := checkPrefix_add_le (PStore.get ps) key dd hd
      rw [hp2] at h3
      exact h3
    have hbb := edgeByte_bounds key hk (dd + (PStore.get ps).length) hdlen
    obtain ⟨hgI, hgPre, hgFull, hgFind, hgBind⟩ := Inv_grow (ART.n4 ps keys cs num (V := V)) dd hInv hf2
    have hL2 : ∀ k0 v0, (ART.n4 ps keys cs num (V := V)).growB ≠ ART.leaf k0 v0 := by
      intro k0 v0 hc
      simp only [ART.growB] at hc
      exact ART.noConfusion hc
    have hmatch2 : checkPrefix ((ART.n4 ps keys cs num (V := V)).growB).getPre key dd =
        ((ART.n4 ps keys cs num (V := V)).growB).getPre.length := by
      rw [hgPre]
      exact hp2
    have hmiss2 : ((ART.n4 ps keys cs num (V := V)).growB).findChildIdx
        (edgeByte key (dd + ((ART.n4 ps keys cs num (V := V)).growB).getPre.length)) = none := by
      rw [hgPre]
      exact hgFind (edgeByte key (dd + (PStore.get ps).length)) (by omega) hx2
    have hadd := InsP_addChild ((ART.n4 ps keys cs num (V := V)).growB) key v dd hL2 hgI hk hd hmatch2 hmiss2 hgFull
    refine ⟨?_, ?_, ?_⟩
    · simp only [insertSlot]
      rw [insertNode_n4_grow ps keys cs num key v dd hp2 hx2 hf2]
      exact hadd.1
    · simp only [insertSlot]
      rw [insertNode_n4_grow ps keys cs num key v dd hp2 hx2 hf2]
      exact hadd.2.1
    · intro p hp hne
      simp only [insertSlot]
      rw [insertNode_n4_grow ps keys cs num key v dd hp2 hx2 hf2]
      exact hadd.2.2 p (hgBind p hp)
  | case6 ps keys cs num key v dd t curPre pp h hx hf =>
    intro hInv hk hd hpath
    have hp2 : checkPrefix (PStore.get ps) key dd = (PStore.get ps).length := not_ne_iff.mp h
    have hx2 : (ART.n4 ps keys cs num (V := V)).findChildIdx
        (edgeByte key (dd + (PStore.get ps).length)) = none := hx
    have hf2 : (ART.n4 ps keys cs num (V := V)).isFullB = false := by
      have hf3 : ¬ (ART.n4 ps keys cs num (V := V)).isFullB = true := hf
      simpa using hf3
    have hL2 : ∀ k0 v0, (ART.n4 ps keys cs num (V := V)) ≠ ART.leaf k0 v0 := by
      intro k0 v0 hc
      exact ART.noConfusion hc
    have hadd := InsP_addChild (ART.n4 ps keys cs num (V := V)) key v dd hL2 hInv hk hd hp2 hx2 hf2
    refine ⟨?_, ?_, ?_⟩
    · simp only [insertSlot]
      rw [insertNode_n4_add ps keys cs num key v dd hp2 hx2
        (by rw [hf2]; exact Bool.false_ne_true)]
      exact hadd.1
    · simp only [insertSlot]
      rw [insertNode_n4_add ps keys cs num key v dd hp2 hx2
        (by rw [hf2]; exact Bool.false_ne_true)]
      exact hadd.2.1
    · intro p hp hne
      simp only [insertSlot]
      rw [insertNode_n4_add ps keys cs num key v dd hp2 hx2
        (by rw [hf2]; exact Bool.false_ne_true)]
      exact hadd.2.2 p hp
  | case7 ps keys cs num key v dd t curPre pp h =>
    intro hInv hk hd hpath
    have h2 : checkPrefix (PStore.get ps) key dd ≠ (PStore.get ps).length := h
    have hsp := Inv_split_node (ART.n16 ps keys cs num (V := V)) key v dd hInv hk hd h2
    refine ⟨?_, ?_, ?_⟩
    · simp only [insertSlot]
      rw [insertNode_n16_split ps keys cs num key v dd h2]
      exact hsp.1
    · simp only [insertSlot]
      rw [insertNode_n16_split ps keys cs num key v dd h2]
      exact hsp.2.1
    · intro p hp hne
      simp only [insertSlot]
      rw [insertNode_n16_split ps keys cs num key v dd h2]
      exact hsp.2.2 p hp
  | case8 ps keys cs num key v dd t curPre pp h i hx ih =>
    intro hInv hk hd hpath
    have hp2 : checkPrefix (PStore.get ps) key dd = (PStore.get ps).length := not_ne_iff.mp h
    have hx2 : (ART.n16 ps keys cs num (V := V)).findChildIdx
        (edgeByte key (dd + (PStore.get ps).length)) = some i := hx
    have ih2 : InsP (childAt cs i) key v (dd + (PStore.get ps).length) := ih
    have hdlen : dd + (PStore.get ps).length ≤ key.length := by
      have h3 := checkPrefix_add_le (PStore.get ps) key dd hd
      rw [hp2] at h3
      exact h3
    have hbb := edgeByte_bounds key hk (dd + (PStore.get ps).length) hdlen
    cases hInv with
    | n16 _ _ _ _ _ hkl hcl hnum hpre hused hkfree hcfree hdist hsome hchild hedge =>
    have hxi := hx2
    simp only [ART.findChildIdx] at hxi
    obtain ⟨hilt, hkey⟩ := findIdx_some_spec keys _ _ hxi
    have hinum : i < num := by
      by_contra hc
      have h0 := hkfree i (by omega)
      omega
    have hpath2 := path_descend (PStore.get ps) key dd (childAt cs i) hp2
        (fun p hp => (hedge i hinum p hp).1)
        (fun p hp => hpath p (bindingsList_getD cs i p hp))
    obtain ⟨hIc, hmemc, holdc⟩ := ih2 (hchild i hinum) hk hdlen hpath2
    have hset : insertChildren cs i key v (dd + (PStore.get ps).length) =
        cs.set i (some (insertSlot (childAt cs i) key v (dd + (PStore.get ps).length))) :=
      insertChildren_eq_set cs i key v _ (by rw [hcl]; omega)
    have hsub := bindings_insert_sub (childAt cs i) key v (dd + (PStore.get ps).length)
    refine ⟨?_, ?_, ?_⟩
    · simp only [insertSlot]
      rw [insertNode_n16_descend ps keys cs num key v dd i hp2 hx2, hset]
      refine Inv.n16 _ _ _ _ _ hkl (by rw [List.length_set, hcl]) hnum hpre hused hkfree
        ?_ hdist ?_ ?_ ?_
      · intro j hj
        rw [childAt_set_other _ _ _ _ (by omega)]
        exact hcfree j hj
      · intro j hj
        by_cases hji : j = i
        · rw [hji, childAt_set_self _ _ _ (by rw [hcl]; omega)]
          simp
        · rw [childAt_set_other _ _ _ _ (fun h3 => hji h3.symm)]
          exact hsome j hj
      · intro j hj
        by_cases hji : j = i
        · rw [hji, childAt_set_self _ _ _ (by rw [hcl]; omega)]
          exact hIc
        · rw [childAt_set_other _ _ _ _ (fun h3 => hji h3.symm)]
          exact hchild j hj
      · intro j hj
        by_cases hji : j = i
        · rw [hji, childAt_set_self _ _ _ (by rw [hcl]; omega)]
          intro q hq
          rcases hsub q hq with hq1 | hq1
          · constructor
            · rw [hq1]
              exact hp2
            · rw [hq1, hkey]
          · exact hedge i hinum q hq1
        · rw [childAt_set_other _ _ _ _ (fun h3 => hji h3.symm)]
          exact hedge j hj
    · simp only [insertSlot]
      rw [insertNode_n16_descend ps keys cs num key v dd i hp2 hx2, hset]
      apply bindingsList_getD _ i
      rw [childAt_set_self _ _ _ (by rw [hcl]; omega)]
      exact hmemc
    · intro p hp hne
      simp only [insertSlot]
      rw [insertNode_n16_descend ps keys cs num key v dd i hp2 hx2, hset]
      rcases bindings_mem_child cs p hp with ⟨j, hjlt, hpj⟩
      by_cases hji : j = i
      · apply bindingsList_getD _ j
        rw [hji, childAt_set_self _ _ _ (by rw [hcl]; omega)]
        rw [hji] at hpj
        exact holdc p hpj hne
      · apply bindingsList_getD _ j
        rw [childAt_set_other _ _ _ _ (fun h3 => hji h3.symm)]
        exact hpj
  | case9 ps keys cs num key v dd t curPre pp h hx hf =>
    intro hInv hk hd hpath
    have hp2 : checkPrefix (PStore.get ps) key dd = (PStore.get ps).length := not_ne_iff.mp h
    have hx2 : (ART.n16 ps keys cs num (V := V)).findChildIdx
        (edgeByte key (dd + (PStore.get ps).length)) = none := hx
    have hf2 : (ART.n16 ps keys cs num (V := V)).isFullB = true := hf
    have hdlen : dd + (PStore.get ps).length ≤ key.length := by
      have h3 := checkPrefix_add_le (PStore.get ps) key dd hd
      rw [hp2] at h3
      exact h3
    have hbb := edgeByte_bounds key hk (dd + (PStore.get ps).length) hdlen
    obtain ⟨hgI, hgPre, hgFull, hgFind, hgBind⟩ := Inv_grow (ART.n16 ps keys cs num (V := V)) dd hInv hf2
    have hL2 : ∀ k0 v0, (ART.n16 ps keys cs num (V := V)).growB ≠ ART.leaf k0 v0 := by
      intro k0 v0 hc
      simp only [ART.growB] at hc
      exact ART.noConfusion hc
    have hmatch2 : checkPrefix ((ART.n16 ps keys cs num (V := V)).growB).getPre key dd =
        ((ART.n16 ps keys cs num (V := V)).growB).getPre.length := by
      rw [hgPre]
      exact hp2
    have hmiss2 : ((ART.n16 ps keys cs num (V := V)).growB).findChildIdx
        (edgeByte key (dd + ((ART.n16 ps keys cs num (V := V)).growB).getPre.length)) = none := by
      rw [hgPre]
      exact hgFind (edgeByte key (dd + (PStore.get ps).length)) (by omega) hx2
    have hadd := InsP_addChild ((ART.n16 ps keys cs num (V := V)).growB) key v dd hL2 hgI hk hd hmatch2 hmiss2 hgFull
    refine ⟨?_, ?_, ?_⟩
    · simp only [insertSlot]
      rw [insertNode_n16_grow ps keys cs num key v dd hp2 hx2 hf2]
      exact hadd.1
    · simp only [insertSlot]
      rw [insertNode_n16_grow ps keys cs num key v dd hp2 hx2 hf2]
      exact hadd.2.1
    · intro p hp hne
      simp only [insertSlot]
      rw [insertNode_n16_grow ps keys cs num key v dd hp2 hx2 hf2]
      exact hadd.2.2 p (hgBind p hp)
  | case10 ps keys cs num key v dd t curPre pp h hx hf =>
    intro hInv hk hd hpath
    have hp2 : checkPrefix (PStore.get ps) key dd = (PStore.get ps).length := not_ne_iff.mp h
    have hx2 : (ART.n16 ps keys cs num (V := V)).findChildIdx
        (edgeByte key (dd + (PStore.get ps).length)) = none := hx
    have hf2 : (ART.n16 ps keys cs num (V := V)).isFullB = false := by
      have hf3 : ¬ (ART.n16 ps keys cs num (V := V)).isFullB = true := hf
      simpa using hf3
    have hL2 : ∀ k0 v0, (ART.n16 ps keys cs num (V := V)) ≠ ART.leaf k0 v0 := by
      intro k0 v0 hc
      exact ART.noConfusion hc
    have hadd := InsP_addChild (ART.n16 ps keys cs num (V := V)) key v dd hL2 hInv hk hd hp2 hx2 hf2
    refine ⟨?_, ?_, ?_⟩
    · simp only [insertSlot]
      rw [insertNode_n16_add ps keys cs num key v dd hp2 hx2
        (by rw [hf2]; exact Bool.false_ne_true)]
      exact hadd.1
    · simp only [insertSlot]
      rw [insertNode_n16_add ps keys cs num key v dd hp2 hx2
        (by rw [hf2]; exact Bool.false_ne_true)]
      exact hadd.2.1
    · intro p hp hne
      simp only [insertSlot]
      rw [insertNode_n16_add ps keys cs num key v dd hp2 hx2
        (by rw [hf2]; exact Bool.false_ne_true)]
      exact hadd.2.2 p hp
  | case11 ps ci cs num key v dd t curPre pp h =>
    intro hInv hk hd hpath
    have h2 : checkPrefix (PStore.get ps) key dd ≠ (PStore.get ps).length := h
    have hsp := Inv_split_node (ART.n48 ps ci cs num (V := V)) key v dd hInv hk hd h2
    refine ⟨?_, ?_, ?_⟩
    · simp only [insertSlot]
      rw [insertNode_n48_split ps ci cs num key v dd h2]
      exact hsp.1
    · simp only [insertSlot]
      rw [insertNode_n48_split ps ci cs num key v dd h2]
      exact hsp.2.1
    · intro p hp hne
      simp only [insertSlot]
      rw [insertNode_n48_split ps ci cs num key v dd h2]
      exact hsp.2.2 p hp
  | case12 ps ci cs num key v dd t curPre pp h i hx ih =>
    intro hInv hk hd hpath
    have hp2 : checkPrefix (PStore.get ps) key dd = (PStore.get ps).length := not_ne_iff.mp h
    have hx2 : (ART.n48 ps ci cs num (V := V)).findChildIdx
        (edgeByte key (dd + (PStore.get ps).length)) = some i := hx
    have ih2 : InsP (childAt cs i) key v (dd + (PStore.get ps).length) := ih
    have hdlen : dd + (PStore.get ps).length ≤ key.length := by
      have h3 := checkPrefix_add_le (PStore.get ps) key dd hd
      rw [hp2] at h3
      exact h3
    have hbb := edgeByte_bounds key hk (dd + (PStore.get ps).length) hdlen
    cases hInv with
    | n48 _ _ _ _ _ hcil hcl hnum hpre hent hzero hinj hsurj hcfree hsome hchild hedge =>
    have hxi := hx2
    simp only [ART.findChildIdx] at hxi
    have hcond : ci.getD (edgeByte key (dd + (PStore.get ps).length)) (-1) ≠ -1 := by
      by_contra hc2
      rw [if_neg (show ¬(ci.getD (edgeByte key (dd + (PStore.get ps).length)) (-1) ≠ -1) from
        fun hcc => hcc hc2)] at hxi
      cases hxi
    rw [if_pos hcond] at hxi
    have hieq : (ci.getD (edgeByte key (dd + (PStore.get ps).length)) (-1)).toNat = i :=
      Option.some.inj hxi
    rcases hent (edgeByte key (dd + (PStore.get ps).length)) with he | ⟨j0, hj0, he⟩
    · exact absurd he hcond
    have hij0 : j0 = i := by
      rw [he] at hieq
      simp only [Int.ofNat_eq_natCast, Int.toNat_natCast] at hieq
      exact hieq
    have hinum : i < num := by omega
    have hedgei := hedge (edgeByte key (dd + (PStore.get ps).length)) hcond
    rw [hieq] at hedgei
    have hchildi := hchild (edgeByte key (dd + (PStore.get ps).length)) hcond
    rw [hieq] at hchildi
    have hpath2 := path_descend (PStore.get ps) key dd (childAt cs i) hp2
        (fun p hp => (hedgei p hp).1)
        (fun p hp => hpath p (bindingsList_getD cs i p hp))
    obtain ⟨hIc, hmemc, holdc⟩ := ih2 hchildi hk hdlen hpath2
    have hset : insertChildren cs i key v (dd + (PStore.get ps).length) =
        cs.set i (some (insertSlot (childAt cs i) key v (dd + (PStore.get ps).length))) :=
      insertChildren_eq_set cs i key v _ (by rw [hcl]; omega)
    have hsub := bindings_insert_sub (childAt cs i) key v (dd + (PStore.get ps).length)
    have htoi : ∀ b1, ci.getD b1 (-1) ≠ -1 → (ci.getD b1 (-1)).toNat = i →
        b1 = edgeByte key (dd + (PStore.get ps).length) := by
      intro b1 hc1 ht1
      apply hinj b1 _ hc1
      rw [he]
      rcases hent b1 with he1 | ⟨j1, hj1, he1⟩
      · exact absurd he1 hc1
      · rw [he1] at ht1 ⊢
        simp only [Int.ofNat_eq_natCast, Int.toNat_natCast] at ht1
        simp only [Int.ofNat_eq_natCast]
        omega
    refine ⟨?_, ?_, ?_⟩
    · simp only [insertSlot]
      rw [insertNode_n48_descend ps ci cs num key v dd i hp2 hx2, hset]
      refine Inv.n48 _ _ _ _ _ hcil (by rw [List.length_set, hcl]) hnum hpre hent hzero
        hinj hsurj ?_ ?_ ?_ ?_
      · intro j hj
        rw [childAt_set_other _ _ _ _ (by omega)]
        exact hcfree j hj
      · intro j hj
        by_cases hji : j = i
        · rw [hji, childAt_set_self _ _ _ (by rw [hcl]; omega)]
          simp
        · rw [childAt_set_other _ _ _ _ (fun h3 => hji h3.symm)]
          exact hsome j hj
      · intro b1 hc1
        by_cases hi1 : (ci.getD b1 (-1)).toNat = i
        · rw [hi1, childAt_set_self _ _ _ (by rw [hcl]; omega)]
          exact hIc
        · rw [childAt_set_other _ _ _ _ (fun h3 => hi1 h3.symm)]
          exact hchild b1 hc1
      · intro b1 hc1
        by_cases hi1 : (ci.getD b1 (-1)).toNat = i
        · have hb1b := htoi b1 hc1 hi1
          rw [hi1, childAt_set_self _ _ _ (by rw [hcl]; omega)]
          intro q hq
          rcases hsub q hq with hq1 | hq1
          · constructor
            · rw [hq1]
              exact hp2
            · rw [hq1, hb1b]
          · rw [hb1b]
            exact hedgei q hq1
        · rw [childAt_set_other _ _ _ _ (fun h3 => hi1 h3.symm)]
          exact hedge b1 hc1
    · simp only [insertSlot]
      rw [insertNode_n48_descend ps ci cs num key v dd i hp2 hx2, hset]
      apply bindingsList_getD _ i
      rw [childAt_set_self _ _ _ (by rw [hcl]; omega)]
      exact hmemc
    · intro p hp hne
      simp only [insertSlot]
      rw [insertNode_n48_descend ps ci cs num key v dd i hp2 hx2, hset]
      rcases bindings_mem_child cs p hp with ⟨j, hjlt, hpj⟩
      by_cases hji : j = i
      · apply bindingsList_getD _ j
        rw [hji, childAt_set_self _ _ _ (by rw [hcl]; omega)]
        rw [hji] at hpj
        exact holdc p hpj hne
      · apply bindingsList_getD _ j
        rw [childAt_set_other _ _ _ _ (fun h3 => hji h3.symm)]
        exact hpj
  | case13 ps ci cs num key v dd t curPre pp h hx hf =>
    intro hInv hk hd hpath
    have hp2 : checkPrefix (PStore.get ps) key dd = (PStore.get ps).length := not_ne_iff.mp h
    have hx2 : (ART.n48 ps ci cs num (V := V)).findChildIdx
        (edgeByte key (dd + (PStore.get ps).length)) = none := hx
    have hf2 : (ART.n48 ps ci cs num (V := V)).isFullB = true := hf
    have hdlen : dd + (PStore.get ps).length ≤ key.length := by
      have h3 := checkPrefix_add_le (PStore.get ps) key dd hd
      rw [hp2] at h3
      exact h3
    have hbb := edgeByte_bounds key hk (dd + (PStore.get ps).length) hdlen
    obtain ⟨hgI, hgPre, hgFull, hgFind, hgBind⟩ :=
      Inv_grow (ART.n48 ps ci cs num (V := V)) dd hInv hf2
    have hL2 : ∀ k0 v0, (ART.n48 ps ci cs num (V := V)).growB ≠ ART.leaf k0 v0 := by
      intro k0 v0 hc
      simp only [ART.growB] at hc
      exact ART.noConfusion hc
    have hmatch2 : checkPrefix ((ART.n48 ps ci cs num (V := V)).growB).getPre key dd =
        ((ART.n48 ps ci cs num (V := V)).growB).getPre.length := by
      rw [hgPre]
      exact hp2
    have hmiss2 : ((ART.n48 ps ci cs num (V := V)).growB).findChildIdx
        (edgeByte key (dd + ((ART.n48 ps ci cs num (V := V)).growB).getPre.length)) = none := by
      rw [hgPre]
      exact hgFind (edgeByte key (dd + (PStore.get ps).length)) (by omega) hx2
    have hadd := InsP_addChild ((ART.n48 ps ci cs num (V := V)).growB) key v dd hL2 hgI hk hd
      hmatch2 hmiss2 hgFull
    refine ⟨?_, ?_, ?_⟩
    · simp only [insertSlot]
      rw [insertNode_n48_grow ps ci cs num key v dd hp2 hx2 hf2]
      exact hadd.1
    · simp only [insertSlot]
      rw [insertNode_n48_grow ps ci cs num key v dd hp2 hx2 hf2]
      exact hadd.2.1
    · intro p hp hne
      simp only [insertSlot]
      rw [insertNode_n48_grow ps ci cs num key v dd hp2 hx2 hf2]
      exact hadd.2.2 p (hgBind p hp)
  | case14 ps ci cs num key v dd t curPre pp h hx hf =>
    intro hInv hk hd hpath
    have hp2 : checkPrefix (PStore.get ps) key dd = (PStore.get ps).length := not_ne_iff.mp h
    have hx2 : (ART.n48 ps ci cs num (V := V)).findChildIdx
        (edgeByte key (dd + (PStore.get ps).length)) = none := hx
    have hf2 : (ART.n48 ps ci cs num (V := V)).isFullB = false := by
      have hf3 : ¬ (ART.n48 ps ci cs num (V := V)).isFullB = true := hf
      simpa using hf3
    have hL2 : ∀ k0 v0, (ART.n48 ps ci cs num (V := V)) ≠ ART.leaf k0 v0 := by
      intro k0 v0 hc
      exact ART.noConfusion hc
    have hadd := InsP_addChild (ART.n48 ps ci cs num (V := V)) key v dd hL2 hInv hk hd hp2 hx2 hf2
    refine ⟨?_, ?_, ?_⟩
    · simp only [insertSlot]
      rw [insertNode_n48_add ps ci cs num key v dd hp2 hx2
        (by rw [hf2]; exact Bool.false_ne_true)]
      exact hadd.1
    · simp only [insertSlot]
      rw [insertNode_n48_add ps ci cs num key v dd hp2 hx2
        (by rw [hf2]; exact Bool.false_ne_true)]
      exact hadd.2.1
    · intro p hp hne
      simp only [insertSlot]
      rw [insertNode_n48_add ps ci cs num key v dd hp2 hx2
        (by rw [hf2]; exact Bool.false_ne_true)]
      exact hadd.2.2 p hp
  | case15 ps cs key v dd t curPre pp h =>
    intro hInv hk hd hpath
    have h2 : checkPrefix (PStore.get ps) key dd ≠ (PStore.get ps).length := h
    have hsp := Inv_split_node (ART.n256 ps cs (V := V)) key v dd hInv hk hd h2
    refine ⟨?_, ?_, ?_⟩
    · simp only [insertSlot]
      rw [insertNode_n256_split ps cs key v dd h2]
      exact hsp.1
    · simp only [insertSlot]
      rw [insertNode_n256_split ps cs key v dd h2]
      exact hsp.2.1
    · intro p hp hne
      simp only [insertSlot]
      rw [insertNode_n256_split ps cs key v dd h2]
      exact hsp.2.2 p hp
  | case16 ps cs key v dd t curPre pp h i hx ih =>
    intro hInv hk hd hpath
    have hp2 : checkPrefix (PStore.get ps) key dd = (PStore.get ps).length := not_ne_iff.mp h
    have hx2 : (ART.n256 ps cs (V := V)).findChildIdx
        (edgeByte key (dd + (PStore.get ps).length)) = some i := hx
    have ih2 : InsP (childAt cs i) key v (dd + (PStore.get ps).length) := ih
    have hdlen : dd + (PStore.get ps).length ≤ key.length := by
      have h3 := checkPrefix_add_le (PStore.get ps) key dd hd
      rw [hp2] at h3
      exact h3
    have hbb := edgeByte_bounds key hk (dd + (PStore.get ps).length) hdlen
    cases hInv with
    | n256 _ _ _ hcl hpre hzero hchild hedge =>
    have hxi := hx2
    simp only [ART.findChildIdx] at hxi
    have hib : i = edgeByte key (dd + (PStore.get ps).length) := by
      cases hslot : cs.getD (edgeByte key (dd + (PStore.get ps).length)) none with
      | none =>
        rw [hslot] at hxi
        cases hxi
      | some c0 =>
        rw [hslot] at hxi
        exact (Option.some.inj hxi).symm
    have hblt : i < 256 := by omega
    have hpath2 := path_descend (PStore.get ps) key dd (childAt cs i) hp2
        (fun p hp => (hedge i hblt p hp).1)
        (fun p hp => hpath p (bindingsList_getD cs i p hp))
    obtain ⟨hIc, hmemc, holdc⟩ := ih2 (hchild i hblt) hk hdlen hpath2
    have hset : insertChildren cs i key v (dd + (PStore.get ps).length) =
        cs.set i (some (insertSlot (childAt cs i) key v (dd + (PStore.get ps).length))) :=
      insertChildren_eq_set cs i key v _ (by rw [hcl]; omega)
    have hsub := bindings_insert_sub (childAt cs i) key v (dd + (PStore.get ps).length)
    refine ⟨?_, ?_, ?_⟩
    · simp only [insertSlot]
      rw [insertNode_n256_descend ps cs key v dd i hp2 hx2, hset]
      refine Inv.n256 _ _ _ (by rw [List.length_set, hcl]) hpre ?_ ?_ ?_
      · rw [childAt_set_other _ _ _ _ (by omega)]
        exact hzero
      · intro b1 hb1
        by_cases hji : b1 = i
        · rw [hji, childAt_set_self _ _ _ (by rw [hcl]; omega)]
          exact hIc
        · rw [childAt_set_other _ _ _ _ (fun h3 => hji h3.symm)]
          exact hchild b1 hb1
      · intro b1 hb1
        by_cases hji : b1 = i
        · rw [hji, childAt_set_self _ _ _ (by rw [hcl]; omega)]
          intro q hq
          rcases hsub q hq with hq1 | hq1
          · constructor
            · rw [hq1]
              exact hp2
            · rw [hq1, hib]
          · exact hedge i hblt q hq1
        · rw [childAt_set_other _ _ _ _ (fun h3 => hji h3.symm)]
          exact hedge b1 hb1
    · simp only [insertSlot]
      rw [insertNode_n256_descend ps cs key v dd i hp2 hx2, hset]
      apply bindingsList_getD _ i
      rw [childAt_set_self _ _ _ (by rw [hcl]; omega)]
      exact hmemc
    · intro p hp hne
      simp only [insertSlot]
      rw [insertNode_n256_descend ps cs key v dd i hp2 hx2, hset]
      rcases bindings_mem_child cs p hp with ⟨j, hjlt, hpj⟩
      by_cases hji : j = i
      · apply bindingsList_getD _ j
        rw [hji, childAt_set_self _ _ _ (by rw [hcl]; omega)]
        rw [hji] at hpj
        exact holdc p hpj hne
      · apply bindingsList_getD _ j
        rw [childAt_set_other _ _ _ _ (fun h3 => hji h3.symm)]
        exact hpj
  | case17 ps cs key v dd t curPre pp h hx hf =>
    intro hInv hk hd hpath
    have hf2 : (ART.n256 ps cs (V := V)).isFullB = true := hf
    cases hf2
  | case18 ps cs key v dd t curPre pp h hx hf =>
    intro hInv hk hd hpath
    have hp2 : checkPrefix (PStore.get ps) key dd = (PStore.get ps).length := not_ne_iff.mp h
    have hx2 : (ART.n256 ps cs (V := V)).findChildIdx
        (edgeByte key (dd + (PStore.get ps).length)) = none := hx
    have hL2 : ∀ k0 v0, (ART.n256 ps cs (V := V)) ≠ ART.leaf k0 v0 := by
      intro k0 v0 hc
      exact ART.noConfusion hc
    have hadd := InsP_addChild (ART.n256 ps cs (V := V)) key v dd hL2 hInv hk hd hp2 hx2 rfl
    refine ⟨?_, ?_, ?_⟩
    · simp only [insertSlot]
      rw [insertNode_n256_add ps cs key v dd hp2 hx2 (by simp [ART.isFullB])]
      exact hadd.1
    · simp only [insertSlot]
      rw [insertNode_n256_add ps cs key v dd hp2 hx2 (by simp [ART.isFullB])]
      exact hadd.2.1
    · intro p hp hne
      simp only [insertSlot]
      rw [insertNode_n256_add ps cs key v dd hp2 hx2 (by simp [ART.isFullB])]
      exact hadd.2.2 p hp
  | case19 i key v dd =>
    exact InsP_none key v dd
  | case20 c tl key v dd ih =>
    exact ih
  | case21 c tl i key v dd ih =>
    exact ih
  | case22 key v dd =>
    exact InsP_none key v dd
  | case23 t key v dd ih =>
    exact ih

end Art

namespace Art
variable {V : Type}

/-- `search` finds every stored binding of a well-formed tree: on a slot
satisfying the invariant, searching a stored valid key returns its value
with `found = true`. -/
theorem search_finds (c : Option (ART V)) (key : List Nat) (d : Nat) :
    ∀ v : V, Inv c d → validKey key → d ≤ key.length →
      (key, v) ∈ bindingsSlot c → searchSlot c key d = (some v, true) := by
  induction c, key, d using searchSlot.induct with
  | motive_2 => next t k dd =>
      exact ∀ v : V, Inv (some t) dd → validKey k → dd ≤ k.length →
        (k, v) ∈ bindingsNode t → searchNode t k dd = (some v, true)
  | motive_3 => next cs i k dd =>
      exact ∀ v : V, Inv (childAt cs i) dd → validKey k → dd ≤ k.length →
        (k, v) ∈ bindingsSlot (childAt cs i) → searchChildren cs i k dd = (some v, true)
  | case1 v0 key dd =>
    intro vv hInv hk hd hmem
    simp only [bindingsNode, List.mem_singleton, Prod.mk.injEq] at hmem
    rw [searchNode_leaf, if_pos rfl, hmem.2]
  | case2 k v0 key dd h =>
    intro vv hInv hk hd hmem
    simp only [bindingsNode, List.mem_singleton, Prod.mk.injEq] at hmem
    exact absurd hmem.1.symm h
  | case3 ps keys cs num key dd pre pp h =>
    intro vv hInv hk hd hmem
    exfalso
    exact h (Inv_bindings_match (ART.n4 ps keys cs num (V := V)) dd hInv (key, vv) hmem)
  | case4 ps keys cs num key dd pre pp h i hx ih =>
    intro vv hInv hk hd hmem
    have hp2 : checkPrefix (PStore.get ps) key dd = (PStore.get ps).length := not_ne_iff.mp h
    have hx2 : (ART.n4 ps keys cs num (V := V)).findChildIdx
        (edgeByte key (dd + (PStore.get ps).length)) = some i := hx
    have hdlen : dd + (PStore.get ps).length ≤ key.length := by
      have h3 := checkPrefix_add_le (PStore.get ps) key dd hd
      rw [hp2] at h3
      exact h3
    cases hInv with
    | n4 _ _ _ _ _ hkl hcl hnum hpre hused hkfree hcfree hdist hsome hchild hedge =>
    rcases bindings_mem_child cs (key, vv) hmem with ⟨j, hjlt, hpj⟩
    have hjnum : j < num := by
      by_contra hc
      rw [hcfree j (by omega)] at hpj
      simp [bindingsSlot] at hpj
    have hbj := (hedge j hjnum (key, vv) hpj).2
    have hxi := hx2
    simp only [ART.findChildIdx] at hxi
    obtain ⟨hilt, hib⟩ := findIdx_some_spec keys _ _ hxi
    have hij : i = j := by
      by_cases hc : i = j
      · exact hc
      · exfalso
        have hbeq : keys.getD i 0 = keys.getD j 0 := by rw [hib, hbj]
        have hbge : 1 ≤ keys.getD j 0 := (hused j hjnum).1
        have hinum : i < num := by
          by_contra hc2
          have h0 := hkfree i (by omega)
          omega
        rcases Nat.lt_or_ge i j with hlt | hge
        · exact hdist i j hlt hjnum hbeq
        · exact hdist j i (by omega) hinum hbeq.symm
    rw [searchNode_n4_descend ps keys cs num key dd i hp2 hx2]
    apply ih vv
    · rw [hij]
      exact hchild j hjnum
    · exact hk
    · exact hdlen
    · rw [hij]
      exact hpj
  | case5 ps keys cs num key dd pre pp h hx =>
    intro vv hInv hk hd hmem
    exfalso
    have hx2 : (ART.n4 ps keys cs num (V := V)).findChildIdx
        (edgeByte key (dd + (PStore.get ps).length)) = none := hx
    cases hInv with
    | n4 _ _ _ _ _ hkl hcl hnum hpre hused hkfree hcfree hdist hsome hchild hedge =>
    rcases bindings_mem_child cs (key, vv) hmem with ⟨j, hjlt, hpj⟩
    have hjnum : j < num := by
      by_contra hc
      rw [hcfree j (by omega)] at hpj
      simp [bindingsSlot] at hpj
    have hbj := (hedge j hjnum (key, vv) hpj).2
    have hxi := hx2
    simp only [ART.findChildIdx] at hxi
    exact findIdx_none_spec keys _ hxi j (by rw [hkl]; omega) hbj.symm
  | case6 ps keys cs num key dd pre pp h =>
    intro vv hInv hk hd hmem
    exfalso
    exact h (Inv_bindings_match (ART.n16 ps keys cs num (V := V)) dd hInv (key, vv) hmem)
  | case7 ps keys cs num key dd pre pp h i hx ih =>
    intro vv hInv hk hd hmem
    have hp2 : checkPrefix (PStore.get ps) key dd = (PStore.get ps).length := not_ne_iff.mp h
    have hx2 : (ART.n16 ps keys cs num (V := V)).findChildIdx
        (edgeByte key (dd + (PStore.get ps).length)) = some i := hx
    have hdlen : dd + (PStore.get ps).length ≤ key.length := by
      have h3 := checkPrefix_add_le (PStore.get ps) key dd hd
      rw [hp2] at h3
      exact h3
    cases hInv with
    | n16 _ _ _ _ _ hkl hcl hnum hpre hused hkfree hcfree hdist hsome hchild hedge =>
    rcases bindings_mem_child cs (key, vv) hmem with ⟨j, hjlt, hpj⟩
    have hjnum : j < num := by
      by_contra hc
      rw [hcfree j (by omega)] at hpj
      simp [bindingsSlot] at hpj
    have hbj := (hedge j hjnum (key, vv) hpj).2
    have hxi := hx2
    simp only [ART.findChildIdx] at hxi
    obtain ⟨hilt, hib⟩ := findIdx_some_spec keys _ _ hxi
    have hij : i = j := by
      by_cases hc : i = j
      · exact hc
      · exfalso
        have hbeq : keys.getD i 0 = keys.getD j 0 := by rw [hib, hbj]
        have hbge : 1 ≤ keys.getD j 0 := (hused j hjnum).1
        have hinum : i < num := by
          by_contra hc2
          have h0 := hkfree i (by omega)
          omega
        rcases Nat.lt_or_ge i j with hlt | hge
        · exact hdist i j hlt hjnum hbeq
        · exact hdist j i (by omega) hinum hbeq.symm
    rw [searchNode_n16_descend ps keys cs num key dd i hp2 hx2]
    apply ih vv
    · rw [hij]
      exact hchild j hjnum
    · exact hk
    · exact hdlen
    · rw [hij]
      exact hpj
  | case8 ps keys cs num key dd pre pp h hx =>
    intro vv hInv hk hd hmem
    exfalso
    have hx2 : (ART.n16 ps keys cs num (V := V)).findChildIdx
        (edgeByte key (dd + (PStore.get ps).length)) = none := hx
    cases hInv with
    | n16 _ _ _ _ _ hkl hcl hnum hpre hused hkfree hcfree hdist hsome hchild hedge =>
    rcases bindings_mem_child cs (key, vv) hmem with ⟨j, hjlt, hpj⟩
    have hjnum : j < num := by
      by_contra hc
      rw [hcfree j (by omega)] at hpj
      simp [bindingsSlot] at hpj
    have hbj := (hedge j hjnum (key, vv) hpj).2
    have hxi := hx2
    simp only [ART.findChildIdx] at hxi
    exact findIdx_none_spec keys _ hxi j (by rw [hkl]; omega) hbj.symm
  | case9 ps ci cs num key dd pre pp h =>
    intro vv hInv hk hd hmem
    exfalso
    exact h (Inv_bindings_match (ART.n48 ps ci cs num (V := V)) dd hInv (key, vv) hmem)
  | case10 ps ci cs num key dd pre pp h i hx ih =>
    intro vv hInv hk hd hmem
    have hp2 : checkPrefix (PStore.get ps) key dd = (PStore.get ps).length := not_ne_iff.mp h
    have hx2 : (ART.n48 ps ci cs num (V := V)).findChildIdx
        (edgeByte key (dd + (PStore.get ps).length)) = some i := hx
    have hdlen : dd + (PStore.get ps).length ≤ key.length := by
      have h3 := checkPrefix_add_le (PStore.get ps) key dd hd
      rw [hp2] at h3
      exact h3
    cases hInv with
    | n48 _ _ _ _ _ hcil hcl hnum hpre hent hzero hinj hsurj hcfree hsome hchild hedge =>
    rcases bindings_mem_child cs (key, vv) hmem with ⟨j, hjlt, hpj⟩
    have hjnum : j < num := by
      by_contra hc
      rw [hcfree j (by omega)] at hpj
      simp [bindingsSlot] at hpj
    obtain ⟨bj, hbj256, hbjent⟩ := hsurj j hjnum
    have hcondbj : ci.getD bj (-1) ≠ -1 := by
      rw [hbjent]
      simp only [Int.ofNat_eq_natCast]
      omega
    have htn : (ci.getD bj (-1)).toNat = j := by
      rw [hbjent]
      simp only [Int.ofNat_eq_natCast, Int.toNat_natCast]
    have hedgebj := hedge bj hcondbj
    rw [htn] at hedgebj
    have hbeq : edgeByte key (dd + (PStore.get ps).length) = bj := (hedgebj (key, vv) hpj).2
    have hchildj := hchild bj hcondbj
    rw [htn] at hchildj
    have hxi := hx2
    simp only [ART.findChildIdx] at hxi
    have hcond : ci.getD (edgeByte key (dd + (PStore.get ps).length)) (-1) ≠ -1 := by
      rw [hbeq]
      exact hcondbj
    rw [if_pos hcond] at hxi
    have hieq : (ci.getD (edgeByte key (dd + (PStore.get ps).length)) (-1)).toNat = i :=
      Option.some.inj hxi
    have hij : j = i := by
      rw [hbeq, htn] at hieq
      exact hieq
    rw [searchNode_n48_descend ps ci cs num key dd i hp2 hx2]
    apply ih vv
    · rw [← hij]
      exact hchildj
    · exact hk
    · exact hdlen
    · rw [← hij]
      exact hpj
  | case11 ps ci cs num key dd pre pp h hx =>
    intro vv hInv hk hd hmem
    exfalso
    have hx2 : (ART.n48 ps ci cs num (V := V)).findChildIdx
        (edgeByte key (dd + (PStore.get ps).length)) = none := hx
    cases hInv with
    | n48 _ _ _ _ _ hcil hcl hnum hpre hent hzero hinj hsurj hcfree hsome hchild hedge =>
    rcases bindings_mem_child cs (key, vv) hmem with ⟨j, hjlt, hpj⟩
    have hjnum : j < num := by
      by_contra hc
      rw [hcfree j (by omega)] at hpj
      simp [bindingsSlot] at hpj
    obtain ⟨bj, hbj256, hbjent⟩ := hsurj j hjnum
    have hcondbj : ci.getD bj (-1) ≠ -1 := by
      rw [hbjent]
      simp only [Int.ofNat_eq_natCast]
      omega
    have htn : (ci.getD bj (-1)).toNat = j := by
      rw [hbjent]
      simp only [Int.ofNat_eq_natCast, Int.toNat_natCast]
    have hedgebj := hedge bj hcondbj
    rw [htn] at hedgebj
    have hbeq : edgeByte key (dd + (PStore.get ps).length) = bj := (hedgebj (key, vv) hpj).2
    have hxi := hx2
    simp only [ART.findChildIdx] at hxi
    have hm : ci.getD (edgeByte key (dd + (PStore.get ps).length)) (-1) = -1 := by
      by_contra hc
      rw [if_pos hc] at hxi
      cases hxi
    rw [hbeq, hbjent] at hm
    simp only [Int.ofNat_eq_natCast] at hm
    omega
  | case12 ps cs key dd pre pp h =>
    intro vv hInv hk hd hmem
    exfalso
    exact h (Inv_bindings_match (ART.n256 ps cs (V := V)) dd hInv (key, vv) hmem)
  | case13 ps cs key dd pre pp h i hx ih =>
    intro vv hInv hk hd hmem
    have hp2 : checkPrefix (PStore.get ps) key dd = (PStore.get ps).length := not_ne_iff.mp h
    have hx2 : (ART.n256 ps cs (V := V)).findChildIdx
        (edgeByte key (dd + (PStore.get ps).length)) = some i := hx
    have hdlen : dd + (PStore.get ps).length ≤ key.length := by
      have h3 := checkPrefix_add_le (PStore.get ps) key dd hd
      rw [hp2] at h3
      exact h3
    cases hInv with
    | n256 _ _ _ hcl hpre hzero hchild hedge =>
    rcases bindings_mem_child cs (key, vv) hmem with ⟨j, hjlt, hpj⟩
    rw [hcl] at hjlt
    have hbeq : edgeByte key (dd + (PStore.get ps).length) = j :=
      (hedge j hjlt (key, vv) hpj).2
    have hxi := hx2
    simp only [ART.findChildIdx] at hxi
    have hij : i = j := by
      cases hs : cs.getD (edgeByte key (dd + (PStore.get ps).length)) none with
      | none =>
        exfalso
        have hsj : childAt cs j = none := by
          unfold childAt
          rw [← hbeq]
          exact hs
        rw [hsj] at hpj
        simp [bindingsSlot] at hpj
      | some c0 =>
        rw [hs] at hxi
        have hbi := Option.some.inj hxi
        omega
    rw [searchNode_n256_descend ps cs key dd i hp2 hx2]
    apply ih vv
    · rw [hij]
      exact hchild j hjlt
    · exact hk
    · exact hdlen
    · rw [hij]
      exact hpj
  | case14 ps cs key dd pre pp h hx =>
    intro vv hInv hk hd hmem
    exfalso
    have hx2 : (ART.n256 ps cs (V := V)).findChildIdx
        (edgeByte key (dd + (PStore.get ps).length)) = none := hx
    cases hInv with
    | n256 _ _ _ hcl hpre hzero hchild hedge =>
    rcases bindings_mem_child cs (key, vv) hmem with ⟨j, hjlt, hpj⟩
    rw [hcl] at hjlt
    have hbeq : edgeByte key (dd + (PStore.get ps).length) = j :=
      (hedge j hjlt (key, vv) hpj).2
    have hxi := hx2
    simp only [ART.findChildIdx] at hxi
    cases hs : cs.getD (edgeByte key (dd + (PStore.get ps).length)) none with
    | none =>
      have hsj : childAt cs j = none := by
        unfold childAt
        rw [← hbeq]
        exact hs
      rw [hsj] at hpj
      simp [bindingsSlot] at hpj
    | some c0 =>
      rw [hs] at hxi
      cases hxi
  | case15 i key dd =>
    intro vv hInv hk hd hmem
    simp [childAt, bindingsSlot] at hmem
  | case16 c tl key dd ih =>
    intro vv hInv hk hd hmem
    show searchSlot c key dd = (some vv, true)
    exact ih vv hInv hk hd hmem
  | case17 c tl i key dd ih =>
    intro vv hInv hk hd hmem
    show searchChildren tl i key dd = (some vv, true)
    exact ih vv hInv hk hd hmem
  | case18 key dd =>
    intro vv hInv hk hd hmem
    simp [bindingsSlot] at hmem
  | case19 t key dd ih =>
    intro vv hInv hk hd hmem
    show searchNode t key dd = (some vv, true)
    exact ih vv hInv hk hd hmem

end Art

namespace Art
variable {V : Type}

/-- `lastIns` reports a value only for a key that the sequence inserted. -/
theorem lastIns_mem (ops : List (List Nat × V)) (k : List Nat) (v : V)
    (h : lastIns ops k = some v) : ∃ p ∈ ops, p.1 = k := by
  suffices hgen : ∀ acc : Option V,
      ops.foldl (fun a p => if p.1 = k then some p.2 else a) acc = some v →
      (∃ p ∈ ops, p.1 = k) ∨ acc = some v by
    rcases hgen none h with h2 | h2
    · exact h2
    · cases h2
  clear h
  induction ops with
  | nil =>
    intro acc hacc
    exact Or.inr hacc
  | cons q tl ih =>
    intro acc hacc
    simp only [List.foldl] at hacc
    rcases ih _ hacc with h2 | h2
    · rcases h2 with ⟨p, hp, hpk⟩
      exact Or.inl ⟨p, by simp [hp], hpk⟩
    · by_cases hq : q.1 = k
      · exact Or.inl ⟨q, by simp, hq⟩
      · rw [if_neg hq] at h2
        exact Or.inr h2

/-- The fold invariant of a sequence of sequential inserts of valid keys:
the tree stays well-formed and binds every key of the sequence to the value
of its last insert. -/
theorem InsertAll_inv (ops : List (List Nat × V)) (hv : ∀ p ∈ ops, validKey p.1) :
    Inv (InsertAll ops) 0 ∧
    ∀ k v0, lastIns ops k = some v0 → (k, v0) ∈ bindingsSlot (InsertAll ops) := by
  suffices hgen : ∀ (acc : Option (ART V)) (m : List Nat → Option V),
      (∀ p ∈ ops, validKey p.1) →
      Inv acc 0 →
      (∀ k v0, m k = some v0 → (k, v0) ∈ bindingsSlot acc) →
      Inv (ops.foldl (fun t q => Insert t q.1 q.2) acc) 0 ∧
      ∀ k v0, ops.foldl (fun a p => if p.1 = k then some p.2 else a) (m k) = some v0 →
        (k, v0) ∈ bindingsSlot (ops.foldl (fun t q => Insert t q.1 q.2) acc) by
    have h2 := hgen NewART (fun _ => none) hv (Inv.nil 0) (by intro k v0 h3; cases h3)
    exact ⟨h2.1, h2.2⟩
  clear hv
  induction ops with
  | nil =>
    intro acc m hv2 hI hm
    exact ⟨hI, hm⟩
  | cons q tl ih =>
    intro acc m hv2 hI hm
    obtain ⟨hnewI, hnewMem, hnewOld⟩ :=
      insert_correct acc q.1 q.2 0 hI (hv2 q (by simp)) (Nat.zero_le _)
        (fun p _ => ⟨Nat.zero_le _, fun j hj => absurd hj (by omega)⟩)
    have hstep := ih (Insert acc q.1 q.2) (fun k => if q.1 = k then some q.2 else m k)
        (fun p hp => hv2 p (by simp [hp]))
        (by
          show Inv (some (insertSlot acc q.1 q.2 0)) 0
          exact hnewI)
        (by
          intro k v0 h3
          have h4 : (if q.1 = k then some q.2 else m k) = some v0 := h3
          by_cases hq : q.1 = k
          · rw [if_pos hq] at h4
            have hv0 : v0 = q.2 := (Option.some.inj h4).symm
            show (k, v0) ∈ bindingsNode (insertSlot acc q.1 q.2 0)
            rw [hv0, ← hq]
            exact hnewMem
          · rw [if_neg hq] at h4
            show (k, v0) ∈ bindingsNode (insertSlot acc q.1 q.2 0)
            exact hnewOld (k, v0) (hm k v0 h4) (fun h5 => hq h5.symm))
    exact hstep

/-- C1, counterexample: the code is not a correct last-writer-wins map over
arbitrary byte-string keys.  (1) Keys containing the byte `0xFF` collide
with the `TerminationChar` sentinel that files end-of-key edges: after
`Insert([0x61], 1)` and `Insert([0x61 0xFF], 2)`, searching `[0x61 0xFF]`
reports absent.  (2) Keys containing the byte `0x00` collide with the
zero-initialised unused `keys` entries of `node4`: after inserting `[0x61]`,
`[0x62]`, `[0x00]`, `[0x63]`, searching `[0x00]` reports absent.  In both
runs the key was inserted (its last-writer value exists). -/
theorem insert_search_cex :
    lastIns [([97], (1 : Nat)), ([97, 255], 2)] [97, 255] = some 2 ∧
    Search (InsertAll [([97], (1 : Nat)), ([97, 255], 2)]) [97, 255] = (none, false) ∧
    lastIns [([97], (1 : Nat)), ([98], 2), ([0], 3), ([99], 4)] [0] = some 3 ∧
    Search (InsertAll [([97], (1 : Nat)), ([98], 2), ([0], 3), ([99], 4)]) [0] =
      (none, false) :=
  ⟨rfl, rfl, rfl, rfl⟩

/-- C1 (amended): for keys over bytes `0x01..0xFE` — excluding the byte
`0x00`, which collides with unused zero-initialised `keys` entries, and
`0xFF`, which collides with the END sentinel — a sequence of sequential
`Insert`s on `NewART()` makes `Search` return the value of the key's last
insert with `found = true`. -/
theorem insert_search_lastwriter (ops : List (List Nat × V)) (k : List Nat) (v : V)
    (hv : ∀ p ∈ ops, validKey p.1)
    (hlast : lastIns ops k = some v) :
    Search (InsertAll ops) k = (some v, true) := by
  obtain ⟨hI, hbind⟩ := InsertAll_inv ops hv
  have hmem := hbind k v hlast
  have hkvalid : validKey k := by
    rcases lastIns_mem ops k v hlast with ⟨p, hp, hpk⟩
    rw [← hpk]
    exact hv p hp
  unfold Search
  exact search_finds (InsertAll ops) k 0 v hI hkvalid (Nat.zero_le _) hmem

/-- Witness for `insert_search_lastwriter`: keys `[0x61]`, `[0x61 0x62]`,
then `[0x61]` again — searching `[0x61]` yields the overwritten value 3. -/
theorem insert_search_lastwriter_witness :
    (∀ p ∈ [([97], (1 : Nat)), ([97, 98], 2), ([97], 3)], validKey p.1) ∧
    lastIns [([97], (1 : Nat)), ([97, 98], 2), ([97], 3)] [97] = some 3 ∧
    Search (InsertAll [([97], (1 : Nat)), ([97, 98], 2), ([97], 3)]) [97] = (some 3, true) :=
  ⟨by decide, rfl, insert_search_lastwriter _ _ _ (by decide) rfl⟩

end Art
